import Mathlib

/-! SU shell: command-line parser and runner

A shallow embedding of `parser.c`, `list.c`, `environ.c`, `runner.c`,
`internal.c` and `executor.c`.

Conventions of the embedding.

* A C string is the list of its characters before the terminating NUL.
* An intrusive circular list (`struct list_head`) is the list of its entries,
  head first. The functions of `list.c` are given on the nodes in memory as
  well, where such a list is the sequence that a circular list represents.
* A `char *` that may be NULL, or a slot that may never have been assigned, is
  an `Option`.
* A run that reads a pointer that was never assigned, or that writes outside
  the block it was given (the 100 bytes of the word buffer `temp`, the array
  `exec_args`), has no result: the functions concerned return `none`.
* Releasing storage (`free`) is not represented: a list that is cleared is the
  empty list, and `free_commandline_struct` has no counterpart.
* What the operating system returns to a call (`chdir`, `access`, `fopen`,
  `pipe`, `fork`) is a parameter; `run_command` is followed in the process
  that calls it, as the list of its system calls and the set of its open
  descriptors.
-/

namespace SuShell

/-! ## datastructures.h -/

/-- The `enum Token` of `datastructures.h`. -/
inductive Token where
  | REDIRECT_INPUT
  | REDIRECT_OUTPUT_APPEND
  | REDIRECT_OUTPUT_TRUNCATE
  | NORMAL
  | FILENAME
  deriving DecidableEq, Repr

/-- The `enum State` of `parser.c`. -/
inductive State where
  | START
  | WHITESPACE
  | CHARACTER
  | QUOTE
  | OUTPUT
  | REDIR
  | INPUT
  deriving DecidableEq, Repr

/-- The `argument` struct: one entry of `list_args`. -/
structure Argument where
  contents : List Char
  token : Token
  deriving DecidableEq, Repr

/-- The `commandline` struct: `num` and the array `subcommand`, whose slots
are `none` until `copy_subcommands` assigns them. -/
structure Commandline where
  num : Nat
  subcommand : List (Option (List Char))
  deriving DecidableEq, Repr

/-- The `struct subcommand`: `exec_args` is the allocated array (a `none`
element is a NULL pointer); `type` is `none` while the field has never been
written. -/
structure Subcommand where
  exec_args : List (Option (List Char))
  input : List Char
  output : List Char
  type : Option Token
  deriving DecidableEq, Repr

/-! ## list.c -/

/-- `list_add(new, head)`: the new node goes to the front of the list. -/
abbrev list_add {α : Type} (new : α) (head : List α) : List α := new :: head

/-- `list_add_tail(new, head)`: the new node goes to the end of the list. -/
abbrev list_add_tail {α : Type} (new : α) (head : List α) : List α := head ++ [new]

/-- `getListLength`. -/
def getListLength {α : Type} (list : List α) : Nat := list.length

/-! ## parser.c: special characters -/

def SPACE : Char := ' '
def TAB : Char := '\t'
def NEWLINE : Char := '\n'
def QUOTATIONMARK : Char := '"'
def PIPE : Char := '|'
def REDIR_IN : Char := '<'
def REDIR_OUT : Char := '>'

/-- The character that `input[i]` reads: past the characters of the string
lies its NUL terminator. -/
def charAt (input : List Char) (i : Nat) : Char :=
  input.getD i (Char.ofNat 0)

/-- The loop of `find_num_subcommands` at index `i` with `n` iterations left
(`n = len - i`) and the running `count`. -/
def find_num_subcommands_loop (input : List Char) : Nat → Nat → Nat → Nat
  | 0, _, count => count
  | n + 1, i, count =>
    find_num_subcommands_loop input n (i + 1)
      (if charAt input i = PIPE then count + 1 else count)

/-- `find_num_subcommands(input, len)`: starts from `count = 1` and adds one
for every `i < len` with `input[i] == PIPE`. -/
def find_num_subcommands (input : List Char) (len : Nat) : Nat :=
  find_num_subcommands_loop input len 0 1

/-- One call of `strtok` on the saved position `s` with the delimiter `d`:
leading delimiters are skipped; at the end of the string the call returns
NULL; otherwise it returns the run up to the next delimiter and saves the
position after that delimiter. -/
def strtok (d : Char) (s : List Char) : Option (List Char) × List Char :=
  match s.dropWhile (fun c => c == d) with
  | [] => (none, [])
  | c :: r =>
    (some ((c :: r).takeWhile (fun x => x != d)),
     ((c :: r).dropWhile (fun x => x != d)).drop 1)

/-- The `for` loop of `copy_subcommands` over the `n` slots that remain:
`cmd` is the token at hand and `save` the position `strtok` kept. When `cmd`
is NULL the function returns and the remaining slots stay unassigned. -/
def copy_subcommands_loop : Nat → Option (List Char) → List Char →
    List (Option (List Char))
  | 0, _, _ => []
  | n + 1, none, _ => List.replicate (n + 1) none
  | n + 1, some cmd, save =>
    some cmd :: copy_subcommands_loop n (strtok PIPE save).1 (strtok PIPE save).2

/-- `copy_subcommands(input, num, subcommand)` on a freshly allocated array of
`num` slots: the array after the call. -/
def copy_subcommands (input : List Char) (num : Nat) : List (Option (List Char)) :=
  if charAt input 0 ≠ NEWLINE then
    copy_subcommands_loop num (strtok PIPE input).1 (strtok PIPE input).2
  else List.replicate num none

/-! ## parser.c: character classes -/

def is_whitespace (c : Char) : Bool := c == SPACE || c == TAB

def is_quote (c : Char) : Bool := c == QUOTATIONMARK

def is_redir (c : Char) : Bool := c == REDIR_IN || c == REDIR_OUT

def is_character (c : Char) : Bool :=
  !is_redir c && !is_whitespace c && !is_quote c

/-- `check_character_state`: the four tests in the order of the source (one
of them always holds). -/
def check_character_state (c : Char) : State :=
  if is_character c then State.CHARACTER
  else if is_whitespace c then State.WHITESPACE
  else if is_quote c then State.QUOTE
  else State.REDIR

/-! ## parser.c: redirect validation -/

/-- `check_validity_of_cmdline_redirects`: 0 for a legal line, -1 otherwise
(the `list_args` parameter is not used by the source). -/
def check_validity_of_cmdline_redirects (total_cmds current_cmd stdins stdouts : Int) : Int :=
  if total_cmds = 1 then
    if stdins > 1 ∨ stdouts > 1 then -1 else 0
  else if total_cmds > 1 ∧ current_cmd = 1 then
    if stdins > 1 ∨ stdouts ≠ 0 then -1 else 0
  else if total_cmds > 1 ∧ current_cmd < total_cmds then
    if stdins ≠ 0 ∨ stdouts ≠ 0 then -1 else 0
  else if total_cmds > 1 ∧ current_cmd = total_cmds then
    if stdins ≠ 0 ∨ stdouts > 1 then -1 else 0
  else 0

/-- The table of legal redirect counts of the specification, by the position
of the stage: sole stage, first of several, middle, last of several. -/
def legal_redirect_counts (total_cmds current_cmd stdins stdouts : Int) : Prop :=
  (total_cmds = 1 → stdins ≤ 1 ∧ stdouts ≤ 1) ∧
  (1 < total_cmds → current_cmd = 1 → stdins ≤ 1 ∧ stdouts = 0) ∧
  (1 < total_cmds → 1 < current_cmd → current_cmd < total_cmds →
    stdins = 0 ∧ stdouts = 0) ∧
  (1 < total_cmds → current_cmd = total_cmds → stdins = 0 ∧ stdouts ≤ 1)

instance legal_redirect_counts_decidable (t c i o : Int) :
    Decidable (legal_redirect_counts t c i o) := by
  unfold legal_redirect_counts; infer_instance

/-! ## parser.c: the lexer -/

/-- The local variables of `parse_commandline` that the scan of a segment
reads and writes. -/
structure ParserState where
  temp : List Char
  currentState : State
  list_args : List Argument
  word_count : Nat
  redirect_in_count : Nat
  redirect_out_count : Nat
  deriving DecidableEq, Repr

/-- `strncat(temp, &subcommand[i][j], n)`: the characters `cs` are appended
to the word buffer. Whether the buffer has room for them is `strncat_fits`;
the source does not test it. -/
def strncat (st : ParserState) (cs : List Char) : ParserState :=
  { st with temp := st.temp ++ cs }

/-- The word buffer is `temp = calloc(100, sizeof(char))`: `strncat` writes
the characters `cs` behind the `strlen(temp)` characters in the buffer and a
NUL behind them, so the call stays inside the 100 bytes exactly when
`strlen(temp) + n < 100`. -/
def strncat_fits (st : ParserState) (cs : List Char) : Bool :=
  st.temp.length + cs.length < 100

/-- `add_arg_to_list(temp, token, arg, list_args)`: a copy of `temp` with its
token goes to the tail of `list_args` and the buffer is cleared. -/
def add_arg_to_list (st : ParserState) (token : Token) : ParserState :=
  { st with list_args := list_add_tail ⟨st.temp, token⟩ st.list_args, temp := [] }

/-- The branch of the scan for `REDIR_OUT`: a pending word is flushed, then
`>>` (one character of lookahead) or `>` is added; the result is paired with
the flag that tells whether the lookahead character was consumed (`j++`). -/
def scan_redir_out (st : ParserState) (next : Char) : ParserState × Bool :=
  let st1 := if st.temp.length > 0 then add_arg_to_list st Token.NORMAL else st
  if next = REDIR_OUT then
    let st2 := add_arg_to_list (strncat st1 [REDIR_OUT, REDIR_OUT]) Token.REDIRECT_OUTPUT_APPEND
    ({ st2 with redirect_out_count := st2.redirect_out_count + 1 }, true)
  else
    let st2 := add_arg_to_list (strncat st1 [REDIR_OUT]) Token.REDIRECT_OUTPUT_TRUNCATE
    ({ st2 with redirect_out_count := st2.redirect_out_count + 1 }, false)

/-- Whether the call of `strncat` in the branch for `REDIR_OUT` fits the
buffer. -/
def scan_redir_out_fits (st : ParserState) (next : Char) : Bool :=
  let st1 := if st.temp.length > 0 then add_arg_to_list st Token.NORMAL else st
  if next = REDIR_OUT then strncat_fits st1 [REDIR_OUT, REDIR_OUT]
  else strncat_fits st1 [REDIR_OUT]

/-- The branch of the scan for `REDIR_IN`. -/
def scan_redir_in (st : ParserState) : ParserState :=
  let st1 := if st.temp.length > 0 then add_arg_to_list st Token.NORMAL else st
  let st2 := add_arg_to_list (strncat st1 [REDIR_IN]) Token.REDIRECT_INPUT
  { st2 with redirect_in_count := st2.redirect_in_count + 1 }

/-- Whether the call of `strncat` in the branch for `REDIR_IN` fits the
buffer. -/
def scan_redir_in_fits (st : ParserState) : Bool :=
  let st1 := if st.temp.length > 0 then add_arg_to_list st Token.NORMAL else st
  strncat_fits st1 [REDIR_IN]

/-- The branch of the scan for an ordinary character `c`; `last` tells
whether `j == strlen(subcommand[i]) - 1`. -/
def scan_character (st : ParserState) (c : Char) (last : Bool) : ParserState :=
  let st1 := strncat { st with currentState := State.CHARACTER } [c]
  if last then add_arg_to_list st1 Token.NORMAL else st1

/-- The branch of the scan for a space or a tab. -/
def scan_whitespace (st : ParserState) : ParserState :=
  if st.currentState ≠ State.WHITESPACE then
    let st1 := add_arg_to_list st Token.NORMAL
    { st1 with currentState := State.WHITESPACE, word_count := st1.word_count + 1 }
  else st

/-- The scan of one segment, `for (j = 0; j < strlen(subcommand[i]); j++)`,
from position `j` on: the third argument is the text from `subcommand[i][j]`
to the end. The flag is true inside the inner `while` loop of the quote
branch, which copies characters up to the closing quotation mark. The result
is `none` when that loop reaches the end of the segment (`return -1`). The
scan is followed here as long as its calls of `strncat` stay inside `temp`;
whether they do is `temp_overrun`, which `parse_commandline_loop` asks before
it takes the result of the scan. -/
def scan_subcommand : Bool → ParserState → List Char → Option ParserState
  | false, st, [] => some st
  | true, _, [] => none
  | true, st, c :: rest =>
    if c = QUOTATIONMARK then
      scan_subcommand false
        { add_arg_to_list st Token.NORMAL with currentState := State.WHITESPACE } rest
    else scan_subcommand true (strncat st [c]) rest
  | false, st, c :: rest =>
    if check_character_state c = State.CHARACTER ∨ check_character_state c = State.REDIR then
      if c = REDIR_OUT then
        match rest with
        | [] => scan_subcommand false (scan_redir_out st (Char.ofNat 0)).1 []
        | c2 :: rest2 =>
          if (scan_redir_out st c2).2 then scan_subcommand false (scan_redir_out st c2).1 rest2
          else scan_subcommand false (scan_redir_out st c2).1 (c2 :: rest2)
      else if c = REDIR_IN then scan_subcommand false (scan_redir_in st) rest
      else scan_subcommand false (scan_character st c rest.isEmpty) rest
    else if check_character_state c = State.WHITESPACE then
      scan_subcommand false (scan_whitespace st) rest
    else if check_character_state c = State.QUOTE then
      if st.currentState ≠ State.QUOTE then
        scan_subcommand true { st with currentState := State.QUOTE } rest
      else scan_subcommand false st rest
    else scan_subcommand false st rest

/-- The calls of `strncat` in the scan of one segment, followed along the
recursion of `scan_subcommand`: true when one of them does not fit the 100
bytes of `temp`, that is, when the scan writes past the end of the buffer. -/
def temp_overrun : Bool → ParserState → List Char → Bool
  | _, _, [] => false
  | true, st, c :: rest =>
    if c = QUOTATIONMARK then
      temp_overrun false
        { add_arg_to_list st Token.NORMAL with currentState := State.WHITESPACE } rest
    else !strncat_fits st [c] || temp_overrun true (strncat st [c]) rest
  | false, st, c :: rest =>
    if check_character_state c = State.CHARACTER ∨ check_character_state c = State.REDIR then
      if c = REDIR_OUT then
        match rest with
        | [] => !scan_redir_out_fits st (Char.ofNat 0)
        | c2 :: rest2 =>
          !scan_redir_out_fits st c2 ||
            (if (scan_redir_out st c2).2 then temp_overrun false (scan_redir_out st c2).1 rest2
             else temp_overrun false (scan_redir_out st c2).1 (c2 :: rest2))
      else if c = REDIR_IN then
        !scan_redir_in_fits st || temp_overrun false (scan_redir_in st) rest
      else
        !strncat_fits st [c] || temp_overrun false (scan_character st c rest.isEmpty) rest
    else if check_character_state c = State.WHITESPACE then
      temp_overrun false (scan_whitespace st) rest
    else if check_character_state c = State.QUOTE then
      if st.currentState ≠ State.QUOTE then
        temp_overrun true { st with currentState := State.QUOTE } rest
      else temp_overrun false st rest
    else temp_overrun false st rest

/-! ## parser.c: building a stage -/

/-- The six names of `internal_cmds` in `check_internal_command`. -/
def internal_cmd_names : List (List Char) :=
  ["setenv".toList, "getenv".toList, "unsetenv".toList, "cd".toList, "pwd".toList,
   "exit".toList]

/-- `check_internal_command(list_args)`: 0 when the contents of the first
entry is one of the six names, 1 otherwise; the first entry of an empty list
is not an entry. -/
def check_internal_command (list_args : List Argument) : Option Int :=
  match list_args with
  | [] => none
  | entry :: _ => some (if entry.contents ∈ internal_cmd_names then 0 else 1)

/-- The `while (curr != arg && i < 20)` loop of `get_input_output`: `i` is
the counter, `kept` the entries already passed and left in the list, the last
argument the entries from `curr` on. A redirect token is deleted
(`delete_token` records its token in `type`), and `DELETE_FILE` takes the
entry that follows as the path and deletes it too; after a redirect token
that is the last entry, `DELETE_FILE` reads the list head as if it were an
entry, which has no result. -/
def get_input_output_loop : Nat → List Argument → Subcommand → List Argument →
    Option (List Argument × Subcommand)
  | _, kept, sub, [] => some (kept, sub)
  | i, kept, sub, entry :: rest =>
    if i < 20 then
      if entry.token = Token.REDIRECT_OUTPUT_TRUNCATE ∨
          entry.token = Token.REDIRECT_OUTPUT_APPEND then
        match rest with
        | [] => none
        | file :: rest2 =>
          get_input_output_loop (i + 1) kept
            { sub with type := some entry.token, output := file.contents } rest2
      else if entry.token = Token.REDIRECT_INPUT then
        match rest with
        | [] => none
        | file :: rest2 =>
          get_input_output_loop (i + 1) kept
            { sub with type := some entry.token, input := file.contents } rest2
      else get_input_output_loop (i + 1) (kept ++ [entry]) sub rest
    else some (kept ++ entry :: rest, sub)

/-- `get_input_output(arg, subcommand)`: the defaults `"stdin"`, `"stdout"`
and `NORMAL`, then the loop; returns the list that remains and the stage. -/
def get_input_output (arg : List Argument) (sub : Subcommand) :
    Option (List Argument × Subcommand) :=
  get_input_output_loop 0 []
    { sub with input := "stdin".toList, output := "stdout".toList, type := some Token.NORMAL }
    arg

/-- `make_exec_args_array(list_args, sub)`: an array of `num_args` slots; the
entries before `list_args->prev` are copied in order and the slot
`num_args - 1` is set to NULL. With an empty list the array has no slot and
the store `exec_args[num_args - 1] = NULL` falls in front of it: the call has
no result. -/
def make_exec_args_array (list_args : List Argument) (sub : Subcommand) : Option Subcommand :=
  let num_args := getListLength list_args
  if num_args = 0 then none
  else some { sub with exec_args := (list_args.dropLast.map fun e => some e.contents) ++ [none] }

/-- The stage that `malloc` returns in `make_subcommand`: no field has been
written. -/
def fresh_subcommand : Subcommand :=
  { exec_args := [], input := [], output := [], type := none }

/-- `make_subcommand(list_commands, list_args)`: returns the lists
`list_commands` and `list_args` after the call. -/
def make_subcommand (list_commands : List Subcommand) (list_args : List Argument) :
    Option (List Subcommand × List Argument) :=
  match check_internal_command list_args with
  | none => none
  | some r =>
    if r ≠ 0 then
      match get_input_output list_args fresh_subcommand with
      | none => none
      | some (args, sub) =>
        match make_exec_args_array args sub with
        | none => none
        | some sub1 => some (list_add_tail sub1 list_commands, args)
    else
      match make_exec_args_array list_args
          { fresh_subcommand with input := "stdin".toList, output := "stdout".toList } with
      | none => none
      | some sub1 => some (list_add_tail sub1 list_commands, list_args)

/-! ## parser.c: parse_commandline -/

/-- What `parse_commandline` leaves behind: its return value and the two
lists it works on. -/
structure ParseOut where
  ret : Int
  list_args : List Argument
  list_commands : List Subcommand
  deriving DecidableEq, Repr

/-- The `for (i = 0; i < commandline->num; i++)` loop of `parse_commandline`
from index `i` on; the third argument holds the slots `subcommand[i]`,
`subcommand[i+1]`, ... of the array. Reading a slot that was never assigned
(or lies past the array) has no result, and neither has the scan of a segment
that writes past the end of `temp`. -/
def parse_commandline_loop (num : Nat) : Nat → List (Option (List Char)) → ParserState →
    List Subcommand → Option ParseOut
  | i, subs, st, list_commands =>
    if i < num then
      match subs with
      | [] => none
      | none :: _ => none
      | some s :: rest =>
        if temp_overrun false { st with redirect_in_count := 0, redirect_out_count := 0 } s
        then none
        else
        match scan_subcommand false
            { st with redirect_in_count := 0, redirect_out_count := 0 } s with
        | none => some (ParseOut.mk (-1) [] list_commands)
        | some st1 =>
          let st2 : ParserState :=
            { st1 with list_args := list_add_tail (Argument.mk [] Token.NORMAL) st1.list_args }
          if check_validity_of_cmdline_redirects num (i + 1) st2.redirect_in_count
              st2.redirect_out_count = -1 then
            some (ParseOut.mk (-1) [] list_commands)
          else
            match make_subcommand list_commands st2.list_args with
            | none => none
            | some (cmds, _) =>
              parse_commandline_loop num (i + 1) rest { st2 with list_args := [] } cmds
    else some (ParseOut.mk 0 st.list_args list_commands)

/-- `parse_commandline(list_args, commandline, list_commands)`. -/
def parse_commandline (list_args : List Argument) (commandline : Commandline)
    (list_commands : List Subcommand) : Option ParseOut :=
  parse_commandline_loop commandline.num 0 commandline.subcommand
    { temp := [], currentState := State.WHITESPACE, list_args := list_args,
      word_count := 0, redirect_in_count := 0, redirect_out_count := 0 }
    list_commands

/-! ## Quoting, as the specification words it -/

/-- Whether the end of `s` lies inside a double-quoted span, when its start
does (`q` true) or does not (`q` false): every quotation mark opens or closes
a span. -/
def quote_open : Bool → List Char → Bool
  | q, [] => q
  | q, c :: r => quote_open (if c = QUOTATIONMARK then !q else q) r

/-- The characters of `s` that lie outside the double-quoted spans (the
quotation marks themselves left out), in order. -/
def outside_quotes : Bool → List Char → List Char
  | _, [] => []
  | false, c :: r =>
    if c = QUOTATIONMARK then outside_quotes true r else c :: outside_quotes false r
  | true, c :: r =>
    if c = QUOTATIONMARK then outside_quotes false r else outside_quotes true r

/-- The whitespace-split tokens of a text: its maximal runs of characters
other than space and tab. -/
def whitespace_split (s : List Char) : List (List Char) :=
  (s.splitOnP is_whitespace).filter fun w => !w.isEmpty

/-- The number of iterations that the loop of `get_input_output` spends on the
entries `pre` when it passes over exactly these: one per entry that is not a
redirect operator, one per operator together with the entry after it. There
is no such number when the last entry of `pre` is an operator whose operand
would lie beyond `pre`. -/
def resolve_steps : List Argument → Option Nat
  | [] => some 0
  | entry :: rest =>
    if entry.token = Token.REDIRECT_OUTPUT_TRUNCATE ∨
        entry.token = Token.REDIRECT_OUTPUT_APPEND ∨ entry.token = Token.REDIRECT_INPUT then
      match rest with
      | [] => none
      | _ :: rest2 => (resolve_steps rest2).map (· + 1)
    else (resolve_steps rest).map (· + 1)

/-- The last character of a text that is not a space or a tab, if there is
one. -/
def last_nonblank : List Char → Option Char
  | [] => none
  | c :: rest =>
    match last_nonblank rest with
    | some d => some d
    | none => if is_whitespace c then none else some c

/-- Whether a text begins with a word: with an ordinary character, or with a
double quote that is followed by a character other than a double quote. -/
def begins_with_word : List Char → Bool
  | [] => false
  | c :: rest =>
    if c = QUOTATIONMARK then
      match rest with
      | [] => false
      | c2 :: _ => c2 != QUOTATIONMARK
    else is_character c

/-! ## environ.c -/

/-- The `struct environment`: `name` is what `strtok` returned, which is NULL
when the contents hold no character other than `=`. -/
structure Environment where
  name : Option (List Char)
  contents : List Char
  deriving DecidableEq, Repr

/-- `get_env_variable_name(contents)`: the first `strtok` token of a copy of
`contents` for the delimiter `=`. -/
def get_env_variable_name (contents : List Char) : Option (List Char) :=
  (strtok '=' contents).1

/-- The `for` loop of `make_env_array` from the entry `curr` on:
`envp[i] = strdup(entry->contents); i++`. -/
def make_env_array_loop : List (Option (List Char)) → Nat → List Environment →
    List (Option (List Char))
  | envp, _, [] => envp
  | envp, i, entry :: rest =>
    make_env_array_loop (envp.set i (some entry.contents)) (i + 1) rest

/-- `make_env_array(list)`: an array of `list_len + 1` slots from `calloc`
(all NULL), filled by the loop, with `envp[list_len] = NULL` at the end. The
function only reads the list. -/
def make_env_array (list : List Environment) : List (Option (List Char)) :=
  let list_len := getListLength list
  let envp : List (Option (List Char)) := List.replicate (list_len + 1) none
  (make_env_array_loop envp 0 list).set list_len none

/-- `make_env_list(list, envp)`: every element of `envp` before the first NULL
becomes an entry, inserted with `list_add`. -/
def make_env_list (list : List Environment) : List (Option (List Char)) → List Environment
  | [] => list
  | none :: _ => list
  | some contents :: rest =>
    make_env_list (list_add ⟨get_env_variable_name contents, contents⟩ list) rest

/-- `strcmp(env->name, name) == 0` on an entry of the list; comparing a NULL
name has no result. -/
def name_matches (env : Environment) (name : List Char) : Option Bool :=
  match env.name with
  | none => none
  | some n => some (n == name)

/-- `set_env_update_contents`: the new contents `name=value`. -/
def set_env_update_contents (env : Environment) (name value : List Char) : Environment :=
  { env with contents := name ++ '=' :: value }

/-- `set_env(list, name, value)`: the first entry with that name gets new
contents; without one a new entry goes to the tail. Returns 0 and the list
after the call. -/
def set_env : List Environment → List Char → List Char → Option (Int × List Environment)
  | [], name, value =>
    some (0, list_add_tail (set_env_update_contents ⟨some name, []⟩ name value) [])
  | env :: rest, name, value =>
    match name_matches env name with
    | none => none
    | some true => some (0, set_env_update_contents env name value :: rest)
    | some false =>
      match set_env rest name value with
      | none => none
      | some (r, list) => some (r, env :: list)

/-- `unset_env(list_env, name)`: the first entry with that name is deleted and
0 is returned; without one the function ends without a `return` statement, so
there is no return value (`none` in the first component). -/
def unset_env : List Environment → List Char → Option (Option Int × List Environment)
  | [], _ => some (none, [])
  | entry :: rest, name =>
    match name_matches entry name with
    | none => none
    | some true => some (some 0, rest)
    | some false =>
      match unset_env rest name with
      | none => none
      | some (r, list) => some (r, entry :: list)

/-- `get_env(list, name)`: the contents of the first entry with that name, or
NULL. -/
def get_env : List Environment → List Char → Option (Option (List Char))
  | [], _ => some none
  | env :: rest, name =>
    match name_matches env name with
    | none => none
    | some true => some (some env.contents)
    | some false => get_env rest name

/-- `get_env_variable_value(contents)`: the pointer moves to the first `=` or
to the terminating NUL and then one further; after a NUL it points behind the
string, where there is nothing to read. -/
def get_env_variable_value (contents : List Char) : Option (List Char) :=
  match contents.dropWhile (fun c => c != '=') with
  | [] => none
  | _ :: value => some value

/-- `get_env_value(list, name)`: `get_env_variable_value` of the contents of
the first entry with that name, or NULL. -/
def get_env_value : List Environment → List Char → Option (Option (List Char))
  | [], _ => some none
  | env :: rest, name =>
    match name_matches env name with
    | none => none
    | some true =>
      match get_env_variable_value env.contents with
      | none => none
      | some value => some (some value)
    | some false => get_env_value rest name

/-- `clear_list_env(list)`: every entry is deleted. -/
def clear_list_env (_list : List Environment) : List Environment := []

/-! ## runner.c -/

/-- `clear_list_command(list)`: every stage is deleted. -/
def clear_list_command (_list : List Subcommand) : List Subcommand := []

/-- Lines 98 to 102 of `run_parser_executor_handler`: a newline in the last
position of `input` is overwritten with NUL (`fgets` delivers no empty
string, for which `input[len-1]` lies before the buffer). -/
def strip_newline (input : List Char) : List Char :=
  if charAt input (input.length - 1) = NEWLINE then input.take (input.length - 1) else input

/-- Lines 104 to 108 of `run_parser_executor_handler`: `cmdline.num` is
counted over `len` characters of `input`, an array of that many slots is
allocated and `copy_subcommands` fills it. -/
def read_commandline (input : List Char) (len : Nat) : Commandline :=
  { num := find_num_subcommands input len,
    subcommand := copy_subcommands input (find_num_subcommands input len) }

/-- The calls that `run_parser_executor_handler` makes into `internal.c` and
`executor.c`, with their arguments. -/
inductive Event where
  | handle_internal (commands : List Subcommand) (list_env : List Environment)
  | run_command (subcommand_count : Nat) (list_commands : List Subcommand)
      (env : List (Option (List Char)))
  deriving DecidableEq, Repr

/-- The state that `run_parser_executor_handler` leaves behind: the three
lists, the calls it made in order, and whether it ended in `exit(0)`. -/
structure HandlerOut where
  list_commands : List Subcommand
  list_env : List Environment
  list_args : List Argument
  events : List Event
  exited : Bool
  deriving DecidableEq, Repr

/-- `run_parser_executor_handler(list_commands, list_env, list_args, cmdline,
input)`. What `handle_internal` returns and does to the environment list is
the parameter `internal` (without a result when the call has none);
`run_command` runs the stages in child processes and leaves the three lists
alone. The calls that release storage at the end of the function
(`free_commandline_struct`, and the `free` calls of `clear_list_command`) are
not represented: the result tells what was called and what the lists hold. -/
def run_parser_executor_handler
    (internal : List Subcommand → List Environment → Option (Int × List Environment))
    (list_commands : List Subcommand) (list_env : List Environment)
    (list_args : List Argument) (input : List Char) : Option HandlerOut :=
  let cmdline := read_commandline (strip_newline input) input.length
  match parse_commandline list_args cmdline list_commands with
  | none => none
  | some p =>
    if p.ret = 0 then
      match internal p.list_commands list_env with
      | none => none
      | some (internal_code, list_env1) =>
        if internal_code = 1 then
          let new_envp := make_env_array list_env1
          some { list_commands := clear_list_command p.list_commands,
                 list_env := make_env_list (clear_list_env list_env1) new_envp,
                 list_args := p.list_args,
                 events := [Event.handle_internal p.list_commands list_env,
                            Event.run_command cmdline.num p.list_commands new_envp],
                 exited := false }
        else if internal_code = 6 then
          some { list_commands := clear_list_command p.list_commands,
                 list_env := clear_list_env list_env1,
                 list_args := p.list_args,
                 events := [Event.handle_internal p.list_commands list_env],
                 exited := true }
        else
          some { list_commands := clear_list_command p.list_commands,
                 list_env := list_env1,
                 list_args := p.list_args,
                 events := [Event.handle_internal p.list_commands list_env],
                 exited := false }
    else
      some { list_commands := clear_list_command p.list_commands,
             list_env := list_env,
             list_args := p.list_args,
             events := [],
             exited := false }

/-- The interpreter between two lines: the three lists of `main`, the calls
made so far and whether the process has ended in `exit(0)`. -/
structure ShellState where
  list_commands : List Subcommand
  list_env : List Environment
  list_args : List Argument
  events : List Event
  exited : Bool
  deriving DecidableEq, Repr

/-- One call of `run_parser_executor_handler` from a loop over lines: the
state after the call, with the calls it made added to the record. -/
def run_line
    (internal : List Subcommand → List Environment → Option (Int × List Environment))
    (s : ShellState) (input : List Char) : Option ShellState :=
  match run_parser_executor_handler internal s.list_commands s.list_env s.list_args input with
  | none => none
  | some h =>
    some { list_commands := h.list_commands, list_env := h.list_env,
           list_args := h.list_args, events := s.events ++ h.events, exited := h.exited }

/-- The `while (fgets(...))` loop of `run_user_input` over the lines that
`fgets` delivers: a line is handed to `run_parser_executor_handler` only if
`input[0] != '\n' && input[0] != ' '` (the prompt that `check_PS1` prints is
not part of the model). After `exit(0)` no line is read. -/
def run_user_input
    (internal : List Subcommand → List Environment → Option (Int × List Environment)) :
    ShellState → List (List Char) → Option ShellState
  | s, [] => some s
  | s, input :: rest =>
    if s.exited then some s
    else if charAt input 0 ≠ NEWLINE ∧ charAt input 0 ≠ SPACE then
      match run_line internal s input with
      | none => none
      | some s1 => run_user_input internal s1 rest
    else run_user_input internal s rest

/-- The `while (fgets(...))` loop of `run_rc_file`: every line of the file is
handed to `run_parser_executor_handler`. -/
def run_rc_file_loop
    (internal : List Subcommand → List Environment → Option (Int × List Environment)) :
    ShellState → List (List Char) → Option ShellState
  | s, [] => some s
  | s, input :: rest =>
    if s.exited then some s
    else
      match run_line internal s input with
      | none => none
      | some s1 => run_rc_file_loop internal s1 rest

/-- `run_rc_file`: `file` holds the lines of `$SUSHHOME/.sushrc` when
`SUSHHOME` is set, the file passes the mode test and `fopen` succeeds, and is
`none` otherwise. -/
def run_rc_file
    (internal : List Subcommand → List Environment → Option (Int × List Environment))
    (s : ShellState) (file : Option (List (List Char))) : Option ShellState :=
  match file with
  | none => some s
  | some lines => run_rc_file_loop internal s lines

/-! ## internal.c -/

/-- What the handlers ask of the operating system at the time of a call:
`getenv("HOME")`, and the status that `chdir` returns for a path (0 or -1).
What the handlers print is not part of the model. -/
structure OsCalls where
  home : Option (List Char)
  chdir : Option (List Char) → Int

/-- `get_num_args(subcommand)`: the number of elements of `exec_args` before
the first NULL; an array without a NULL is read past its end, which has no
result. -/
def get_num_args : List (Option (List Char)) → Option Nat
  | [] => none
  | none :: _ => some 0
  | some _ :: rest => (get_num_args rest).map (· + 1)

/-- `exec_args[i]` for an index inside the array: a string or NULL. -/
def exec_arg (sub : Subcommand) (i : Nat) : Option (List Char) :=
  (sub.exec_args.getD i none)

/-- `handle_setenv`: -1 unless there are exactly three arguments; otherwise
`set_env(list_env, name, value)` and 0. -/
def handle_setenv (_os : OsCalls) (sub : Subcommand) (list_env : List Environment) :
    Option (Int × List Environment) :=
  match get_num_args sub.exec_args with
  | none => none
  | some num_args =>
    if num_args ≠ 3 then some (-1, list_env)
    else
      match exec_arg sub 1, exec_arg sub 2 with
      | some name, some value =>
        match set_env list_env name value with
        | none => none
        | some (_, list) => some (0, list)
      | _, _ => none

/-- `handle_getenv`: with one argument the list is displayed; with two,
`get_env` looks the name up and the handler returns -1 when it is not there;
with any other number the handler returns -1. -/
def handle_getenv (_os : OsCalls) (sub : Subcommand) (list_env : List Environment) :
    Option (Int × List Environment) :=
  match get_num_args sub.exec_args with
  | none => none
  | some num_args =>
    if num_args = 1 then some (0, list_env)
    else if num_args = 2 then
      match exec_arg sub 1 with
      | none => none
      | some name =>
        match get_env list_env name with
        | none => none
        | some none => some (-1, list_env)
        | some (some _) => some (0, list_env)
    else some (-1, list_env)

/-- `handle_unsetenv`: -1 unless there are exactly two arguments; otherwise
`unset_env(list_env, name)`, whose status is overwritten and not looked at,
and 0. -/
def handle_unsetenv (_os : OsCalls) (sub : Subcommand) (list_env : List Environment) :
    Option (Int × List Environment) :=
  match get_num_args sub.exec_args with
  | none => none
  | some num_args =>
    if num_args ≠ 2 then some (-1, list_env)
    else
      match exec_arg sub 1 with
      | none => none
      | some name =>
        match unset_env list_env name with
        | none => none
        | some (_, list) => some (0, list)

/-- `check_status(status, command)`: prints a message when `status == -1`
and returns nothing; the model keeps the value that the caller goes on to
return. -/
def check_status (_status : Int) (ret : Int) : Int := ret

/-- `handle_cd`: with one argument `chdir(getenv("HOME"))`, -1 when it fails;
with two `chdir(path)`, whose status goes to `check_status` only, and 0; with
more, -1. -/
def handle_cd (os : OsCalls) (sub : Subcommand) (list_env : List Environment) :
    Option (Int × List Environment) :=
  match get_num_args sub.exec_args with
  | none => none
  | some num_args =>
    if num_args = 1 then
      if os.chdir os.home = -1 then some (-1, list_env) else some (0, list_env)
    else if num_args = 2 then some (check_status (os.chdir (exec_arg sub 1)) 0, list_env)
    else some (-1, list_env)

/-- `handle_pwd`: -1 unless there is exactly one argument; otherwise 0. -/
def handle_pwd (_os : OsCalls) (sub : Subcommand) (list_env : List Environment) :
    Option (Int × List Environment) :=
  match get_num_args sub.exec_args with
  | none => none
  | some num_args => if num_args ≠ 1 then some (-1, list_env) else some (0, list_env)

/-- `handle_exit`: -1 unless there is exactly one argument; otherwise 6. -/
def handle_exit (_os : OsCalls) (sub : Subcommand) (list_env : List Environment) :
    Option (Int × List Environment) :=
  match get_num_args sub.exec_args with
  | none => none
  | some num_args => if num_args ≠ 1 then some (-1, list_env) else some (6, list_env)

/-- The table `internal_cmds` of `internal.c`: names and handlers. -/
def internal_cmds : List (List Char ×
    (OsCalls → Subcommand → List Environment → Option (Int × List Environment))) :=
  [("setenv".toList, handle_setenv), ("getenv".toList, handle_getenv),
   ("unsetenv".toList, handle_unsetenv), ("cd".toList, handle_cd),
   ("pwd".toList, handle_pwd), ("exit".toList, handle_exit)]

/-- The `while (internal_cmds[i].name != 0)` loop of `handle_internal` over
the rows of the table that remain: `strcmp` with the command name, which is
`exec_args[0]` of the stage; a NULL command name has no result. -/
def handle_internal_loop (os : OsCalls) (entry : Subcommand) (list_env : List Environment) :
    List (List Char ×
      (OsCalls → Subcommand → List Environment → Option (Int × List Environment))) →
    Option (Int × List Environment)
  | [] => some (1, list_env)
  | row :: rest =>
    match entry.exec_args with
    | some command_name :: _ =>
      if row.1 = command_name then row.2 os entry list_env
      else handle_internal_loop os entry list_env rest
    | _ => none

/-- `handle_internal(commands, list_env)`: the first stage of the list is
dispatched on its command name; 1 when no row of the table has that name. -/
def handle_internal (os : OsCalls) (commands : List Subcommand)
    (list_env : List Environment) : Option (Int × List Environment) :=
  match commands with
  | [] => none
  | entry :: _ => handle_internal_loop os entry list_env internal_cmds

/-! ## executor.c -/

/-- What `handle_input_output` does with the standard output of the child:
nothing; `open` with `O_TRUNC` or with `O_APPEND`, then `close` and `dup2` of
the new descriptor; `open` alone, when the error check behind it makes the
function return; or, when `type` is neither output mode, `close` and `dup2` of
the descriptor `fd = 0` with no file opened. -/
inductive StdoutAction where
  | inherit
  | open_truncate (filename : List Char)
  | open_append (filename : List Char)
  | dup_fd_zero
  | open_truncate_only (filename : List Char)
  | open_append_only (filename : List Char)
  deriving DecidableEq, Repr

/-- What `handle_input_output` does with the standard input of the child:
nothing, or `fopen` for reading, then `close` and `dup2` of its descriptor. -/
inductive StdinAction where
  | inherit
  | open_read (filename : List Char)
  deriving DecidableEq, Repr

/-- `handle_input_output(subcmd)`: the return value and what was done with the
two standard streams. The branch for the output is taken when
`strcmp(subcmd->output, "stdout") != 0`; it reads `type`, and behind each
`open` stands `ERROR_CHECK_MSG`, which returns -1 from the function when
`access(subcmd->output, F_OK)` is not 0, before `close` and `dup2` and before
the input is looked at. The branch for the input is taken when
`strcmp(subcmd->input, "stdin") != 0`. `access` gives the return value of
`access(path, F_OK)` by path, and `fopen` tells, by path, whether
`fopen(path, "r")` returns a stream; `fileno` of the NULL that it returns
otherwise has no result. -/
def handle_input_output (access : List Char → Int) (fopen : List Char → Bool)
    (subcmd : Subcommand) : Option (Int × StdoutAction × StdinAction) :=
  let input : Option StdinAction :=
    if subcmd.input ≠ "stdin".toList then
      if fopen subcmd.input then some (StdinAction.open_read subcmd.input) else none
    else some StdinAction.inherit
  if subcmd.output ≠ "stdout".toList then
    match subcmd.type with
    | none => none
    | some type =>
      if type = Token.REDIRECT_OUTPUT_TRUNCATE then
        if access subcmd.output ≠ 0 then
          some (-1, StdoutAction.open_truncate_only subcmd.output, StdinAction.inherit)
        else input.map fun a => (0, StdoutAction.open_truncate subcmd.output, a)
      else if type = Token.REDIRECT_OUTPUT_APPEND then
        if access subcmd.output ≠ 0 then
          some (-1, StdoutAction.open_append_only subcmd.output, StdinAction.inherit)
        else input.map fun a => (0, StdoutAction.open_append subcmd.output, a)
      else input.map fun a => (0, StdoutAction.dup_fd_zero, a)
  else input.map fun a => (0, StdoutAction.inherit, a)

/-! ## executor.c: run_command

The model follows the process that calls `run_command`. What the system calls
return is given by an `ExecOs`; the descriptors the process has open are kept
in a list, from which `pipe` takes the two lowest free numbers. -/

/-- The return values of the system calls of `run_command`: `access(path,
F_OK)` by path, and `pipe` and `fork` by the number of the loop iteration
that makes the call (`fork` returns 0 in the child process). -/
structure ExecOs where
  access : List Char → Int
  pipe : Nat → Int
  fork : Nat → Int

/-- The system calls of `run_command`, with their arguments and what they
returned. `child` stands for the branch `pid == 0` of the loop: the `dup2`
calls on `prev_output` and, for every stage but the last, on `pipes[1]`, then
`handle_input_output(entry)` and, unless it returned -1, `execvpe`;
`child_execute` for the same branch of `execute`, which calls `execvpe`
whatever `handle_input_output` returned. Both end the process, in the new
program or in `exit(1)`. -/
inductive SysCall where
  | access (path : List Char) (ret : Int)
  | pipe (ret : Int) (pipes : Option (Nat × Nat))
  | fork (ret : Int)
  | close (fd : Nat)
  | waitpid (pid : Int) (option : Int)
  | child (prev_output : Nat) (stdout_fd : Option Nat) (entry : Subcommand)
      (env : List (Option (List Char)))
  | child_execute (entry : Subcommand) (env : List (Option (List Char)))
  deriving DecidableEq, Repr

/-- The calling process: the descriptors it has open and the system calls it
has made, in order. -/
structure Process where
  open_fds : List Nat
  calls : List SysCall
  deriving DecidableEq, Repr

/-- The lowest descriptor number that is not in `fds`. -/
def lowest_free (fds : List Nat) : Nat :=
  ((List.range (fds.length + 1)).filter fun n => !fds.contains n).headD 0

/-- `pipe(pipes)` in iteration `i`: on success the two lowest free descriptors
are opened and stored in `pipes`; on failure `pipes` is left as it was. -/
def sys_pipe (os : ExecOs) (i : Nat) (pipes : Option (Nat × Nat)) (p : Process) :
    Int × Option (Nat × Nat) × Process :=
  if os.pipe i < 0 then
    (os.pipe i, pipes, { p with calls := p.calls ++ [SysCall.pipe (os.pipe i) none] })
  else
    let rd := lowest_free p.open_fds
    let wr := lowest_free (rd :: p.open_fds)
    (os.pipe i, some (rd, wr),
      { open_fds := p.open_fds ++ [rd, wr],
        calls := p.calls ++ [SysCall.pipe (os.pipe i) (some (rd, wr))] })

/-- `close(fd)`: the descriptor leaves the open set (closing a descriptor that
is not open fails and changes nothing). -/
def sys_close (fd : Nat) (p : Process) : Process :=
  { open_fds := p.open_fds.filter (fun d => d != fd), calls := p.calls ++ [SysCall.close fd] }

/-- `handleParentInExecutor(pid, option)`: `waitpid(pid, &status, option)`. -/
def handleParentInExecutor (pid option : Int) (p : Process) : Process :=
  { p with calls := p.calls ++ [SysCall.waitpid pid option] }

/-- `check_validity_of_files(subcmd)`: -1 when the input is not `"stdin"` and
`access` does not return 0, else 0. -/
def check_validity_of_files (os : ExecOs) (subcmd : Subcommand) (p : Process) :
    Int × Process :=
  if subcmd.input ≠ "stdin".toList then
    let p1 : Process :=
      { p with calls := p.calls ++ [SysCall.access subcmd.input (os.access subcmd.input)] }
    if os.access subcmd.input ≠ 0 then (-1, p1) else (0, p1)
  else (0, p)

/-- `execute(command, args, subcmd, env)`: one `fork`; the parent waits for the
child. -/
def execute (os : ExecOs) (subcmd : Subcommand) (env : List (Option (List Char)))
    (p : Process) : Process :=
  let pid := os.fork 0
  let p1 : Process := { p with calls := p.calls ++ [SysCall.fork pid] }
  if pid = 0 then { p1 with calls := p1.calls ++ [SysCall.child_execute subcmd env] }
  else handleParentInExecutor pid 0 p1

/-- The `for` loop of `run_command` over the stages from `curr` on, with the
locals `i`, `prev_output` and `pipes` (`none` while `pipes` has not been
written; the parent branch reads it, which has no result then). The loop ends
early when a file check or `pipe` fails, and in the child process. -/
def run_command_loop (os : ExecOs) (subcommand_count : Int)
    (env : List (Option (List Char))) :
    Nat → Nat → Option (Nat × Nat) → Process → List Subcommand → Option Process
  | _, _, _, p, [] => some p
  | i, prev_output, pipes, p, entry :: rest =>
    if (check_validity_of_files os entry p).1 = -1 then
      some (check_validity_of_files os entry p).2
    else
      let p1 := (check_validity_of_files os entry p).2
      let made : Int × Option (Nat × Nat) × Process :=
        if (i : Int) < subcommand_count - 1 then sys_pipe os i pipes p1 else (0, pipes, p1)
      if (i : Int) < subcommand_count - 1 ∧ made.1 < 0 then some made.2.2
      else
        let pid := os.fork i
        let p2 : Process := { made.2.2 with calls := made.2.2.calls ++ [SysCall.fork pid] }
        if pid = 0 then
          match made.2.1 with
          | none =>
            if (i : Int) < subcommand_count - 1 then none
            else some { p2 with calls := p2.calls ++ [SysCall.child prev_output none entry env] }
          | some (_, wr) =>
            some { p2 with calls := p2.calls ++
              [SysCall.child prev_output
                (if (i : Int) < subcommand_count - 1 then some wr else none) entry env] }
        else
          match made.2.1 with
          | none => none
          | some (rd, wr) =>
            run_command_loop os subcommand_count env (i + 1) rd (some (rd, wr))
              (handleParentInExecutor pid 0 (sys_close wr p2)) rest

/-- `run_command(subcommand_count, list_commands, env)` in a process with the
open descriptors `open_fds`: the process after the call. With fewer than two
stages the first entry of the list is run by `execute`; the first entry of an
empty list is not an entry. -/
def run_command (os : ExecOs) (subcommand_count : Int) (list_commands : List Subcommand)
    (env : List (Option (List Char))) (open_fds : List Nat) : Option Process :=
  if subcommand_count ≥ 2 then
    run_command_loop os subcommand_count env 0 0 none ⟨open_fds, []⟩ list_commands
  else
    match list_commands with
    | [] => none
    | entry :: _ =>
      if (check_validity_of_files os entry ⟨open_fds, []⟩).1 = -1 then
        some (check_validity_of_files os entry ⟨open_fds, []⟩).2
      else some (execute os entry env (check_validity_of_files os entry ⟨open_fds, []⟩).2)

/-! ## The order of spawning and waiting, as the specification words it -/

/-- Whether a system call is a `fork`. -/
def is_fork : SysCall → Bool
  | SysCall.fork _ => true
  | _ => false

/-- Whether a system call is a `waitpid`. -/
def is_waitpid : SysCall → Bool
  | SysCall.waitpid _ _ => true
  | _ => false

/-- The `fork` and `waitpid` calls among `calls`, in order. -/
def fork_wait_calls (calls : List SysCall) : List SysCall :=
  calls.filter fun c => is_fork c || is_waitpid c

/-- Spawn all, then wait: the `fork` and `waitpid` calls are `n` forks followed
by `n` waits. -/
def spawn_all_then_wait (n : Nat) (calls : List SysCall) : Prop :=
  (fork_wait_calls calls).map is_fork = List.replicate n true ++ List.replicate n false

instance spawn_all_then_wait_decidable (n : Nat) (calls : List SysCall) :
    Decidable (spawn_all_then_wait n calls) := by
  unfold spawn_all_then_wait; infer_instance

/-- The descriptors that `close` was called on among `calls`, in order. -/
def closed_fds : List SysCall → List Nat
  | [] => []
  | SysCall.close fd :: rest => fd :: closed_fds rest
  | _ :: rest => closed_fds rest

/-- The pairs that successful `pipe` calls among `calls` stored, in order. -/
def created_pipes : List SysCall → List (Nat × Nat)
  | [] => []
  | SysCall.pipe _ (some pair) :: rest => pair :: created_pipes rest
  | _ :: rest => created_pipes rest

/-! ## Runs of the output redirect character, as the specification words it -/

/-- The tokens of a run of `k` characters `>`: `k / 2` appending-output tokens
followed by `k % 2` truncating-output token. -/
def redirect_run_tokens (k : Nat) : List Argument :=
  List.replicate (k / 2) ⟨[REDIR_OUT, REDIR_OUT], Token.REDIRECT_OUTPUT_APPEND⟩ ++
    List.replicate (k % 2) ⟨[REDIR_OUT], Token.REDIRECT_OUTPUT_TRUNCATE⟩

/-- The number of output redirect tokens (`>` and `>>`) in a token list. -/
def redirect_out_tokens (l : List Argument) : Nat :=
  (l.filter fun e =>
    decide (e.token = Token.REDIRECT_OUTPUT_TRUNCATE ∨
      e.token = Token.REDIRECT_OUTPUT_APPEND)).length

/-- The number of input redirect tokens (`<`) in a token list. -/
def redirect_in_tokens (l : List Argument) : Nat :=
  (l.filter fun e => decide (e.token = Token.REDIRECT_INPUT)).length

/-! ## list.c on the nodes in memory

The functions of `list.c` work on `struct list_head` nodes through pointers.
Here a node is its address, and the memory holds the `next` and the `prev`
field of the node at every address. The lists of the embedding above are the
sequences of entries that these circular lists represent. -/

/-- The memory of the `struct list_head` nodes, field by field. -/
structure Memory where
  next : Nat → Nat
  prev : Nat → Nat

/-- The assignment `node->next = value`. -/
def Memory.set_next (m : Memory) (node value : Nat) : Memory :=
  { m with next := Function.update m.next node value }

/-- The assignment `node->prev = value`. -/
def Memory.set_prev (m : Memory) (node value : Nat) : Memory :=
  { m with prev := Function.update m.prev node value }

/-- `list_add(new, head)`: the four assignments in the order of the source. -/
def Memory.list_add (m : Memory) (new head : Nat) : Memory :=
  let next := m.next head
  (((m.set_prev next new).set_next new next).set_prev new head).set_next head new

/-- `list_add_tail(new, head)`. -/
def Memory.list_add_tail (m : Memory) (new head : Nat) : Memory :=
  let prev := m.prev head
  (((m.set_next prev new).set_prev new prev).set_next new head).set_prev head new

/-- `list_del(entry)`: the neighbours are linked to each other and the entry
to itself. -/
def Memory.list_del (m : Memory) (entry : Nat) : Memory :=
  let next := m.next entry
  let prev := m.prev entry
  (((m.set_prev next prev).set_next prev next).set_next entry entry).set_prev entry entry

/-- `list_empty(head)`. -/
def Memory.list_empty (m : Memory) (head : Nat) : Int :=
  if m.next head = head ∧ m.next head = head then 1 else 0

/-- `list_splice(list, head)`: the four assignments on `A = list->next`,
`B = list->prev`, `C = head->next` and `D = head->prev`. -/
def Memory.list_splice (m : Memory) (list head : Nat) : Memory :=
  let A := m.next list
  let B := m.prev list
  let C := m.next head
  let D := m.prev head
  (((m.set_prev A D).set_next D A).set_next B C).set_prev C B

/-- The `for` loop of `getListLength` at the node `curr` with the running
`count`, for at most `fuel` tests of `curr != list`; `none` when the loop is
still running after these. -/
def Memory.getListLength_loop (m : Memory) (list : Nat) : Nat → Nat → Nat → Option Nat
  | 0, _, _ => none
  | fuel + 1, curr, count =>
    if curr = list then some count
    else Memory.getListLength_loop m list fuel (m.next curr) (count + 1)

/-- `getListLength(list)`, with the number of loop tests bounded by `fuel`. -/
def Memory.getListLength (m : Memory) (list fuel : Nat) : Option Nat :=
  m.getListLength_loop list fuel (m.next list) 0

/-- The nodes `xs` are linked in both directions into a path from `a` to `b`:
`next` leads from each node to the one after it, and `prev` back. -/
def Memory.is_chain (m : Memory) : Nat → List Nat → Nat → Prop
  | a, [], b => m.next a = b ∧ m.prev b = a
  | a, x :: xs, b => m.next a = x ∧ m.prev x = a ∧ Memory.is_chain m x xs b

instance Memory.is_chain_decidable (m : Memory) :
    ∀ (a : Nat) (xs : List Nat) (b : Nat), Decidable (m.is_chain a xs b)
  | a, [], b => by unfold Memory.is_chain; infer_instance
  | a, x :: xs, b => by
    have := Memory.is_chain_decidable m x xs b
    unfold Memory.is_chain; infer_instance

/-- A well-formed circular list: `head` and the nodes of the sequence `s` are
distinct, and `next` leads from `head` through `s` back to `head`, with `prev`
leading the other way. -/
def Memory.represents (m : Memory) (head : Nat) (s : List Nat) : Prop :=
  (head :: s).Nodup ∧ m.is_chain head s head

instance Memory.represents_decidable (m : Memory) (head : Nat) (s : List Nat) :
    Decidable (m.represents head s) := by
  unfold Memory.represents; infer_instance

/-! ## Theorems: redirect validation and segment count -/

theorem find_num_subcommands_loop_eq (input : List Char) (n i count : Nat) :
    find_num_subcommands_loop input n i count =
      count + ((input.drop i).take n).count PIPE := by
  induction n generalizing i count with
  | zero => simp [find_num_subcommands_loop]
  | succ n ih =>
    rw [find_num_subcommands_loop, ih]
    by_cases hi : i < input.length
    · have hd : input.drop i = input[i] :: input.drop (i + 1) := List.drop_eq_getElem_cons hi
      have hc : charAt input i = input[i] := by
        simp [charAt, List.getD_eq_getElem?_getD, List.getElem?_eq_getElem hi]
      rw [hd, List.take_succ_cons, List.count_cons, hc]
      by_cases hp : input[i] = PIPE
      · simp [hp]; omega
      · have hp2 : ¬ (input[i] == PIPE) = true := by simpa using hp
        simp [hp, hp2]
    · have hle : input.length ≤ i := Nat.le_of_not_lt hi
      have hc : charAt input i = Char.ofNat 0 := by
        simp [charAt, List.getD_eq_getElem?_getD, List.getElem?_eq_none hle]
      have h1 : input.drop i = [] := List.drop_eq_nil_of_le hle
      have h2 : input.drop (i + 1) = [] := List.drop_eq_nil_of_le (by omega)
      have hne : Char.ofNat 0 ≠ PIPE := by decide
      simp [h1, h2, hc, hne]

theorem find_num_subcommands_count (input : List Char) (len : Nat) :
    find_num_subcommands input len = 1 + (input.take len).count PIPE := by
  have h := find_num_subcommands_loop_eq input len 0 1
  simp only [List.drop_zero] at h
  exact h

/-- C5. `find_num_subcommands(input, len)` is 1 plus the number of `|` among
the first `len` characters of `input`, hence at least 1. -/
theorem find_num_subcommands_eq (input : List Char) (len : Nat) :
    find_num_subcommands input len = 1 + (input.take len).count PIPE ∧
      1 ≤ find_num_subcommands input len := by
  have h := find_num_subcommands_count input len
  exact ⟨h, by omega⟩

/-- C1. For a stage at a position `1 ≤ current_cmd ≤ total_cmds` with
non-negative redirect counts, `check_validity_of_cmdline_redirects` returns 0
exactly when the counts are within the table of legal counts for that
position, and -1 otherwise. -/
theorem check_validity_of_cmdline_redirects_table (total_cmds current_cmd stdins stdouts : Int)
    (_ht : 1 ≤ total_cmds) (hc1 : 1 ≤ current_cmd) (hc2 : current_cmd ≤ total_cmds)
    (hi : 0 ≤ stdins) (ho : 0 ≤ stdouts) :
    (check_validity_of_cmdline_redirects total_cmds current_cmd stdins stdouts = 0 ↔
        legal_redirect_counts total_cmds current_cmd stdins stdouts) ∧
      (¬ legal_redirect_counts total_cmds current_cmd stdins stdouts →
        check_validity_of_cmdline_redirects total_cmds current_cmd stdins stdouts = -1) := by
  unfold check_validity_of_cmdline_redirects legal_redirect_counts
  constructor
  · constructor
    · intro h
      split_ifs at h <;> (refine ⟨?_, ?_, ?_, ?_⟩ <;> intros <;> omega)
    · rintro ⟨h1, h2, h3, h4⟩
      split_ifs <;> first | rfl | (exfalso; omega)
  · intro h
    split_ifs <;> first | rfl | (exfalso; apply h; refine ⟨?_, ?_, ?_, ?_⟩ <;> intros <;> omega)

theorem check_validity_of_cmdline_redirects_table_witness :
    (check_validity_of_cmdline_redirects 3 2 0 0 = 0 ↔ legal_redirect_counts 3 2 0 0) ∧
      (¬ legal_redirect_counts 3 2 0 0 → check_validity_of_cmdline_redirects 3 2 0 0 = -1) :=
  check_validity_of_cmdline_redirects_table 3 2 0 0 (by decide) (by decide) (by decide)
    (by decide) (by decide)

/-! ## Theorems: the scan of a segment -/

theorem scan_step_in (st : ParserState) (rest : List Char) :
    scan_subcommand false st (REDIR_IN :: rest) = scan_subcommand false (scan_redir_in st) rest := by
  rw [scan_subcommand.eq_def]
  simp [show check_character_state REDIR_IN = State.REDIR by decide,
    show REDIR_IN ≠ REDIR_OUT by decide]

theorem scan_step_character (st : ParserState) (c : Char) (rest : List Char)
    (h : is_character c = true) :
    scan_subcommand false st (c :: rest) =
      scan_subcommand false (scan_character st c rest.isEmpty) rest := by
  have h1 : c ≠ REDIR_OUT := by rintro rfl; revert h; decide
  have h2 : c ≠ REDIR_IN := by rintro rfl; revert h; decide
  rw [scan_subcommand.eq_def]
  simp [check_character_state, h, h1, h2]

theorem scan_step_whitespace (st : ParserState) (c : Char) (rest : List Char)
    (h : is_whitespace c = true) :
    scan_subcommand false st (c :: rest) = scan_subcommand false (scan_whitespace st) rest := by
  have h1 : is_character c = false := by simp [is_character, h]
  rw [scan_subcommand.eq_def]
  simp [check_character_state, h, h1]

theorem scan_step_quote (st : ParserState) (rest : List Char)
    (h : st.currentState ≠ State.QUOTE) :
    scan_subcommand false st (QUOTATIONMARK :: rest) =
      scan_subcommand true { st with currentState := State.QUOTE } rest := by
  rw [scan_subcommand.eq_def]
  simp [show check_character_state QUOTATIONMARK = State.QUOTE by decide, h]

theorem scan_step_append (st : ParserState) (rest : List Char) :
    scan_subcommand false st (REDIR_OUT :: REDIR_OUT :: rest) =
      scan_subcommand false (scan_redir_out st REDIR_OUT).1 rest := by
  rw [scan_subcommand.eq_def]
  simp [show check_character_state REDIR_OUT = State.REDIR by decide, scan_redir_out]

theorem scan_step_truncate (st : ParserState) (c : Char) (rest : List Char) (h : c ≠ REDIR_OUT) :
    scan_subcommand false st (REDIR_OUT :: c :: rest) =
      scan_subcommand false (scan_redir_out st c).1 (c :: rest) := by
  rw [scan_subcommand.eq_def]
  simp [show check_character_state REDIR_OUT = State.REDIR by decide, scan_redir_out, h]

theorem scan_step_truncate_last (st : ParserState) :
    scan_subcommand false st [REDIR_OUT] = some (scan_redir_out st (Char.ofNat 0)).1 := by
  rw [scan_subcommand.eq_def]
  simp [show check_character_state REDIR_OUT = State.REDIR by decide, scan_subcommand]

theorem scan_quoted_close (st : ParserState) (rest : List Char) :
    scan_subcommand true st (QUOTATIONMARK :: rest) =
      scan_subcommand false
        { add_arg_to_list st Token.NORMAL with currentState := State.WHITESPACE } rest := by
  rw [scan_subcommand.eq_def]
  simp

theorem scan_quoted_copy (st : ParserState) (c : Char) (rest : List Char)
    (h : c ≠ QUOTATIONMARK) :
    scan_subcommand true st (c :: rest) = scan_subcommand true (strncat st [c]) rest := by
  rw [scan_subcommand.eq_def]
  simp [h]

theorem check_character_state_cases (c : Char) :
    c = REDIR_OUT ∨ c = REDIR_IN ∨ c = QUOTATIONMARK ∨ is_whitespace c = true ∨
      is_character c = true := by
  unfold is_character is_redir is_quote
  by_cases h1 : c = REDIR_OUT
  · exact Or.inl h1
  by_cases h2 : c = REDIR_IN
  · exact Or.inr (Or.inl h2)
  by_cases h3 : c = QUOTATIONMARK
  · exact Or.inr (Or.inr (Or.inl h3))
  by_cases h4 : is_whitespace c = true
  · exact Or.inr (Or.inr (Or.inr (Or.inl h4)))
  · right; right; right; right; simp [h1, h2, h3, h4]

theorem scan_redir_out_currentState (st : ParserState) (c : Char) :
    (scan_redir_out st c).1.currentState = st.currentState := by
  unfold scan_redir_out add_arg_to_list strncat
  split_ifs <;> rfl

theorem scan_redir_in_currentState (st : ParserState) :
    (scan_redir_in st).currentState = st.currentState := by
  unfold scan_redir_in add_arg_to_list strncat
  split_ifs <;> rfl

theorem scan_character_currentState (st : ParserState) (c : Char) (b : Bool) :
    (scan_character st c b).currentState = State.CHARACTER := by
  unfold scan_character add_arg_to_list strncat
  split_ifs <;> rfl

theorem scan_whitespace_currentState (st : ParserState) :
    (scan_whitespace st).currentState = State.WHITESPACE := by
  unfold scan_whitespace add_arg_to_list
  split_ifs with h
  · rfl
  · simpa using h

/-- Induction along the scan of a segment, over the states the scan can be
in: outside a quoted span `currentState` is never `QUOTE`. -/
theorem scan_induction (motive : Bool → ParserState → List Char → Prop)
    (done : ∀ st, st.currentState ≠ State.QUOTE → motive false st [])
    (unterminated : ∀ st, motive true st [])
    (close : ∀ st rest,
      motive false { add_arg_to_list st Token.NORMAL with currentState := State.WHITESPACE } rest →
      motive true st (QUOTATIONMARK :: rest))
    (copy : ∀ st c rest, c ≠ QUOTATIONMARK → motive true (strncat st [c]) rest →
      motive true st (c :: rest))
    (append : ∀ st rest, st.currentState ≠ State.QUOTE →
      motive false (scan_redir_out st REDIR_OUT).1 rest →
      motive false st (REDIR_OUT :: REDIR_OUT :: rest))
    (truncate_last : ∀ st, st.currentState ≠ State.QUOTE →
      motive false (scan_redir_out st (Char.ofNat 0)).1 [] → motive false st [REDIR_OUT])
    (truncate : ∀ st c rest, st.currentState ≠ State.QUOTE → c ≠ REDIR_OUT →
      motive false (scan_redir_out st c).1 (c :: rest) → motive false st (REDIR_OUT :: c :: rest))
    (input : ∀ st rest, st.currentState ≠ State.QUOTE →
      motive false (scan_redir_in st) rest → motive false st (REDIR_IN :: rest))
    (character : ∀ st c rest, st.currentState ≠ State.QUOTE → is_character c = true →
      motive false (scan_character st c rest.isEmpty) rest → motive false st (c :: rest))
    (whitespace : ∀ st c rest, st.currentState ≠ State.QUOTE → is_whitespace c = true →
      motive false (scan_whitespace st) rest → motive false st (c :: rest))
    (quote : ∀ st rest, st.currentState ≠ State.QUOTE →
      motive true { st with currentState := State.QUOTE } rest →
      motive false st (QUOTATIONMARK :: rest))
    (q : Bool) (st : ParserState) (s : List Char)
    (hq : q = false → st.currentState ≠ State.QUOTE) : motive q st s := by
  generalize hn : s.length = n
  induction n using Nat.strong_induction_on generalizing q st s with
  | _ n ih =>
    cases q with
    | true =>
      cases s with
      | nil => exact unterminated st
      | cons c rest =>
        by_cases hc : c = QUOTATIONMARK
        · subst hc
          exact close st rest (ih rest.length (by simp at hn; omega) _ _ _ (fun _ => by simp) rfl)
        · exact copy st c rest hc
            (ih rest.length (by simp at hn; omega) _ _ _ (fun h => by simp at h) rfl)
    | false =>
      have hs := hq rfl
      cases s with
      | nil => exact done st hs
      | cons c rest =>
        have hlt : rest.length < n := by simp at hn; omega
        rcases check_character_state_cases c with h | h | h | h | h
        · subst h
          cases rest with
          | nil =>
            exact truncate_last st hs
              (ih 0 (by simp at hn; omega) _ _ _
                (fun _ => by rw [scan_redir_out_currentState]; exact hs) rfl)
          | cons c2 rest2 =>
            by_cases h2 : c2 = REDIR_OUT
            · subst h2
              exact append st rest2 hs
                (ih rest2.length (by simp at hn; omega) _ _ _
                  (fun _ => by rw [scan_redir_out_currentState]; exact hs) rfl)
            · exact truncate st c2 rest2 hs h2
                (ih (c2 :: rest2).length hlt _ _ _
                  (fun _ => by rw [scan_redir_out_currentState]; exact hs) rfl)
        · subst h
          exact input st rest hs
            (ih rest.length hlt _ _ _ (fun _ => by rw [scan_redir_in_currentState]; exact hs) rfl)
        · subst h
          exact quote st rest hs (ih rest.length hlt _ _ _ (fun h => by simp at h) rfl)
        · exact whitespace st c rest hs h
            (ih rest.length hlt _ _ _
              (fun _ => by rw [scan_whitespace_currentState]; decide) rfl)
        · exact character st c rest hs h
            (ih rest.length hlt _ _ _
              (fun _ => by rw [scan_character_currentState]; decide) rfl)

/-- The scan of a segment fails exactly when the segment ends inside a quoted
span. -/
theorem scan_subcommand_eq_none_iff (q : Bool) (st : ParserState) (s : List Char)
    (hq : q = false → st.currentState ≠ State.QUOTE) :
    scan_subcommand q st s = none ↔ quote_open q s = true := by
  refine scan_induction (fun q st s => scan_subcommand q st s = none ↔ quote_open q s = true)
    ?_ ?_ ?_ ?_ ?_ ?_ ?_ ?_ ?_ ?_ ?_ q st s hq
  · intro st _; simp [scan_subcommand, quote_open]
  · intro st; simp [scan_subcommand, quote_open]
  · intro st rest ih; rw [scan_quoted_close]; simpa [quote_open] using ih
  · intro st c rest hc ih; rw [scan_quoted_copy _ _ _ hc]; simpa [quote_open, hc] using ih
  · intro st rest _ ih
    rw [scan_step_append]
    simpa [quote_open, show REDIR_OUT ≠ QUOTATIONMARK by decide] using ih
  · intro st _ _
    rw [scan_step_truncate_last]
    simp [quote_open, show REDIR_OUT ≠ QUOTATIONMARK by decide]
  · intro st c rest _ hc ih
    rw [scan_step_truncate _ _ _ hc]
    rw [ih]
    simp [quote_open, show REDIR_OUT ≠ QUOTATIONMARK by decide]
  · intro st rest _ ih
    rw [scan_step_in]
    simpa [quote_open, show REDIR_IN ≠ QUOTATIONMARK by decide] using ih
  · intro st c rest _ hc ih
    rw [scan_step_character _ _ _ hc]
    have : c ≠ QUOTATIONMARK := by rintro rfl; revert hc; decide
    simpa [quote_open, this] using ih
  · intro st c rest _ hc ih
    rw [scan_step_whitespace _ _ _ hc]
    have : c ≠ QUOTATIONMARK := by rintro rfl; revert hc; decide
    simpa [quote_open, this] using ih
  · intro st rest hs ih
    rw [scan_step_quote _ _ hs]
    simpa [quote_open] using ih

/-! ## Theorems: the word buffer along the scan -/

theorem scan_redir_out_fits_eq (st : ParserState) (c : Char) :
    scan_redir_out_fits st c = true := by
  unfold scan_redir_out_fits strncat_fits add_arg_to_list
  by_cases h : st.temp.length > 0
  · simp only [h, if_true]
    split_ifs <;> simp
  · have h0 : st.temp.length = 0 := by omega
    simp only [h, if_false]
    split_ifs <;> simp [h0]

theorem scan_redir_in_fits_eq (st : ParserState) : scan_redir_in_fits st = true := by
  unfold scan_redir_in_fits strncat_fits add_arg_to_list
  by_cases h : st.temp.length > 0
  · simp only [h, if_true]
    simp
  · have h0 : st.temp.length = 0 := by omega
    simp only [h, if_false]
    simp [h0]

theorem overrun_step_in (st : ParserState) (rest : List Char) :
    temp_overrun false st (REDIR_IN :: rest) = temp_overrun false (scan_redir_in st) rest := by
  rw [temp_overrun.eq_def]
  simp [show check_character_state REDIR_IN = State.REDIR by decide,
    show REDIR_IN ≠ REDIR_OUT by decide, scan_redir_in_fits_eq]

theorem overrun_step_character (st : ParserState) (c : Char) (rest : List Char)
    (h : is_character c = true) :
    temp_overrun false st (c :: rest) =
      (!strncat_fits st [c] || temp_overrun false (scan_character st c rest.isEmpty) rest) := by
  have h1 : c ≠ REDIR_OUT := by rintro rfl; revert h; decide
  have h2 : c ≠ REDIR_IN := by rintro rfl; revert h; decide
  rw [temp_overrun.eq_def]
  simp [check_character_state, h, h1, h2]

theorem overrun_step_whitespace (st : ParserState) (c : Char) (rest : List Char)
    (h : is_whitespace c = true) :
    temp_overrun false st (c :: rest) = temp_overrun false (scan_whitespace st) rest := by
  have h1 : is_character c = false := by simp [is_character, h]
  rw [temp_overrun.eq_def]
  simp [check_character_state, h, h1]

theorem overrun_step_quote (st : ParserState) (rest : List Char)
    (h : st.currentState ≠ State.QUOTE) :
    temp_overrun false st (QUOTATIONMARK :: rest) =
      temp_overrun true { st with currentState := State.QUOTE } rest := by
  rw [temp_overrun.eq_def]
  simp [show check_character_state QUOTATIONMARK = State.QUOTE by decide, h]

theorem overrun_step_append (st : ParserState) (rest : List Char) :
    temp_overrun false st (REDIR_OUT :: REDIR_OUT :: rest) =
      temp_overrun false (scan_redir_out st REDIR_OUT).1 rest := by
  rw [temp_overrun.eq_def]
  simp [show check_character_state REDIR_OUT = State.REDIR by decide, scan_redir_out,
    scan_redir_out_fits_eq]

theorem overrun_step_truncate (st : ParserState) (c : Char) (rest : List Char)
    (h : c ≠ REDIR_OUT) :
    temp_overrun false st (REDIR_OUT :: c :: rest) =
      temp_overrun false (scan_redir_out st c).1 (c :: rest) := by
  rw [temp_overrun.eq_def]
  simp [show check_character_state REDIR_OUT = State.REDIR by decide, scan_redir_out, h,
    scan_redir_out_fits_eq]

theorem overrun_step_truncate_last (st : ParserState) :
    temp_overrun false st [REDIR_OUT] = false := by
  rw [temp_overrun.eq_def]
  simp [show check_character_state REDIR_OUT = State.REDIR by decide, scan_redir_out_fits_eq]

theorem overrun_quoted_close (st : ParserState) (rest : List Char) :
    temp_overrun true st (QUOTATIONMARK :: rest) =
      temp_overrun false
        { add_arg_to_list st Token.NORMAL with currentState := State.WHITESPACE } rest := by
  rw [temp_overrun.eq_def]
  simp

theorem overrun_quoted_copy (st : ParserState) (c : Char) (rest : List Char)
    (h : c ≠ QUOTATIONMARK) :
    temp_overrun true st (c :: rest) =
      (!strncat_fits st [c] || temp_overrun true (strncat st [c]) rest) := by
  rw [temp_overrun.eq_def]
  simp [h]

theorem overrun_nil (q : Bool) (st : ParserState) : temp_overrun q st [] = false := by
  cases q <;> simp [temp_overrun]

theorem scan_redir_out_temp (st : ParserState) (c : Char) : (scan_redir_out st c).1.temp = [] := by
  unfold scan_redir_out add_arg_to_list strncat
  split_ifs <;> rfl

theorem scan_redir_in_temp (st : ParserState) : (scan_redir_in st).temp = [] := by
  unfold scan_redir_in add_arg_to_list strncat
  split_ifs <;> rfl

/-- A segment that is shorter than the room left in the word buffer is
scanned without a write past the end of the buffer. -/
theorem temp_overrun_of_length (q : Bool) (st : ParserState) (s : List Char)
    (hq : q = false → st.currentState ≠ State.QUOTE) :
    st.temp.length + s.length < 100 → temp_overrun q st s = false := by
  refine scan_induction (fun q st s => st.temp.length + s.length < 100 →
      temp_overrun q st s = false) ?_ ?_ ?_ ?_ ?_ ?_ ?_ ?_ ?_ ?_ ?_ q st s hq
  · intro st _ _; exact overrun_nil _ _
  · intro st _; exact overrun_nil _ _
  · intro st rest ih h
    rw [overrun_quoted_close]
    exact ih (by simp only [add_arg_to_list, List.length_nil, List.length_cons] at h ⊢; omega)
  · intro st c rest hc ih h
    rw [overrun_quoted_copy _ _ _ hc, Bool.or_eq_false_iff]
    simp only [List.length_cons] at h
    refine ⟨by simp [strncat_fits]; omega, ih ?_⟩
    simp only [strncat, List.length_append, List.length_singleton]
    omega
  · intro st rest _ ih h
    rw [overrun_step_append]
    exact ih (by rw [scan_redir_out_temp]; simp only [List.length_cons, List.length_nil] at h ⊢; omega)
  · intro st _ _ _
    exact overrun_step_truncate_last st
  · intro st c rest _ hc ih h
    rw [overrun_step_truncate _ _ _ hc]
    exact ih (by rw [scan_redir_out_temp]; simp only [List.length_cons, List.length_nil] at h ⊢; omega)
  · intro st rest _ ih h
    rw [overrun_step_in]
    exact ih (by rw [scan_redir_in_temp]; simp only [List.length_cons, List.length_nil] at h ⊢; omega)
  · intro st c rest _ hc ih h
    rw [overrun_step_character _ _ _ hc, Bool.or_eq_false_iff]
    simp only [List.length_cons] at h
    refine ⟨by simp [strncat_fits]; omega, ih ?_⟩
    unfold scan_character add_arg_to_list strncat
    split_ifs <;> simp only [List.length_append, List.length_singleton, List.length_nil] <;> omega
  · intro st c rest _ hc ih h
    rw [overrun_step_whitespace _ _ _ hc]
    refine ih ?_
    simp only [List.length_cons] at h
    unfold scan_whitespace add_arg_to_list
    split_ifs
    · simp only [List.length_nil]; omega
    · omega
  · intro st rest hs ih h
    rw [overrun_step_quote _ _ hs]
    exact ih (by simp only [List.length_cons] at h ⊢; omega)

/-- The scan of a text of ordinary characters, spaces and tabs whose words,
the first of them behind the pending word, are shorter than 100 characters
stays inside the word buffer. -/
theorem temp_overrun_plain (s : List Char) :
    ∀ st : ParserState, (∀ c ∈ s, is_character c = true ∨ is_whitespace c = true) →
      (st.currentState = State.WHITESPACE → st.temp = []) →
      (∀ w ∈ (s.splitOnP is_whitespace).modifyHead (fun w => st.temp ++ w), w.length < 100) →
      temp_overrun false st s = false := by
  induction s with
  | nil => intro st _ _ _; exact overrun_nil _ _
  | cons c r ih =>
    intro st hcs hinv hw
    have hr : ∀ x ∈ r, is_character x = true ∨ is_whitespace x = true :=
      fun x hx => hcs x (by simp [hx])
    rw [List.splitOnP_cons] at hw
    rcases hcs c (by simp) with hc | hc
    · have hws : is_whitespace c = false := by
        unfold is_character at hc
        cases h : is_whitespace c <;> simp_all
      simp only [hws, Bool.false_eq_true, if_false, List.modifyHead_modifyHead] at hw
      rw [overrun_step_character _ _ _ hc, Bool.or_eq_false_iff]
      have hhead : st.temp.length + 1 < 100 := by
        cases hsp : List.splitOnP is_whitespace r with
        | nil => exact absurd hsp (List.splitOnP_ne_nil _ _)
        | cons w0 ws =>
          rw [hsp] at hw
          have := hw (st.temp ++ c :: w0) (by simp [List.modifyHead])
          simp only [List.length_append, List.length_cons] at this
          omega
      refine ⟨by simp only [strncat_fits, List.length_singleton]; simpa using hhead, ?_⟩
      cases r with
      | nil => exact overrun_nil _ _
      | cons c2 r2 =>
        apply ih _ hr
        · intro h
          rw [scan_character_currentState] at h
          cases h
        · intro w hmem
          apply hw
          simpa [scan_character, strncat, add_arg_to_list, Function.comp_def] using hmem
    · rw [overrun_step_whitespace _ _ _ hc]
      simp only [hc, if_true, List.modifyHead_cons] at hw
      have htemp : (scan_whitespace st).temp = [] := by
        unfold scan_whitespace add_arg_to_list
        split_ifs with h
        · rfl
        · exact hinv (by simpa using h)
      apply ih _ hr (fun _ => htemp)
      intro w hmem
      rw [htemp] at hmem
      apply hw w
      simp only [List.nil_append] at hmem
      have : List.modifyHead (fun w => w) (List.splitOnP is_whitespace r) =
          List.splitOnP is_whitespace r := by
        cases List.splitOnP is_whitespace r <;> rfl
      rw [this] at hmem
      exact List.mem_cons_of_mem _ hmem

/-! ## Theorems: redirect counters -/

theorem scan_redir_out_counts (st : ParserState) (c : Char) :
    (scan_redir_out st c).1.redirect_in_count = st.redirect_in_count ∧
      (scan_redir_out st c).1.redirect_out_count = st.redirect_out_count + 1 := by
  unfold scan_redir_out add_arg_to_list strncat
  split_ifs <;> exact ⟨rfl, rfl⟩

theorem scan_redir_in_counts (st : ParserState) :
    (scan_redir_in st).redirect_in_count = st.redirect_in_count + 1 ∧
      (scan_redir_in st).redirect_out_count = st.redirect_out_count := by
  unfold scan_redir_in add_arg_to_list strncat
  split_ifs <;> exact ⟨rfl, rfl⟩

theorem scan_character_counts (st : ParserState) (c : Char) (b : Bool) :
    (scan_character st c b).redirect_in_count = st.redirect_in_count ∧
      (scan_character st c b).redirect_out_count = st.redirect_out_count := by
  unfold scan_character add_arg_to_list strncat
  split_ifs <;> exact ⟨rfl, rfl⟩

theorem scan_whitespace_counts (st : ParserState) :
    (scan_whitespace st).redirect_in_count = st.redirect_in_count ∧
      (scan_whitespace st).redirect_out_count = st.redirect_out_count := by
  unfold scan_whitespace add_arg_to_list
  split_ifs <;> exact ⟨rfl, rfl⟩

theorem count_cons_ne {a b : Char} (h : b ≠ a) (l : List Char) :
    List.count a (b :: l) = List.count a l := by
  simp [List.count_cons, h]

theorem outside_quotes_cons {c : Char} (h : c ≠ QUOTATIONMARK) (r : List Char) :
    outside_quotes false (c :: r) = c :: outside_quotes false r := by
  simp [outside_quotes, h]

/-- What a successful scan of a segment leaves in the counters: one input
redirect per `<` outside the quoted spans, at least one output redirect when a
`>` lies outside them; and the scan ends outside the `QUOTE` state. -/
theorem scan_subcommand_counts (q : Bool) (st : ParserState) (s : List Char)
    (hq : q = false → st.currentState ≠ State.QUOTE) :
    ∀ st1, scan_subcommand q st s = some st1 →
      st1.currentState ≠ State.QUOTE ∧
      st1.redirect_in_count = st.redirect_in_count + (outside_quotes q s).count REDIR_IN ∧
      st.redirect_out_count ≤ st1.redirect_out_count ∧
      (REDIR_OUT ∈ outside_quotes q s → st.redirect_out_count < st1.redirect_out_count) := by
  refine scan_induction (fun q st s => ∀ st1, scan_subcommand q st s = some st1 →
      st1.currentState ≠ State.QUOTE ∧
      st1.redirect_in_count = st.redirect_in_count + (outside_quotes q s).count REDIR_IN ∧
      st.redirect_out_count ≤ st1.redirect_out_count ∧
      (REDIR_OUT ∈ outside_quotes q s → st.redirect_out_count < st1.redirect_out_count))
    ?_ ?_ ?_ ?_ ?_ ?_ ?_ ?_ ?_ ?_ ?_ q st s hq
  · intro st hs st1 h
    simp only [scan_subcommand, Option.some.injEq] at h
    subst h
    simp [outside_quotes, hs]
  · intro st st1 h; simp [scan_subcommand] at h
  · intro st rest ih st1 h
    rw [scan_quoted_close] at h
    have := ih st1 h
    simpa [outside_quotes, add_arg_to_list] using this
  · intro st c rest hc ih st1 h
    rw [scan_quoted_copy _ _ _ hc] at h
    have := ih st1 h
    simpa [outside_quotes, hc, strncat] using this
  · intro st rest _ ih st1 h
    rw [scan_step_append] at h
    obtain ⟨h1, h2, h3, h4⟩ := ih st1 h
    have hc := scan_redir_out_counts st REDIR_OUT
    rw [hc.1] at h2
    rw [hc.2] at h3
    refine ⟨h1, ?_, by omega, fun _ => by omega⟩
    simpa [outside_quotes, show REDIR_OUT ≠ QUOTATIONMARK by decide,
      show REDIR_OUT ≠ REDIR_IN by decide] using h2
  · intro st hs _ st1 h
    rw [scan_step_truncate_last] at h
    simp only [Option.some.injEq] at h
    subst h
    have hc := scan_redir_out_counts st (Char.ofNat 0)
    refine ⟨by rw [scan_redir_out_currentState]; exact hs, ?_, by omega, fun _ => by omega⟩
    rw [hc.1, outside_quotes_cons (by decide), count_cons_ne (by decide)]
    simp [outside_quotes]
  · intro st c rest _ hc ih st1 h
    rw [scan_step_truncate _ _ _ hc] at h
    obtain ⟨h1, h2, h3, h4⟩ := ih st1 h
    have hcn := scan_redir_out_counts st c
    rw [hcn.1] at h2
    rw [hcn.2] at h3
    refine ⟨h1, ?_, by omega, fun _ => by omega⟩
    rw [h2, outside_quotes_cons (c := REDIR_OUT) (by decide), count_cons_ne (by decide)]
  · intro st rest _ ih st1 h
    rw [scan_step_in] at h
    obtain ⟨h1, h2, h3, h4⟩ := ih st1 h
    have hcn := scan_redir_in_counts st
    rw [hcn.1] at h2
    rw [hcn.2] at h3 h4
    refine ⟨h1, ?_, h3, ?_⟩
    · rw [h2]
      simp [outside_quotes, show REDIR_IN ≠ QUOTATIONMARK by decide]
      omega
    · intro hm
      apply h4
      simpa [outside_quotes, show REDIR_IN ≠ QUOTATIONMARK by decide,
        show REDIR_OUT ≠ REDIR_IN by decide] using hm
  · intro st c rest _ hc ih st1 h
    rw [scan_step_character _ _ _ hc] at h
    obtain ⟨h1, h2, h3, h4⟩ := ih st1 h
    have hcn := scan_character_counts st c rest.isEmpty
    rw [hcn.1] at h2
    rw [hcn.2] at h3 h4
    have hq : c ≠ QUOTATIONMARK := by rintro rfl; revert hc; decide
    have hi : c ≠ REDIR_IN := by rintro rfl; revert hc; decide
    have ho : c ≠ REDIR_OUT := by rintro rfl; revert hc; decide
    refine ⟨h1, ?_, h3, ?_⟩
    · rw [h2, outside_quotes_cons hq, count_cons_ne hi]
    · intro hm
      apply h4
      simpa [outside_quotes, hq, Ne.symm ho] using hm
  · intro st c rest _ hc ih st1 h
    rw [scan_step_whitespace _ _ _ hc] at h
    obtain ⟨h1, h2, h3, h4⟩ := ih st1 h
    have hcn := scan_whitespace_counts st
    rw [hcn.1] at h2
    rw [hcn.2] at h3 h4
    have hq : c ≠ QUOTATIONMARK := by rintro rfl; revert hc; decide
    have hi : c ≠ REDIR_IN := by rintro rfl; revert hc; decide
    have ho : c ≠ REDIR_OUT := by rintro rfl; revert hc; decide
    refine ⟨h1, ?_, h3, ?_⟩
    · rw [h2, outside_quotes_cons hq, count_cons_ne hi]
    · intro hm
      apply h4
      simpa [outside_quotes, hq, Ne.symm ho] using hm
  · intro st rest hs ih st1 h
    rw [scan_step_quote _ _ hs] at h
    have := ih st1 h
    simpa [outside_quotes] using this

/-! ## Theorems: building a stage -/

/-- The loop of `get_input_output` has a result on every list whose last entry
is not a redirect token. -/
theorem get_input_output_loop_isSome (i : Nat) (kept : List Argument) (sub : Subcommand)
    (l : List Argument) (hl : ∀ h : l ≠ [], (l.getLast h).token = Token.NORMAL) :
    (get_input_output_loop i kept sub l).isSome = true := by
  induction i, kept, sub, l using get_input_output_loop.induct with
  | case1 i kept sub => simp [get_input_output_loop]
  | case2 i kept sub entry hi ht =>
    have := hl (by simp)
    simp at this
    rcases ht with ht | ht <;> rw [this] at ht <;> cases ht
  | case3 i kept sub entry hi ht file tail ih =>
    rw [get_input_output_loop.eq_def]
    simp only
    rw [if_pos hi, if_pos ht]
    apply ih
    intro h
    have := hl (by simp)
    rw [List.getLast_cons (by simp), List.getLast_cons h] at this
    exact this
  | case4 i kept sub entry hi hnt ht =>
    have := hl (by simp)
    simp at this
    rw [this] at ht; cases ht
  | case5 i kept sub entry hi hnt ht file tail ih =>
    rw [get_input_output_loop.eq_def]
    simp only
    rw [if_pos hi, if_neg hnt, if_pos ht]
    apply ih
    intro h
    have := hl (by simp)
    rw [List.getLast_cons (by simp), List.getLast_cons h] at this
    exact this
  | case6 i kept sub entry rest hi hnt hni ih =>
    rw [get_input_output_loop.eq_def]
    simp only
    rw [if_pos hi, if_neg hnt, if_neg hni]
    apply ih
    intro h
    have := hl (by simp)
    rw [List.getLast_cons h] at this
    exact this
  | case7 i kept sub entry rest hi =>
    rw [get_input_output_loop.eq_def]
    simp [hi]

theorem make_exec_args_array_nil (sub : Subcommand) : make_exec_args_array [] sub = none := rfl

theorem make_exec_args_array_eq_some (l : List Argument) (sub : Subcommand) (h : l ≠ []) :
    make_exec_args_array l sub =
      some { sub with exec_args := (l.dropLast.map fun e => some e.contents) ++ [none] } := by
  unfold make_exec_args_array getListLength
  simp only
  rw [if_neg (by simpa using h)]

theorem make_exec_args_array_some (l : List Argument) (sub sub1 : Subcommand)
    (h : make_exec_args_array l sub = some sub1) :
    l ≠ [] ∧
      sub1 = { sub with exec_args := (l.dropLast.map fun e => some e.contents) ++ [none] } := by
  cases l with
  | nil => rw [make_exec_args_array_nil] at h; cases h
  | cons a r =>
    rw [make_exec_args_array_eq_some _ _ (by simp), Option.some.injEq] at h
    exact ⟨by simp, h.symm⟩

/-- What `make_subcommand` returns is `list_commands` with one stage added at
its end. -/
theorem make_subcommand_result (cmds cmds1 : List Subcommand) (l args : List Argument)
    (h : make_subcommand cmds l = some (cmds1, args)) : ∃ sub, cmds1 = cmds ++ [sub] := by
  unfold make_subcommand at h
  split at h
  · cases h
  · split_ifs at h
    · split at h
      · cases h
      · split at h
        · cases h
        · simp only [Option.some.injEq, Prod.mk.injEq] at h
          exact ⟨_, h.1.symm⟩
    · split at h
      · cases h
      · simp only [Option.some.injEq, Prod.mk.injEq] at h
        exact ⟨_, h.1.symm⟩

/-! ## Theorems: the loop over the segments -/

theorem parse_commandline_loop_step (num i : Nat) (s : List Char)
    (rest : List (Option (List Char))) (st : ParserState) (cmds : List Subcommand)
    (hi : i < num)
    (hfit : temp_overrun false { st with redirect_in_count := 0, redirect_out_count := 0 } s =
      false) :
    parse_commandline_loop num i (some s :: rest) st cmds =
      match scan_subcommand false
          { st with redirect_in_count := 0, redirect_out_count := 0 } s with
      | none => some (ParseOut.mk (-1) [] cmds)
      | some st1 =>
        if check_validity_of_cmdline_redirects num (i + 1) st1.redirect_in_count
            st1.redirect_out_count = -1 then
          some (ParseOut.mk (-1) [] cmds)
        else
          match make_subcommand cmds (st1.list_args ++ [Argument.mk [] Token.NORMAL]) with
          | none => none
          | some (cmds1, _) =>
            parse_commandline_loop num (i + 1) rest { st1 with list_args := [] } cmds1 := by
  rw [parse_commandline_loop.eq_def]
  simp only [hi, if_true, hfit, Bool.false_eq_true, if_false]

theorem parse_commandline_loop_overrun (num i : Nat) (s : List Char)
    (rest : List (Option (List Char))) (st : ParserState) (cmds : List Subcommand)
    (hi : i < num)
    (hover : temp_overrun false { st with redirect_in_count := 0, redirect_out_count := 0 } s =
      true) :
    parse_commandline_loop num i (some s :: rest) st cmds = none := by
  rw [parse_commandline_loop.eq_def]
  simp only [hi, if_true, hover]

theorem parse_commandline_loop_done (num i : Nat) (subs : List (Option (List Char)))
    (st : ParserState) (cmds : List Subcommand) (hi : ¬ i < num) :
    parse_commandline_loop num i subs st cmds = some (ParseOut.mk 0 st.list_args cmds) := by
  rw [parse_commandline_loop.eq_def]
  simp only [hi, if_false]

theorem parse_commandline_loop_nil (num i : Nat) (st : ParserState) (cmds : List Subcommand)
    (hi : i < num) : parse_commandline_loop num i [] st cmds = none := by
  rw [parse_commandline_loop.eq_def]
  simp only [hi, if_true]

theorem parse_commandline_loop_unassigned (num i : Nat) (rest : List (Option (List Char)))
    (st : ParserState) (cmds : List Subcommand) (hi : i < num) :
    parse_commandline_loop num i (none :: rest) st cmds = none := by
  rw [parse_commandline_loop.eq_def]
  simp only [hi, if_true]

/-- What a result of the loop tells at an assigned segment: the scan stayed
inside the word buffer, and either the loop returned -1 there (the segment
ends inside a quoted span, or the validator rejects its redirect counts), or
`make_subcommand` added a stage and the loop went on with the next
segment. -/
theorem parse_commandline_loop_cases (num i : Nat) (s : List Char)
    (rest : List (Option (List Char))) (st : ParserState) (cmds : List Subcommand)
    (out : ParseOut) (hi : i < num)
    (h : parse_commandline_loop num i (some s :: rest) st cmds = some out) :
    temp_overrun false { st with redirect_in_count := 0, redirect_out_count := 0 } s = false ∧
      ((scan_subcommand false { st with redirect_in_count := 0, redirect_out_count := 0 } s =
          none ∧ out = ParseOut.mk (-1) [] cmds) ∨
        ∃ st1,
          scan_subcommand false { st with redirect_in_count := 0, redirect_out_count := 0 } s =
            some st1 ∧
          ((check_validity_of_cmdline_redirects num (i + 1) st1.redirect_in_count
              st1.redirect_out_count = -1 ∧ out = ParseOut.mk (-1) [] cmds) ∨
            (check_validity_of_cmdline_redirects num (i + 1) st1.redirect_in_count
              st1.redirect_out_count ≠ -1 ∧
              ∃ sub args,
                make_subcommand cmds (st1.list_args ++ [Argument.mk [] Token.NORMAL]) =
                  some (cmds ++ [sub], args) ∧
                parse_commandline_loop num (i + 1) rest { st1 with list_args := [] }
                  (cmds ++ [sub]) = some out))) := by
  cases hover : temp_overrun false
      { st with redirect_in_count := 0, redirect_out_count := 0 } s with
  | true =>
    rw [parse_commandline_loop_overrun _ _ _ _ _ _ hi hover] at h
    cases h
  | false =>
    refine ⟨rfl, ?_⟩
    rw [parse_commandline_loop_step _ _ _ _ _ _ hi hover] at h
    cases hsc : scan_subcommand false
        { st with redirect_in_count := 0, redirect_out_count := 0 } s with
    | none =>
      rw [hsc] at h
      simp only [Option.some.injEq] at h
      exact Or.inl ⟨rfl, h.symm⟩
    | some st1 =>
      rw [hsc] at h
      simp only at h
      refine Or.inr ⟨st1, rfl, ?_⟩
      split_ifs at h with hv
      · simp only [Option.some.injEq] at h
        exact Or.inl ⟨hv, h.symm⟩
      · right
        refine ⟨hv, ?_⟩
        cases hm : make_subcommand cmds (st1.list_args ++ [Argument.mk [] Token.NORMAL]) with
        | none => rw [hm] at h; cases h
        | some p =>
          obtain ⟨cmds1, args⟩ := p
          rw [hm] at h
          obtain ⟨sub, rfl⟩ := make_subcommand_result _ _ _ _ hm
          exact ⟨sub, args, rfl, h⟩

/-! ## Theorems: the segment array -/

/-- The slots that `copy_subcommands` fills form an initial stretch of the
array: assigned tokens first, unassigned slots after them. -/
theorem copy_subcommands_loop_shape (n : Nat) :
    ∀ (cmd : Option (List Char)) (save : List Char),
      ∃ toks : List (List Char), ∃ m : Nat,
        copy_subcommands_loop n cmd save = toks.map some ++ List.replicate m none ∧
          toks.length + m = n ∧ (cmd = none → toks = []) ∧
          (∀ c, cmd = some c → 0 < n → toks.head? = some c) := by
  induction n with
  | zero => intro cmd save; exact ⟨[], 0, by simp [copy_subcommands_loop], rfl, by simp, by simp⟩
  | succ n ih =>
    intro cmd save
    cases cmd with
    | none => exact ⟨[], n + 1, by simp [copy_subcommands_loop], by simp, by simp, by simp⟩
    | some c =>
      obtain ⟨toks, m, h1, h2, _, _⟩ := ih (strtok PIPE save).1 (strtok PIPE save).2
      refine ⟨c :: toks, m, ?_, by simp; omega, by simp, by simp⟩
      simp [copy_subcommands_loop, h1]

theorem copy_subcommands_shape (input : List Char) (num : Nat) :
    ∃ toks : List (List Char), ∃ m : Nat,
      copy_subcommands input num = toks.map some ++ List.replicate m none ∧
        toks.length + m = num := by
  unfold copy_subcommands
  split_ifs
  · obtain ⟨toks, m, h1, h2, _⟩ := copy_subcommands_loop_shape num (strtok PIPE input).1
      (strtok PIPE input).2
    exact ⟨toks, m, h1, h2⟩
  · exact ⟨[], num, by simp, by simp⟩

/-- An assigned slot of the array is preceded by assigned slots only. -/
theorem copy_subcommands_split (input : List Char) (num i : Nat) (s : List Char)
    (h : (copy_subcommands input num)[i]? = some (some s)) :
    ∃ (pre : List (List Char)) (post : List (Option (List Char))),
      copy_subcommands input num = pre.map some ++ some s :: post ∧
      pre.length = i ∧ i < num := by
  obtain ⟨toks, m, h1, h2⟩ := copy_subcommands_shape input num
  rw [h1] at h ⊢
  have hi : i < toks.length := by
    by_contra hge
    rw [List.getElem?_append_right (by simp; omega)] at h
    rw [List.getElem?_eq_some] at h
    obtain ⟨_, h⟩ := h
    simp at h
  rw [List.getElem?_append_left (by simpa using hi)] at h
  simp only [List.getElem?_map, Option.map_eq_some', Option.some.injEq, exists_eq_right] at h
  refine ⟨toks.take i, (toks.drop (i + 1)).map some ++ List.replicate m none, ?_, ?_, by omega⟩
  · have hd : toks = toks.take i ++ s :: toks.drop (i + 1) := by
      have hs : toks[i] = s := by
        rw [List.getElem?_eq_getElem hi] at h
        exact Option.some.inj h
      rw [← hs, ← List.drop_eq_getElem_cons hi, List.take_append_drop]
    conv_lhs => rw [hd]
    simp
  · simp; omega

/-- The quote state at the end of a text is the parity of its quotation
marks. -/
theorem quote_open_eq_parity (s : List Char) :
    ∀ q, quote_open q s = (q != decide (s.count QUOTATIONMARK % 2 = 1)) := by
  induction s with
  | nil => intro q; simp [quote_open]
  | cons c r ih =>
    intro q
    rw [quote_open, ih]
    by_cases hc : c = QUOTATIONMARK
    · subst hc
      simp only [if_true, List.count_cons_self]
      cases q <;> by_cases hp : List.count QUOTATIONMARK r % 2 = 1 <;> simp [hp] <;> omega
    · rw [if_neg hc, count_cons_ne hc]

/-! ## Theorems: lines of plain words -/

/-- On a list without redirect tokens the loop of `get_input_output` deletes
nothing and leaves the stage as it is. -/
theorem get_input_output_loop_plain (l : List Argument) :
    ∀ (i : Nat) (kept : List Argument) (sub : Subcommand),
      (∀ e ∈ l, e.token = Token.NORMAL) →
      get_input_output_loop i kept sub l = some (kept ++ l, sub) := by
  induction l with
  | nil => intro i kept sub _; simp [get_input_output_loop]
  | cons e r ih =>
    intro i kept sub h
    have he : e.token = Token.NORMAL := h e (by simp)
    rw [get_input_output_loop.eq_def]
    simp only
    by_cases hi : i < 20
    · rw [if_pos hi, if_neg (by rw [he]; decide), if_neg (by rw [he]; decide),
        ih _ _ _ (fun x hx => h x (by simp [hx]))]
      simp
    · rw [if_neg hi]

theorem scan_character_eq (st : ParserState) (c : Char) (b : Bool) :
    scan_character st c b =
      if b then { st with currentState := State.CHARACTER, temp := [],
                          list_args := st.list_args ++ [⟨st.temp ++ [c], Token.NORMAL⟩] }
      else { st with currentState := State.CHARACTER, temp := st.temp ++ [c] } := by
  unfold scan_character add_arg_to_list strncat
  cases b <;> rfl

theorem modifyHead_self {α : Type} (l : List α) : l.modifyHead (fun w => w) = l := by
  cases l <;> rfl

/-- The scan of a text of ordinary characters, spaces and tabs adds its
whitespace-split words to `list_args`, the first of them continuing the
pending word. -/
theorem scan_subcommand_plain (s : List Char) :
    ∀ st : ParserState, (∀ c ∈ s, is_character c = true ∨ is_whitespace c = true) →
      (s = [] → st.temp = []) →
      (s ≠ [] → (st.currentState = State.WHITESPACE ∧ st.temp = []) ∨
        (st.currentState = State.CHARACTER ∧ st.temp ≠ [])) →
      ∃ st1, scan_subcommand false st s = some st1 ∧
        st1.list_args = st.list_args ++
          ((((s.splitOnP is_whitespace).modifyHead fun w => st.temp ++ w).filter
            fun w => !w.isEmpty).map fun w => ⟨w, Token.NORMAL⟩) ∧
        st1.redirect_in_count = st.redirect_in_count ∧
        st1.redirect_out_count = st.redirect_out_count := by
  induction s with
  | nil =>
    intro st _ ht _
    refine ⟨st, by simp [scan_subcommand], ?_, rfl, rfl⟩
    simp [List.splitOnP_nil, ht rfl]
  | cons c r ih =>
    intro st hcs _ hinv
    have hr : ∀ x ∈ r, is_character x = true ∨ is_whitespace x = true :=
      fun x hx => hcs x (by simp [hx])
    rw [List.splitOnP_cons]
    rcases hcs c (by simp) with hc | hc
    · have hw : is_whitespace c = false := by
        unfold is_character at hc
        cases h : is_whitespace c <;> simp_all
      rw [scan_step_character _ _ _ hc, scan_character_eq]
      simp only [hw, Bool.false_eq_true, if_false, List.modifyHead_modifyHead]
      cases r with
      | nil =>
        simp only [List.isEmpty_nil, if_true]
        refine ⟨_, rfl, ?_, rfl, rfl⟩
        simp [List.splitOnP_nil]
      | cons c2 r2 =>
        simp only [List.isEmpty_cons, Bool.false_eq_true, if_false]
        obtain ⟨st1, h1, h2, h3, h4⟩ := ih
          { st with currentState := State.CHARACTER, temp := st.temp ++ [c] } hr (by simp)
          (fun _ => Or.inr ⟨rfl, by simp⟩)
        refine ⟨st1, h1, ?_, h3, h4⟩
        rw [h2]
        simp [Function.comp_def]
    · rw [scan_step_whitespace _ _ _ hc]
      simp only [hc, if_true, List.modifyHead_cons]
      rcases hinv (by simp) with ⟨hs, ht⟩ | ⟨hs, ht⟩
      · have hsw : scan_whitespace st = st := by simp [scan_whitespace, hs]
        rw [hsw]
        obtain ⟨st1, h1, h2, h3, h4⟩ := ih st hr (fun _ => ht) (fun _ => Or.inl ⟨hs, ht⟩)
        refine ⟨st1, h1, ?_, h3, h4⟩
        rw [h2, ht]
        simp [modifyHead_self]
      · have hsw : scan_whitespace st =
            { st with currentState := State.WHITESPACE, temp := [],
                      list_args := st.list_args ++ [⟨st.temp, Token.NORMAL⟩],
                      word_count := st.word_count + 1 } := by
          simp [scan_whitespace, hs, add_arg_to_list]
        rw [hsw]
        obtain ⟨st1, h1, h2, h3, h4⟩ := ih
          { st with currentState := State.WHITESPACE, temp := [],
                    list_args := st.list_args ++ [⟨st.temp, Token.NORMAL⟩],
                    word_count := st.word_count + 1 } hr (fun _ => rfl) (fun _ => Or.inl ⟨rfl, rfl⟩)
        refine ⟨st1, h1, ?_, h3, h4⟩
        rw [h2]
        have hne : st.temp.isEmpty = false := by
          cases h : st.temp with
          | nil => exact absurd h ht
          | cons _ _ => rfl
        simp [List.filter_cons, hne, modifyHead_self]

theorem find_num_subcommands_no_pipe (line : List Char) (len : Nat) (h : PIPE ∉ line) :
    find_num_subcommands line len = 1 := by
  rw [find_num_subcommands_count line len]
  have : (line.take len).count PIPE = 0 :=
    List.count_eq_zero.2 fun hm => h (List.mem_of_mem_take hm)
  omega

theorem copy_subcommands_no_pipe (line : List Char) (hne : line ≠ [])
    (hnl : charAt line 0 ≠ NEWLINE) (h : PIPE ∉ line) :
    copy_subcommands line 1 = [some line] := by
  have hall : ∀ x ∈ line, (x != PIPE) = true := by
    intro x hx
    have : x ≠ PIPE := fun e => h (e ▸ hx)
    simpa using this
  have htok : (strtok PIPE line).1 = some line := by
    cases line with
    | nil => exact absurd rfl hne
    | cons c r =>
      have hc : c ≠ PIPE := fun e => h (by simp [e])
      have htw : (c :: r).takeWhile (fun x => x != PIPE) = c :: r :=
        List.takeWhile_eq_self_iff.2 hall
      simp only [strtok, List.dropWhile_cons, beq_iff_eq, hc, if_false, htw]
  unfold copy_subcommands
  rw [if_pos hnl, htok]
  rfl

theorem make_exec_args_array_terminated (words : List Argument) (sub : Subcommand) :
    make_exec_args_array (words ++ [Argument.mk [] Token.NORMAL]) sub =
      some { sub with exec_args := (words.map fun e => some e.contents) ++ [none] } := by
  rw [make_exec_args_array_eq_some _ _ (by simp)]
  simp

/-! ## Theorems: the stages of a successful parse -/

/-- On a token list of plain words with its terminator, `make_subcommand` adds
the stage whose argument vector is these words followed by NULL. -/
theorem make_subcommand_words (cmds : List Subcommand) (ws : List (List Char)) :
    ∃ sub rest,
      make_subcommand cmds
          ((ws.map fun w => Argument.mk w Token.NORMAL) ++ [Argument.mk [] Token.NORMAL]) =
        some (cmds ++ [sub], rest) ∧
      sub.exec_args = ws.map some ++ [none] ∧
      sub.input = "stdin".toList ∧ sub.output = "stdout".toList := by
  have hterm := make_exec_args_array_terminated (ws.map fun w => Argument.mk w Token.NORMAL)
  have hmap : ((ws.map fun w => Argument.mk w Token.NORMAL).map fun e => some e.contents) =
      ws.map some := by
    simp [Function.comp_def]
  have hnormal : ∀ e ∈ (ws.map fun w => Argument.mk w Token.NORMAL) ++
      [Argument.mk [] Token.NORMAL], e.token = Token.NORMAL := by
    intro e he
    simp only [List.mem_append, List.mem_map, List.mem_singleton] at he
    rcases he with ⟨w, _, rfl⟩ | rfl <;> rfl
  unfold make_subcommand
  cases hci : check_internal_command
      ((ws.map fun w => Argument.mk w Token.NORMAL) ++ [Argument.mk [] Token.NORMAL]) with
  | none => cases ws <;> simp [check_internal_command] at hci
  | some r =>
    simp only
    by_cases hr : r ≠ 0
    · rw [if_pos hr, get_input_output, get_input_output_loop_plain _ _ _ _ hnormal]
      simp only [List.nil_append]
      rw [hterm]
      exact ⟨_, _, rfl, by simp only [hmap], rfl, rfl⟩
    · rw [if_neg hr, hterm]
      exact ⟨_, _, rfl, by simp only [hmap], rfl, rfl⟩

/-- The loop of `parse_commandline` only adds stages to `list_commands`. -/
theorem parse_commandline_loop_extends (num : Nat) (subs : List (Option (List Char))) :
    ∀ (i : Nat) (st : ParserState) (cmds : List Subcommand) (out : ParseOut),
      parse_commandline_loop num i subs st cmds = some out →
      ∃ more, out.list_commands = cmds ++ more := by
  induction subs with
  | nil =>
    intro i st cmds out h
    by_cases hi : i < num
    · rw [parse_commandline_loop_nil _ _ _ _ hi] at h
      cases h
    · rw [parse_commandline_loop_done _ _ _ _ _ hi, Option.some.injEq] at h
      exact ⟨[], by simp [← h]⟩
  | cons x rest ih =>
    intro i st cmds out h
    by_cases hi : i < num
    · cases x with
      | none =>
        rw [parse_commandline_loop_unassigned _ _ _ _ _ hi] at h
        cases h
      | some s =>
        obtain ⟨_, hc⟩ := parse_commandline_loop_cases _ _ _ _ _ _ _ hi h
        rcases hc with ⟨_, rfl⟩ | ⟨st1, _, ⟨_, rfl⟩ | ⟨_, sub, args, _, hnext⟩⟩
        · exact ⟨[], by simp⟩
        · exact ⟨[], by simp⟩
        · obtain ⟨more, hmore⟩ := ih _ _ _ _ hnext
          exact ⟨sub :: more, by simp [hmore]⟩
    · rw [parse_commandline_loop_done _ _ _ _ _ hi, Option.some.injEq] at h
      exact ⟨[], by simp [← h]⟩

/-! ## Theorems: the loop of get_input_output -/

theorem get_input_output_loop_output (i : Nat) (kept : List Argument) (sub : Subcommand)
    (entry file : Argument) (rest : List Argument) (hi : i < 20)
    (h : entry.token = Token.REDIRECT_OUTPUT_TRUNCATE ∨
      entry.token = Token.REDIRECT_OUTPUT_APPEND) :
    get_input_output_loop i kept sub (entry :: file :: rest) =
      get_input_output_loop (i + 1) kept
        { sub with type := some entry.token, output := file.contents } rest := by
  rw [get_input_output_loop.eq_def]
  simp only
  rw [if_pos hi, if_pos h]

theorem get_input_output_loop_input (i : Nat) (kept : List Argument) (sub : Subcommand)
    (entry file : Argument) (rest : List Argument) (hi : i < 20)
    (h : entry.token = Token.REDIRECT_INPUT) :
    get_input_output_loop i kept sub (entry :: file :: rest) =
      get_input_output_loop (i + 1) kept
        { sub with type := some entry.token, input := file.contents } rest := by
  rw [get_input_output_loop.eq_def]
  simp only
  rw [if_pos hi, if_neg (by rw [h]; decide), if_pos h]

theorem get_input_output_loop_keep (i : Nat) (kept : List Argument) (sub : Subcommand)
    (entry : Argument) (rest : List Argument) (hi : i < 20)
    (h : ¬ (entry.token = Token.REDIRECT_OUTPUT_TRUNCATE ∨
      entry.token = Token.REDIRECT_OUTPUT_APPEND ∨ entry.token = Token.REDIRECT_INPUT)) :
    get_input_output_loop i kept sub (entry :: rest) =
      get_input_output_loop (i + 1) (kept ++ [entry]) sub rest := by
  rw [get_input_output_loop.eq_def]
  simp only
  rw [if_pos hi, if_neg (fun h1 => h (by tauto)), if_neg (fun h1 => h (by tauto))]

theorem get_input_output_loop_stop (i : Nat) (kept : List Argument) (sub : Subcommand)
    (l : List Argument) (hi : ¬ i < 20) :
    get_input_output_loop i kept sub l = some (kept ++ l, sub) := by
  cases l with
  | nil => simp [get_input_output_loop]
  | cons e r =>
    rw [get_input_output_loop.eq_def]
    simp only
    rw [if_neg hi]

/-- The loop of `get_input_output` passes over a stretch of entries that it
can resolve within the first twenty iterations and goes on behind it. -/
theorem get_input_output_loop_pass (pre : List Argument) :
    ∀ (k i : Nat) (kept : List Argument) (sub : Subcommand),
      resolve_steps pre = some k → i + k ≤ 20 →
      ∃ kept1 sub1, ∀ rest,
        get_input_output_loop i kept sub (pre ++ rest) =
          get_input_output_loop (i + k) kept1 sub1 rest := by
  induction pre using resolve_steps.induct with
  | case1 =>
    intro k i kept sub h _
    simp only [resolve_steps, Option.some.injEq] at h
    subst h
    exact ⟨kept, sub, fun rest => rfl⟩
  | case2 entry hop =>
    intro k i kept sub h _
    simp [resolve_steps, hop] at h
  | case3 entry hop file rest2 ih =>
    intro k i kept sub h hk
    rw [resolve_steps.eq_def] at h
    simp only [hop, if_true, Option.map_eq_some'] at h
    obtain ⟨k2, hk2, rfl⟩ := h
    by_cases hout : entry.token = Token.REDIRECT_OUTPUT_TRUNCATE ∨
        entry.token = Token.REDIRECT_OUTPUT_APPEND
    · obtain ⟨kept1, sub1, h1⟩ := ih k2 (i + 1) kept
        { sub with type := some entry.token, output := file.contents } hk2 (by omega)
      refine ⟨kept1, sub1, fun rest => ?_⟩
      rw [List.cons_append, List.cons_append,
        get_input_output_loop_output _ _ _ _ _ _ (by omega) hout, h1]
      congr 1
      omega
    · have hin : entry.token = Token.REDIRECT_INPUT := by tauto
      obtain ⟨kept1, sub1, h1⟩ := ih k2 (i + 1) kept
        { sub with type := some entry.token, input := file.contents } hk2 (by omega)
      refine ⟨kept1, sub1, fun rest => ?_⟩
      rw [List.cons_append, List.cons_append,
        get_input_output_loop_input _ _ _ _ _ _ (by omega) hin, h1]
      congr 1
      omega
  | case4 entry rest hop ih =>
    intro k i kept sub h hk
    rw [resolve_steps.eq_def] at h
    simp only [hop, if_false, Option.map_eq_some'] at h
    obtain ⟨k2, hk2, rfl⟩ := h
    obtain ⟨kept1, sub1, h1⟩ := ih k2 (i + 1) (kept ++ [entry]) sub hk2 (by omega)
    refine ⟨kept1, sub1, fun rest2 => ?_⟩
    rw [List.cons_append, get_input_output_loop_keep _ _ _ _ _ (by omega) hop, h1]
    congr 1
    omega

/-- Entries without an input redirect operator leave the `input` field as it
is; entries without an output redirect operator leave the `output` field. -/
theorem get_input_output_loop_fields (i : Nat) (kept : List Argument) (sub : Subcommand)
    (l : List Argument) :
    ∀ kept1 sub1, get_input_output_loop i kept sub l = some (kept1, sub1) →
      ((∀ e ∈ l, e.token ≠ Token.REDIRECT_INPUT) → sub1.input = sub.input) ∧
      ((∀ e ∈ l, e.token ≠ Token.REDIRECT_OUTPUT_TRUNCATE ∧
          e.token ≠ Token.REDIRECT_OUTPUT_APPEND) → sub1.output = sub.output) := by
  induction i, kept, sub, l using get_input_output_loop.induct with
  | case1 i kept sub =>
    intro kept1 sub1 h
    simp only [get_input_output_loop, Option.some.injEq, Prod.mk.injEq] at h
    rw [← h.2]
    exact ⟨fun _ => rfl, fun _ => rfl⟩
  | case2 i kept sub entry hi ht =>
    intro kept1 sub1 h
    rw [get_input_output_loop.eq_def] at h
    simp only at h
    rw [if_pos hi, if_pos ht] at h
    cases h
  | case3 i kept sub entry hi ht file tail ih =>
    intro kept1 sub1 h
    rw [get_input_output_loop_output _ _ _ _ _ _ hi ht] at h
    obtain ⟨h1, h2⟩ := ih kept1 sub1 h
    refine ⟨fun hno => ?_, fun hno => ?_⟩
    · exact h1 fun e he => hno e (by simp [he])
    · exact absurd ht (by have := hno entry (by simp); tauto)
  | case4 i kept sub entry hi hnt ht =>
    intro kept1 sub1 h
    rw [get_input_output_loop.eq_def] at h
    simp only at h
    rw [if_pos hi, if_neg hnt, if_pos ht] at h
    cases h
  | case5 i kept sub entry hi hnt ht file tail ih =>
    intro kept1 sub1 h
    rw [get_input_output_loop_input _ _ _ _ _ _ hi ht] at h
    obtain ⟨h1, h2⟩ := ih kept1 sub1 h
    refine ⟨fun hno => ?_, fun hno => ?_⟩
    · exact absurd ht (hno entry (by simp))
    · exact h2 fun e he => hno e (by simp [he])
  | case6 i kept sub entry rest hi hnt hni ih =>
    intro kept1 sub1 h
    rw [get_input_output_loop_keep _ _ _ _ _ hi (by tauto)] at h
    obtain ⟨h1, h2⟩ := ih kept1 sub1 h
    exact ⟨fun hno => h1 fun e he => hno e (by simp [he]),
      fun hno => h2 fun e he => hno e (by simp [he])⟩
  | case7 i kept sub entry rest hi =>
    intro kept1 sub1 h
    rw [get_input_output_loop_stop _ _ _ _ hi] at h
    simp only [Option.some.injEq, Prod.mk.injEq] at h
    rw [← h.2]
    exact ⟨fun _ => rfl, fun _ => rfl⟩

/-- The loop of `get_input_output` leaves the entries it has passed in the
list, in front of those it keeps later. -/
theorem get_input_output_loop_kept (i : Nat) (kept : List Argument) (sub : Subcommand)
    (l : List Argument) :
    ∀ kept1 sub1, get_input_output_loop i kept sub l = some (kept1, sub1) →
      ∃ more, kept1 = kept ++ more := by
  induction i, kept, sub, l using get_input_output_loop.induct with
  | case1 i kept sub =>
    intro kept1 sub1 h
    simp only [get_input_output_loop, Option.some.injEq, Prod.mk.injEq] at h
    exact ⟨[], by simp [← h.1]⟩
  | case2 i kept sub entry hi ht =>
    intro kept1 sub1 h
    rw [get_input_output_loop.eq_def] at h
    simp only at h
    rw [if_pos hi, if_pos ht] at h
    cases h
  | case3 i kept sub entry hi ht file tail ih =>
    intro kept1 sub1 h
    rw [get_input_output_loop_output _ _ _ _ _ _ hi ht] at h
    exact ih kept1 sub1 h
  | case4 i kept sub entry hi hnt ht =>
    intro kept1 sub1 h
    rw [get_input_output_loop.eq_def] at h
    simp only at h
    rw [if_pos hi, if_neg hnt, if_pos ht] at h
    cases h
  | case5 i kept sub entry hi hnt ht file tail ih =>
    intro kept1 sub1 h
    rw [get_input_output_loop_input _ _ _ _ _ _ hi ht] at h
    exact ih kept1 sub1 h
  | case6 i kept sub entry rest hi hnt hni ih =>
    intro kept1 sub1 h
    rw [get_input_output_loop_keep _ _ _ _ _ hi (by tauto)] at h
    obtain ⟨more, hmore⟩ := ih kept1 sub1 h
    exact ⟨entry :: more, by simp [hmore]⟩
  | case7 i kept sub entry rest hi =>
    intro kept1 sub1 h
    rw [get_input_output_loop_stop _ _ _ _ hi] at h
    simp only [Option.some.injEq, Prod.mk.injEq] at h
    exact ⟨entry :: rest, h.1.symm⟩

/-- The loop of `get_input_output` writes `type` and never clears it. -/
theorem get_input_output_loop_type (i : Nat) (kept : List Argument) (sub : Subcommand)
    (l : List Argument) :
    ∀ kept1 sub1, get_input_output_loop i kept sub l = some (kept1, sub1) →
      sub.type ≠ none → sub1.type ≠ none := by
  induction i, kept, sub, l using get_input_output_loop.induct with
  | case1 i kept sub =>
    intro kept1 sub1 h
    simp only [get_input_output_loop, Option.some.injEq, Prod.mk.injEq] at h
    rw [← h.2]
    exact id
  | case2 i kept sub entry hi ht =>
    intro kept1 sub1 h
    rw [get_input_output_loop.eq_def] at h
    simp only at h
    rw [if_pos hi, if_pos ht] at h
    cases h
  | case3 i kept sub entry hi ht file tail ih =>
    intro kept1 sub1 h _
    rw [get_input_output_loop_output _ _ _ _ _ _ hi ht] at h
    exact ih kept1 sub1 h (by simp)
  | case4 i kept sub entry hi hnt ht =>
    intro kept1 sub1 h
    rw [get_input_output_loop.eq_def] at h
    simp only at h
    rw [if_pos hi, if_neg hnt, if_pos ht] at h
    cases h
  | case5 i kept sub entry hi hnt ht file tail ih =>
    intro kept1 sub1 h _
    rw [get_input_output_loop_input _ _ _ _ _ _ hi ht] at h
    exact ih kept1 sub1 h (by simp)
  | case6 i kept sub entry rest hi hnt hni ih =>
    intro kept1 sub1 h
    rw [get_input_output_loop_keep _ _ _ _ _ hi (by tauto)] at h
    exact ih kept1 sub1 h
  | case7 i kept sub entry rest hi =>
    intro kept1 sub1 h
    rw [get_input_output_loop_stop _ _ _ _ hi] at h
    simp only [Option.some.injEq, Prod.mk.injEq] at h
    rw [← h.2]
    exact id

/-- The terminator entry stays in the list when the entry before it is a
plain word: the loop of `get_input_output` takes an entry as a file name only
directly behind an operator. -/
theorem get_input_output_loop_last (t : Argument) (ht : t.token = Token.NORMAL) :
    ∀ (n : Nat) (l : List Argument), l.length = n →
      (l = [t] ∨ ∃ pre a, l = pre ++ [a, t] ∧ a.token = Token.NORMAL) →
      ∀ (i : Nat) (kept : List Argument) (sub : Subcommand),
        ∃ more sub1, get_input_output_loop i kept sub l = some (kept ++ more ++ [t], sub1) := by
  intro n
  induction n using Nat.strong_induction_on with
  | _ n ih =>
    intro l hn hshape i kept sub
    by_cases hi : i < 20
    swap
    · rw [get_input_output_loop_stop _ _ _ _ hi]
      rcases hshape with rfl | ⟨pre, a, rfl, _⟩
      · exact ⟨[], sub, by simp⟩
      · exact ⟨pre ++ [a], sub, by simp⟩
    rcases hshape with rfl | ⟨pre, a, rfl, ha⟩
    · rw [get_input_output_loop_keep _ _ _ _ _ hi (by rw [ht]; decide)]
      exact ⟨[], sub, by simp [get_input_output_loop]⟩
    · cases pre with
      | nil =>
        rw [List.nil_append, get_input_output_loop_keep _ _ _ _ _ hi (by rw [ha]; decide)]
        obtain ⟨more, sub1, h⟩ := ih 1 (by simp at hn; omega) [t] rfl (Or.inl rfl) (i + 1)
          (kept ++ [a]) sub
        exact ⟨a :: more, sub1, by rw [h]; simp⟩
      | cons p pre2 =>
        by_cases hop : p.token = Token.REDIRECT_OUTPUT_TRUNCATE ∨
            p.token = Token.REDIRECT_OUTPUT_APPEND ∨ p.token = Token.REDIRECT_INPUT
        · -- the operator takes the entry behind it
          cases pre2 with
          | nil =>
            have hstep : ∃ sub2, get_input_output_loop i kept sub ([p] ++ [a, t]) =
                get_input_output_loop (i + 1) kept sub2 [t] := by
              rcases hop with h | h | h
              · exact ⟨_, get_input_output_loop_output _ _ _ _ _ _ hi (Or.inl h)⟩
              · exact ⟨_, get_input_output_loop_output _ _ _ _ _ _ hi (Or.inr h)⟩
              · exact ⟨_, get_input_output_loop_input _ _ _ _ _ _ hi h⟩
            obtain ⟨sub2, hstep⟩ := hstep
            rw [hstep]
            exact ih 1 (by simp at hn; omega) [t] rfl (Or.inl rfl) (i + 1) kept sub2
          | cons f pre3 =>
            have hstep : ∃ sub2, get_input_output_loop i kept sub (p :: f :: pre3 ++ [a, t]) =
                get_input_output_loop (i + 1) kept sub2 (pre3 ++ [a, t]) := by
              rcases hop with h | h | h
              · exact ⟨_, get_input_output_loop_output _ _ _ _ _ _ hi (Or.inl h)⟩
              · exact ⟨_, get_input_output_loop_output _ _ _ _ _ _ hi (Or.inr h)⟩
              · exact ⟨_, get_input_output_loop_input _ _ _ _ _ _ hi h⟩
            obtain ⟨sub2, hstep⟩ := hstep
            rw [hstep]
            exact ih (pre3 ++ [a, t]).length (by simp at hn ⊢; omega) _ rfl
              (Or.inr ⟨pre3, a, rfl, ha⟩) (i + 1) kept sub2
        · rw [List.cons_append, get_input_output_loop_keep _ _ _ _ _ hi hop]
          obtain ⟨more, sub1, h⟩ := ih (pre2 ++ [a, t]).length (by simp at hn ⊢; omega) _ rfl
            (Or.inr ⟨pre2, a, rfl, ha⟩) (i + 1) (kept ++ [p]) sub
          exact ⟨p :: more, sub1, by rw [h]; simp⟩

/-! ## Theorems: the dispatch of built-in commands -/

/-- No handler of the table returns 1, and only the handler of `exit` returns
6. -/
theorem internal_cmds_codes
    (row : List Char ×
      (OsCalls → Subcommand → List Environment → Option (Int × List Environment)))
    (hrow : row ∈ internal_cmds) (os : OsCalls) (sub : Subcommand)
    (list_env : List Environment) (r : Int × List Environment)
    (h : row.2 os sub list_env = some r) :
    r.1 ≠ 1 ∧ (r.1 = 6 → row.1 = "exit".toList) := by
  simp only [internal_cmds, List.mem_cons, List.mem_singleton, List.not_mem_nil,
    or_false] at hrow
  rcases hrow with rfl | rfl | rfl | rfl | rfl | rfl
  · simp only [handle_setenv] at h
    split at h
    · cases h
    · split_ifs at h
      · cases h; exact ⟨by simp, by simp⟩
      · split at h
        · split at h
          · cases h
          · cases h; exact ⟨by simp, by simp⟩
        · cases h
  · simp only [handle_getenv] at h
    split at h
    · cases h
    · split_ifs at h
      · cases h; exact ⟨by simp, by simp⟩
      · split at h
        · cases h
        · split at h
          · cases h
          · cases h; exact ⟨by simp, by simp⟩
          · cases h; exact ⟨by simp, by simp⟩
      · cases h; exact ⟨by simp, by simp⟩
  · simp only [handle_unsetenv] at h
    split at h
    · cases h
    · split_ifs at h
      · cases h; exact ⟨by simp, by simp⟩
      · split at h
        · cases h
        · split at h
          · cases h
          · cases h; exact ⟨by simp, by simp⟩
  · simp only [handle_cd, check_status] at h
    split at h
    · cases h
    · split_ifs at h <;> cases h <;> exact ⟨by simp, by simp⟩
  · simp only [handle_pwd] at h
    split at h
    · cases h
    · split_ifs at h <;> cases h <;> exact ⟨by simp, by simp⟩
  · simp only [handle_exit] at h
    split at h
    · cases h
    · split_ifs at h <;> cases h <;> exact ⟨by simp, fun _ => rfl⟩

/-- The loop of `handle_internal` on a stage with a command name: without a
row of that name the result is 1; otherwise it is the result of the handler
of a row of that name. -/
theorem handle_internal_loop_dispatch (os : OsCalls) (entry : Subcommand)
    (list_env : List Environment) (name : List Char) (args : List (Option (List Char)))
    (hname : entry.exec_args = some name :: args)
    (table : List (List Char ×
      (OsCalls → Subcommand → List Environment → Option (Int × List Environment)))) :
    (name ∉ table.map Prod.fst →
        handle_internal_loop os entry list_env table = some (1, list_env)) ∧
      (name ∈ table.map Prod.fst →
        ∃ row ∈ table, row.1 = name ∧
          handle_internal_loop os entry list_env table = row.2 os entry list_env) := by
  induction table with
  | nil => exact ⟨fun _ => rfl, fun h => by simp at h⟩
  | cons row rest ih =>
    by_cases hrow : row.1 = name
    · refine ⟨fun h => absurd (by simp [hrow]) h, fun _ => ⟨row, by simp, hrow, ?_⟩⟩
      simp only [handle_internal_loop, hname, hrow, if_true]
    · have hstep : handle_internal_loop os entry list_env (row :: rest) =
          handle_internal_loop os entry list_env rest := by
        simp only [handle_internal_loop, hname, hrow, if_false]
      rw [hstep]
      refine ⟨fun h => ih.1 fun hm => h (by simp [hm]), fun h => ?_⟩
      have hm : name ∈ rest.map Prod.fst := by
        simp only [List.map_cons, List.mem_cons] at h
        rcases h with h | h
        · exact absurd h.symm hrow
        · exact h
      obtain ⟨row2, hr2, h1, h2⟩ := ih.2 hm
      exact ⟨row2, by simp [hr2], h1, h2⟩

theorem get_num_args_terminated (args : List (List Char)) (tail : List (Option (List Char))) :
    get_num_args (args.map some ++ none :: tail) = some args.length := by
  induction args with
  | nil => rfl
  | cons a r ih => simp [get_num_args, ih]

theorem make_exec_args_array_shape (l : List Argument) (sub sub1 : Subcommand)
    (h : make_exec_args_array l sub = some sub1) :
    sub1.exec_args = [] ∨
      ∃ args : List (List Char), sub1.exec_args = args.map some ++ [none] := by
  rw [(make_exec_args_array_some l sub sub1 h).2]
  exact Or.inr ⟨l.dropLast.map fun e => e.contents, by simp [Function.comp_def]⟩

theorem make_subcommand_shape (cmds cmds1 : List Subcommand) (l args : List Argument)
    (h : make_subcommand cmds l = some (cmds1, args)) :
    ∃ sub, cmds1 = cmds ++ [sub] ∧
      (sub.exec_args = [] ∨ ∃ a : List (List Char), sub.exec_args = a.map some ++ [none]) := by
  unfold make_subcommand at h
  split at h
  · cases h
  · split_ifs at h
    · split at h
      · cases h
      · split at h
        · cases h
        · next hm =>
          simp only [Option.some.injEq, Prod.mk.injEq] at h
          exact ⟨_, h.1.symm, make_exec_args_array_shape _ _ _ hm⟩
    · split at h
      · cases h
      · next hm =>
        simp only [Option.some.injEq, Prod.mk.injEq] at h
        exact ⟨_, h.1.symm, make_exec_args_array_shape _ _ _ hm⟩

/-- Every stage that the loop of `parse_commandline` adds has an argument
array that is empty or a sequence of strings followed by NULL. -/
theorem parse_commandline_loop_shape (num : Nat) (subs : List (Option (List Char))) :
    ∀ (i : Nat) (st : ParserState) (cmds : List Subcommand) (out : ParseOut),
      parse_commandline_loop num i subs st cmds = some out →
      ∀ sub ∈ out.list_commands, sub ∈ cmds ∨ sub.exec_args = [] ∨
        ∃ a : List (List Char), sub.exec_args = a.map some ++ [none] := by
  induction subs with
  | nil =>
    intro i st cmds out h sub hsub
    by_cases hi : i < num
    · rw [parse_commandline_loop_nil _ _ _ _ hi] at h
      cases h
    · rw [parse_commandline_loop_done _ _ _ _ _ hi, Option.some.injEq] at h
      rw [← h] at hsub
      exact Or.inl hsub
  | cons x rest ih =>
    intro i st cmds out h sub hsub
    by_cases hi : i < num
    · cases x with
      | none =>
        rw [parse_commandline_loop_unassigned _ _ _ _ _ hi] at h
        cases h
      | some s =>
        obtain ⟨_, hc⟩ := parse_commandline_loop_cases _ _ _ _ _ _ _ hi h
        rcases hc with ⟨_, rfl⟩ | ⟨st1, _, ⟨_, rfl⟩ | ⟨_, sub0, args, hm, hnext⟩⟩
        · exact Or.inl hsub
        · exact Or.inl hsub
        · obtain ⟨sub1, hc, hshape⟩ := make_subcommand_shape _ _ _ _ hm
          have hs : sub0 = sub1 := by simpa using hc
          rcases ih _ _ _ _ hnext sub hsub with h1 | h1
          · rcases List.mem_append.1 h1 with h2 | h2
            · exact Or.inl h2
            · rw [List.mem_singleton.1 h2, hs]; exact Or.inr hshape
          · exact Or.inr h1
    · rw [parse_commandline_loop_done _ _ _ _ _ hi, Option.some.injEq] at h
      rw [← h] at hsub
      exact Or.inl hsub

theorem handle_internal_exit (os : OsCalls) (entry : Subcommand) (rest : List Subcommand)
    (list_env : List Environment) (args : List (Option (List Char)))
    (hname : entry.exec_args = some "exit".toList :: args) :
    handle_internal os (entry :: rest) list_env = handle_exit os entry list_env := by
  simp [handle_internal, internal_cmds, handle_internal_loop, hname]

/-! ## Theorems: malformed lines -/

/-- C4, at the line of a double quote followed by 200 letters `a`: the one
segment holds a single double quote, so it ends inside the quoted span, but
the inner loop of the quote branch copies the letters to `temp` with `strncat`
and no test of the length. The buffer has 100 bytes: the hundredth letter
puts the NUL behind them, before the end of the segment is met, so the run
writes past the end of `temp` and `parse_commandline` has no result (100
letters are the shortest such line; with 99 letters it returns -1). At the
line `< | "a` the stage of the first segment is built before the quote is
met: its operator takes the terminator entry as the file name, no entry is
left, and `make_exec_args_array` stores `exec_args[-1]`. -/
theorem parse_commandline_quote_overruns_temp :
    (QUOTATIONMARK :: List.replicate 200 'a').count QUOTATIONMARK % 2 = 1 ∧
      parse_commandline [] (read_commandline (QUOTATIONMARK :: List.replicate 200 'a') 201) [] =
        none ∧
      temp_overrun false (ParserState.mk [] State.WHITESPACE [] 0 0 0)
        (QUOTATIONMARK :: List.replicate 100 'a') = true ∧
      parse_commandline [] (read_commandline (QUOTATIONMARK :: List.replicate 100 'a') 101) [] =
        none ∧
      parse_commandline [] (read_commandline (QUOTATIONMARK :: List.replicate 99 'a') 100) [] =
        some ⟨-1, [], []⟩ ∧
      parse_commandline [] (read_commandline "< | \"a".toList 6) [] = none := by
  decide!

/-- C2, at the line `|a < b`: `find_num_subcommands` counts two segments, the
empty one before the pipe and `a < b`, which holds a `<` and is not the first.
`strtok` skips the empty segment, so `a < b` lands in slot 0 of the array,
where the validator accepts one input redirect, and slot 1 is never assigned:
`parse_commandline` builds the stage of `a < b` and then reads the unassigned
slot instead of returning -1. -/
theorem parse_commandline_redirect_behind_leading_pipe :
    find_num_subcommands "|a < b".toList 6 = 2 ∧
      copy_subcommands "|a < b".toList 2 = [some "a < b".toList, none] ∧
      REDIR_IN ∈ outside_quotes false "a < b".toList ∧
      check_validity_of_cmdline_redirects 2 1 1 0 = 0 ∧
      parse_commandline [] (read_commandline "|a < b".toList 6) [] = none := by
  decide

/-- C3. When `parse_commandline` returns -1, `run_parser_executor_handler`
calls neither `handle_internal` nor `run_command`, whatever stages were built
before the error, and leaves the environment list as it was. -/
theorem run_parser_executor_handler_malformed
    (internal : List Subcommand → List Environment → Option (Int × List Environment))
    (list_commands : List Subcommand) (list_env : List Environment)
    (list_args : List Argument) (input : List Char) (p : ParseOut)
    (hparse : parse_commandline list_args
      (read_commandline (strip_newline input) input.length) list_commands = some p)
    (hret : p.ret = -1) :
    ∃ h, run_parser_executor_handler internal list_commands list_env list_args input = some h ∧
      h.events = [] ∧ h.list_env = list_env ∧ h.exited = false := by
  unfold run_parser_executor_handler
  simp only [hparse]
  have : ¬ p.ret = 0 := by rw [hret]; decide
  rw [if_neg this]
  exact ⟨_, rfl, rfl, rfl, rfl⟩

theorem run_parser_executor_handler_malformed_witness :
    ∃ h, run_parser_executor_handler (fun _ env => some (1, env)) []
        [⟨some "A".toList, "A=1".toList⟩] [] "a | b > c | d\n".toList = some h ∧
      h.events = [] ∧ h.list_env = [⟨some "A".toList, "A=1".toList⟩] ∧ h.exited = false :=
  run_parser_executor_handler_malformed (fun _ env => some (1, env)) []
    [⟨some "A".toList, "A=1".toList⟩] [] "a | b > c | d\n".toList
    ⟨-1, [], [⟨[some "a".toList, none], "stdin".toList, "stdout".toList, some Token.NORMAL⟩]⟩
    (by decide) (by decide)

/-! ## Theorems: splitting the line at pipes -/

/-- C6, at the line `a||b`. `find_num_subcommands` counts three segments, but
`copy_subcommands` assigns only the two slots `a` and `b`: the empty text
between the adjacent pipes is skipped by `strtok`, the third slot is never
assigned, and `parse_commandline` then reads it. -/
theorem copy_subcommands_adjacent_pipes :
    find_num_subcommands "a||b".toList 4 = 3 ∧
      copy_subcommands "a||b".toList 3 = [some "a".toList, some "b".toList, none] ∧
      parse_commandline [] (read_commandline "a||b".toList 4) [] = none := by
  decide

theorem quoted_pipe_first_segment (s : List Char) :
    ∀ q, PIPE ∈ s → PIPE ∉ outside_quotes q s →
      quote_open q (s.takeWhile fun x => x != PIPE) = true ∧ (q = false → s.head? ≠ some PIPE) := by
  induction s with
  | nil => intro q h; simp at h
  | cons c r ih =>
    intro q hmem hout
    by_cases hp : c = PIPE
    · subst hp
      cases q with
      | false => exfalso; apply hout; simp [outside_quotes, show PIPE ≠ QUOTATIONMARK by decide]
      | true => simp [quote_open]
    · have hmem2 : PIPE ∈ r := by
        rcases List.mem_cons.1 hmem with h | h
        · exact absurd h.symm hp
        · exact h
      have htw : (c :: r).takeWhile (fun x => x != PIPE) = c :: r.takeWhile (fun x => x != PIPE) := by
        simp [List.takeWhile_cons, hp]
      rw [htw, quote_open]
      refine ⟨?_, fun _ => by simpa using hp⟩
      by_cases hc : c = QUOTATIONMARK
      · subst hc
        cases q with
        | false =>
          simp only [if_true, Bool.not_false]
          exact (ih true hmem2 (by simpa [outside_quotes] using hout)).1
        | true =>
          simp only [if_true, Bool.not_true]
          exact (ih false hmem2 (by simpa [outside_quotes] using hout)).1
      · rw [if_neg hc]
        cases q with
        | false =>
          refine (ih false hmem2 ?_).1
          rw [outside_quotes_cons hc] at hout
          exact fun h => hout (List.mem_cons_of_mem _ h)
        | true =>
          exact (ih true hmem2 (by simpa [outside_quotes, hc] using hout)).1

/-- C7, at the line `echo "a|b"`: the line is split at the quoted pipe into
the two segments `echo "a` and `b"`, and `parse_commandline` returns -1 with
no stage built. -/
theorem parse_commandline_echo_quoted_pipe :
    read_commandline "echo \"a|b\"".toList 10 =
        ⟨2, [some "echo \"a".toList, some "b\"".toList]⟩ ∧
      parse_commandline [] (read_commandline "echo \"a|b\"".toList 10) [] =
        some ⟨-1, [], []⟩ := by
  decide

/-- C7, amended. A line (not starting with a newline) that holds a `|`, all of
its `|` inside double-quoted spans, is still split at every `|`: the segment
count is one more than the number of `|`, so at least 2, the first segment is
the text before the first `|`, and, when the scan of that segment stays inside
the 100 bytes of the word buffer `temp`, `parse_commandline` returns -1
without adding a stage, since the first segment ends inside the quoted
span. -/
theorem parse_commandline_quoted_pipe (list_args : List Argument)
    (list_commands : List Subcommand) (line : List Char) (len : Nat)
    (hnl : charAt line 0 ≠ NEWLINE) (hlen : line.length ≤ len)
    (hpipe : PIPE ∈ line) (hquoted : PIPE ∉ outside_quotes false line)
    (hfit : temp_overrun false (ParserState.mk [] State.WHITESPACE list_args 0 0 0)
      (line.takeWhile fun x => x != PIPE) = false) :
    (read_commandline line len).num = 1 + line.count PIPE ∧
      2 ≤ (read_commandline line len).num ∧
      (read_commandline line len).subcommand[0]? =
        some (some (line.takeWhile fun x => x != PIPE)) ∧
      parse_commandline list_args (read_commandline line len) list_commands =
        some ⟨-1, [], list_commands⟩ := by
  obtain ⟨hopen, hhead⟩ := quoted_pipe_first_segment line false hpipe hquoted
  have hnum : find_num_subcommands line len = 1 + line.count PIPE := by
    rw [find_num_subcommands_count line len, List.take_of_length_le hlen]
  have hpos : 0 < line.count PIPE := List.count_pos_iff.2 hpipe
  obtain ⟨n, hn⟩ : ∃ n, find_num_subcommands line len = n + 1 := ⟨line.count PIPE, by omega⟩
  have htok : (strtok PIPE line).1 = some (line.takeWhile fun x => x != PIPE) := by
    cases line with
    | nil => simp at hpipe
    | cons c r =>
      have hc : c ≠ PIPE := by simpa using hhead rfl
      simp [strtok, List.dropWhile_cons, hc]
  have hcopy : copy_subcommands line (n + 1) =
      some (line.takeWhile fun x => x != PIPE) ::
        copy_subcommands_loop n (strtok PIPE (strtok PIPE line).2).1
          (strtok PIPE (strtok PIPE line).2).2 := by
    unfold copy_subcommands
    rw [if_pos hnl, htok, copy_subcommands_loop]
  refine ⟨hnum, by simp only [read_commandline]; omega, ?_, ?_⟩
  · simp only [read_commandline, hn, hcopy, List.getElem?_cons_zero]
  · unfold parse_commandline
    simp only [read_commandline, hn, hcopy]
    rw [parse_commandline_loop_step _ _ _ _ _ _ (by omega) hfit]
    rw [(scan_subcommand_eq_none_iff false _ _ (fun _ => by simp)).2 hopen]

theorem parse_commandline_quoted_pipe_witness :
    (read_commandline "cat \"x|y\" z".toList 11).num = 1 + "cat \"x|y\" z".toList.count PIPE ∧
      2 ≤ (read_commandline "cat \"x|y\" z".toList 11).num ∧
      (read_commandline "cat \"x|y\" z".toList 11).subcommand[0]? =
        some (some ("cat \"x|y\" z".toList.takeWhile fun x => x != PIPE)) ∧
      parse_commandline [] (read_commandline "cat \"x|y\" z".toList 11) [] =
        some ⟨-1, [], []⟩ :=
  parse_commandline_quoted_pipe [] [] "cat \"x|y\" z".toList 11 (by decide) (by decide)
    (by decide) (by decide) (by decide)

/-! ## Theorems: the argument vector of a stage -/

/-- C8, at the line `a"b"c` (no pipe, no redirect): the whitespace-split of
the line is the single token `a"b"c`, but the stage built has the two
arguments `ab` and `c`, the quotation marks removed. At the empty line (what
is left of a lone newline) no slot of the array is assigned and
`parse_commandline` reads an unassigned pointer. -/
theorem parse_commandline_quoted_word :
    whitespace_split "a\"b\"c".toList = ["a\"b\"c".toList] ∧
      parse_commandline [] (read_commandline "a\"b\"c".toList 5) [] =
        some ⟨0, [], [⟨[some "ab".toList, some "c".toList, none], "stdin".toList,
          "stdout".toList, some Token.NORMAL⟩]⟩ ∧
      parse_commandline [] (read_commandline [] 1) [] = none := by
  decide

/-- The pieces of a split at spaces and tabs are shorter than 100 characters
when the words of the whitespace-split are. -/
theorem splitOnP_short (s : List Char) (h : ∀ w ∈ whitespace_split s, w.length < 100) :
    ∀ w ∈ s.splitOnP is_whitespace, w.length < 100 := by
  intro w hw
  cases w with
  | nil => simp
  | cons c r => exact h _ (by unfold whitespace_split; simp [List.mem_filter, hw])

/-- A single segment of ordinary characters, spaces and tabs whose words are
shorter than 100 characters: `parse_commandline` returns 0 with one stage,
whose arguments are the whitespace-split words. -/
theorem parse_commandline_plain_segment (line : List Char)
    (hchars : ∀ c ∈ line, c ≠ REDIR_IN ∧ c ≠ REDIR_OUT ∧ c ≠ QUOTATIONMARK)
    (hwords : ∀ w ∈ whitespace_split line, w.length < 100) :
    ∃ sub, parse_commandline [] ⟨1, [some line]⟩ [] = some ⟨0, [], [sub]⟩ ∧
      sub.exec_args = (whitespace_split line).map some ++ [none] ∧
      sub.input = "stdin".toList ∧ sub.output = "stdout".toList := by
  have hplain : ∀ c ∈ line, is_character c = true ∨ is_whitespace c = true := by
    intro c hc
    obtain ⟨h2, h3, h4⟩ := hchars c hc
    by_cases hw : is_whitespace c = true
    · exact Or.inr hw
    · left
      simp [is_character, is_redir, is_quote, h2, h3, h4, hw]
  obtain ⟨st1, hscan, hargs, hin, hout⟩ := scan_subcommand_plain line
    (ParserState.mk [] State.WHITESPACE [] 0 0 0) hplain (fun _ => rfl)
    (fun _ => Or.inl ⟨rfl, rfl⟩)
  have hfit : temp_overrun false (ParserState.mk [] State.WHITESPACE [] 0 0 0) line = false := by
    apply temp_overrun_plain line _ hplain (fun _ => rfl)
    simp only [List.nil_append, modifyHead_self]
    exact splitOnP_short line hwords
  simp only [List.nil_append, modifyHead_self] at hargs
  replace hargs : st1.list_args =
      (whitespace_split line).map fun w => Argument.mk w Token.NORMAL := hargs
  simp only at hin hout
  unfold parse_commandline
  simp only
  rw [parse_commandline_loop_step _ _ _ _ _ _ (by omega) hfit]
  simp only [hscan, hin, hout]
  rw [if_neg (by decide), hargs]
  obtain ⟨sub, rest, hm, h1, h2, h3⟩ := make_subcommand_words [] (whitespace_split line)
  rw [hm]
  simp only [List.nil_append]
  rw [parse_commandline_loop_done _ _ _ _ _ (by omega)]
  exact ⟨sub, rfl, h1, h2, h3⟩

/-- C8, amended. For every non-empty line, not starting with a newline, that
holds no pipe, no redirect character and no double quote, and whose words are
shorter than 100 characters (the word buffer `temp` has 100 bytes),
`parse_commandline` returns 0 and builds exactly one stage, whose argument
vector before the NULL terminator is the whitespace-split of the line, with
the inherited input and output. -/
theorem parse_commandline_plain_line (line : List Char) (len : Nat) (hne : line ≠ [])
    (hnl : charAt line 0 ≠ NEWLINE)
    (hchars : ∀ c ∈ line, c ≠ PIPE ∧ c ≠ REDIR_IN ∧ c ≠ REDIR_OUT ∧ c ≠ QUOTATIONMARK)
    (hwords : ∀ w ∈ whitespace_split line, w.length < 100) :
    ∃ sub, parse_commandline [] (read_commandline line len) [] = some ⟨0, [], [sub]⟩ ∧
      sub.exec_args = (whitespace_split line).map some ++ [none] ∧
      sub.input = "stdin".toList ∧ sub.output = "stdout".toList := by
  have hpipe : PIPE ∉ line := fun h => (hchars _ h).1 rfl
  have hread : read_commandline line len = ⟨1, [some line]⟩ := by
    simp only [read_commandline, find_num_subcommands_no_pipe line len hpipe,
      copy_subcommands_no_pipe line hne hnl hpipe]
  rw [hread]
  exact parse_commandline_plain_segment line (fun c hc => (hchars c hc).2) hwords

theorem parse_commandline_plain_line_witness :
    ∃ sub, parse_commandline [] (read_commandline "ls  -l\t/tmp ".toList 13) [] =
        some ⟨0, [], [sub]⟩ ∧
      sub.exec_args = (whitespace_split "ls  -l\t/tmp ".toList).map some ++ [none] ∧
      sub.input = "stdin".toList ∧ sub.output = "stdout".toList :=
  parse_commandline_plain_line "ls  -l\t/tmp ".toList 13 (by decide) (by decide) (by decide)
    (by decide)

/-- C10, at the line `a 1 2 ... 19 > f`, whose redirect operator follows
twenty words: the loop of `get_input_output` stops after twenty entries, so
the stage is built with the operator `>` and its operand `f` in the argument
vector and with the default output `stdout`, although the line is accepted. -/
theorem parse_commandline_redirect_after_twenty :
    parse_commandline []
        (read_commandline "a 1 2 3 4 5 6 7 8 9 10 11 12 13 14 15 16 17 18 19 > f".toList 53) [] =
      some ⟨0, [], [⟨["a", "1", "2", "3", "4", "5", "6", "7", "8", "9", "10", "11", "12", "13",
          "14", "15", "16", "17", "18", "19", ">", "f"].map (fun w => some w.toList) ++ [none],
        "stdin".toList, "stdout".toList, some Token.NORMAL⟩]⟩ := by
  decide

/-! ## Theorems: the operand of a redirect operator -/

/-- What `make_subcommand` returns for an external stage: the list that
`get_input_output` leaves, which is not empty, and the stage it filled in,
with the argument array made from that list. -/
theorem make_subcommand_external (list_commands cmds1 : List Subcommand)
    (l args : List Argument) (hext : check_internal_command l = some 1)
    (h : make_subcommand list_commands l = some (cmds1, args)) :
    ∃ sub0,
      get_input_output_loop 0 []
          { fresh_subcommand with input := "stdin".toList, output := "stdout".toList,
                                  type := some Token.NORMAL } l = some (args, sub0) ∧
        args ≠ [] ∧
        cmds1 = list_commands ++
          [{ sub0 with exec_args := (args.dropLast.map fun e => some e.contents) ++ [none] }] := by
  unfold make_subcommand at h
  rw [hext] at h
  simp only at h
  rw [if_pos (by decide), get_input_output] at h
  split at h
  · cases h
  · next a sub0 hg =>
    split at h
    · cases h
    · next sub1 hm =>
      simp only [Option.some.injEq, Prod.mk.injEq] at h
      obtain ⟨hne, hs⟩ := make_exec_args_array_some _ _ _ hm
      obtain ⟨h1, h2⟩ := h
      subst h2
      exact ⟨sub0, hg, hne, by rw [← h1, hs]⟩

/-- An external stage that begins with a plain word and ends with the
terminator entry is built. -/
theorem make_subcommand_isSome (list_commands : List Subcommand) (first : Argument)
    (rest : List Argument) (hfirst : first.token = Token.NORMAL)
    (hext : check_internal_command (first :: rest) = some 1)
    (hterm : (first :: rest).getLast? = some (Argument.mk [] Token.NORMAL)) :
    ∃ sub args, make_subcommand list_commands (first :: rest) =
      some (list_commands ++ [sub], args) := by
  have hsome := get_input_output_loop_isSome 0 []
    { fresh_subcommand with input := "stdin".toList, output := "stdout".toList,
                            type := some Token.NORMAL }
    (first :: rest) (by
      intro hne
      rw [List.getLast?_eq_getLast _ hne] at hterm
      rw [Option.some.inj hterm])
  obtain ⟨⟨args, sub⟩, hres⟩ := Option.isSome_iff_exists.1 hsome
  have hres2 := hres
  rw [get_input_output_loop_keep _ _ _ _ _ (by decide) (by rw [hfirst]; decide)] at hres2
  obtain ⟨more, hmore⟩ := get_input_output_loop_kept _ _ _ _ _ _ hres2
  have hne : args ≠ [] := by rw [hmore]; simp
  unfold make_subcommand
  rw [hext]
  simp only
  rw [if_pos (by decide), get_input_output, hres]
  simp only
  rw [make_exec_args_array_eq_some _ _ hne]
  exact ⟨_, _, rfl⟩

/-- The operand that `get_input_output` stores for a redirect operator it
reaches within twenty iterations is the text of the entry directly behind the
operator, when no operator of the same direction follows; and the `type` of
an external stage has been written. -/
theorem make_subcommand_resolved_operand (list_commands : List Subcommand)
    (pre post : List Argument) (op file : Argument) (k : Nat)
    (hext : check_internal_command (pre ++ op :: file :: post) = some 1)
    (hsteps : resolve_steps pre = some k) (hk : k < 20)
    (sub : Subcommand) (args : List Argument)
    (hmake : make_subcommand list_commands (pre ++ op :: file :: post) =
      some (list_commands ++ [sub], args)) :
    (op.token = Token.REDIRECT_INPUT → (∀ e ∈ post, e.token ≠ Token.REDIRECT_INPUT) →
        sub.input = file.contents) ∧
      (op.token = Token.REDIRECT_OUTPUT_TRUNCATE ∨ op.token = Token.REDIRECT_OUTPUT_APPEND →
        (∀ e ∈ post, e.token ≠ Token.REDIRECT_OUTPUT_TRUNCATE ∧
          e.token ≠ Token.REDIRECT_OUTPUT_APPEND) →
        sub.output = file.contents) ∧
      sub.type ≠ none := by
  obtain ⟨sub0, hres, _, hc⟩ := make_subcommand_external _ _ _ _ hext hmake
  have hs : sub =
      { sub0 with exec_args := (args.dropLast.map fun e => some e.contents) ++ [none] } := by
    simpa using hc
  obtain ⟨kept1, sub1, hpass⟩ := get_input_output_loop_pass pre k 0 []
    { fresh_subcommand with input := "stdin".toList, output := "stdout".toList,
                            type := some Token.NORMAL } hsteps (by omega)
  refine ⟨?_, ?_, ?_⟩
  · intro hin hpost
    have hres2 := hres
    rw [hpass, get_input_output_loop_input _ _ _ _ _ _ (by omega) hin] at hres2
    have := (get_input_output_loop_fields _ _ _ _ args sub0 hres2).1 hpost
    rw [hs]
    exact this
  · intro hout hpost
    have hres2 := hres
    rw [hpass, get_input_output_loop_output _ _ _ _ _ _ (by omega) hout] at hres2
    have := (get_input_output_loop_fields _ _ _ _ args sub0 hres2).2 hpost
    rw [hs]
    exact this
  · have := get_input_output_loop_type _ _ _ _ _ _ hres (by simp)
    rw [hs]
    exact this

/-! ## Theorems: the fields of a stage -/

theorem check_internal_command_cons (first : Argument) (rest : List Argument) :
    check_internal_command (first :: rest) =
      some (if first.contents ∈ internal_cmd_names then 0 else 1) := rfl

/-- C13. A stage whose first token is not a built-in name and whose tokens
are all plain words is built with input `stdin`, output `stdout` and type
`NORMAL`, and its argument vector is all of its tokens in order, followed by
NULL. -/
theorem make_subcommand_no_redirect (list_commands : List Subcommand) (toks : List Argument)
    (hplain : ∀ e ∈ toks, e.token = Token.NORMAL)
    (hext : check_internal_command (toks ++ [Argument.mk [] Token.NORMAL]) = some 1) :
    make_subcommand list_commands (toks ++ [Argument.mk [] Token.NORMAL]) =
      some (list_commands ++
        [{ exec_args := (toks.map fun e => some e.contents) ++ [none],
           input := "stdin".toList, output := "stdout".toList, type := some Token.NORMAL }],
        toks ++ [Argument.mk [] Token.NORMAL]) := by
  have hnormal : ∀ e ∈ toks ++ [Argument.mk [] Token.NORMAL], e.token = Token.NORMAL := by
    intro e he
    rcases List.mem_append.1 he with h | h
    · exact hplain e h
    · rw [List.mem_singleton.1 h]
  unfold make_subcommand
  rw [hext]
  simp only
  rw [if_pos (by decide), get_input_output, get_input_output_loop_plain _ _ _ _ hnormal]
  simp [make_exec_args_array, getListLength, fresh_subcommand]

theorem make_subcommand_no_redirect_witness :
    make_subcommand [] ([⟨"ls".toList, Token.NORMAL⟩, ⟨"-l".toList, Token.NORMAL⟩] ++
        [Argument.mk [] Token.NORMAL]) =
      some ([] ++
        [{ exec_args := ([⟨"ls".toList, Token.NORMAL⟩, ⟨"-l".toList, Token.NORMAL⟩].map
              fun e : Argument => some e.contents) ++ [none],
           input := "stdin".toList, output := "stdout".toList, type := some Token.NORMAL }],
        [⟨"ls".toList, Token.NORMAL⟩, ⟨"-l".toList, Token.NORMAL⟩] ++
          [Argument.mk [] Token.NORMAL]) :=
  make_subcommand_no_redirect [] [⟨"ls".toList, Token.NORMAL⟩, ⟨"-l".toList, Token.NORMAL⟩]
    (by decide) (by decide)

/-- C14. For a stage whose first token is one of `setenv`, `getenv`,
`unsetenv`, `cd`, `pwd`, `exit`, `make_subcommand` skips the redirect
resolution: input is `stdin`, output is `stdout`, and the argument vector is
the whole token sequence in order, redirect operators and file names
included, followed by NULL. -/
theorem make_subcommand_internal (list_commands : List Subcommand) (first : Argument)
    (toks : List Argument) (hint : first.contents ∈ internal_cmd_names) :
    ∃ sub, make_subcommand list_commands (first :: toks ++ [Argument.mk [] Token.NORMAL]) =
        some (list_commands ++ [sub], first :: toks ++ [Argument.mk [] Token.NORMAL]) ∧
      sub.exec_args = ((first :: toks).map fun e => some e.contents) ++ [none] ∧
      sub.input = "stdin".toList ∧ sub.output = "stdout".toList := by
  unfold make_subcommand
  rw [List.cons_append, check_internal_command_cons, if_pos hint]
  simp only
  rw [if_neg (by decide)]
  have := make_exec_args_array_terminated (first :: toks)
    { fresh_subcommand with input := "stdin".toList, output := "stdout".toList }
  rw [List.cons_append] at this
  rw [this]
  exact ⟨_, rfl, rfl, rfl, rfl⟩

theorem make_subcommand_internal_witness :
    ∃ sub, make_subcommand [] (⟨"cd".toList, Token.NORMAL⟩ ::
          [⟨">".toList, Token.REDIRECT_OUTPUT_TRUNCATE⟩, ⟨"f".toList, Token.NORMAL⟩] ++
          [Argument.mk [] Token.NORMAL]) =
        some ([] ++ [sub], ⟨"cd".toList, Token.NORMAL⟩ ::
          [⟨">".toList, Token.REDIRECT_OUTPUT_TRUNCATE⟩, ⟨"f".toList, Token.NORMAL⟩] ++
          [Argument.mk [] Token.NORMAL]) ∧
      sub.exec_args = ((⟨"cd".toList, Token.NORMAL⟩ ::
          [⟨">".toList, Token.REDIRECT_OUTPUT_TRUNCATE⟩, ⟨"f".toList, Token.NORMAL⟩]).map
            fun e : Argument => some e.contents) ++ [none] ∧
      sub.input = "stdin".toList ∧ sub.output = "stdout".toList :=
  make_subcommand_internal [] ⟨"cd".toList, Token.NORMAL⟩
    [⟨">".toList, Token.REDIRECT_OUTPUT_TRUNCATE⟩, ⟨"f".toList, Token.NORMAL⟩] (by decide)

/-- C11, at the line `cmd > < f`, which `parse_commandline` accepts: the
entry behind the operator `>` is the operator `<`, and `DELETE_FILE` takes it
as the file name without a look at its token. So the output of the stage is
the text `<`, the operator `<` is never acted on and the input stays `stdin`,
and the plain word `f`, the next plain word behind both operators, stays in
the argument vector, which by the comment on `get_input_output` holds no file
name and no redirect. -/
theorem parse_commandline_operator_as_operand :
    parse_commandline [] (read_commandline "cmd > < f".toList 9) [] =
      some ⟨0, [], [⟨[some "cmd".toList, some "f".toList, none], "stdin".toList, "<".toList,
        some Token.REDIRECT_OUTPUT_TRUNCATE⟩]⟩ := by
  decide

/-- C12, at the line `cat > out < in`: `delete_token` writes the token of
every operator it meets into `type`, so the input operator, met last, leaves
`type = REDIRECT_INPUT`; `handle_input_output` then finds neither output mode
and opens no output file (`fd` stays 0). In the order `cat < in > out` the
type is `REDIRECT_OUTPUT_TRUNCATE` and the file is opened with `O_TRUNC`.
(Both calls of `handle_input_output` with every file found by `access` and
opened by `fopen`.) -/
theorem parse_commandline_output_before_input :
    parse_commandline [] (read_commandline "cat > out < in".toList 14) [] =
        some ⟨0, [], [⟨[some "cat".toList, none], "in".toList, "out".toList,
          some Token.REDIRECT_INPUT⟩]⟩ ∧
      handle_input_output (fun _ => 0) (fun _ => true)
          ⟨[some "cat".toList, none], "in".toList, "out".toList, some Token.REDIRECT_INPUT⟩ =
        some (0, StdoutAction.dup_fd_zero, StdinAction.open_read "in".toList) ∧
      parse_commandline [] (read_commandline "cat < in > out".toList 14) [] =
        some ⟨0, [], [⟨[some "cat".toList, none], "in".toList, "out".toList,
          some Token.REDIRECT_OUTPUT_TRUNCATE⟩]⟩ ∧
      handle_input_output (fun _ => 0) (fun _ => true)
          ⟨[some "cat".toList, none], "in".toList, "out".toList,
            some Token.REDIRECT_OUTPUT_TRUNCATE⟩ =
        some (0, StdoutAction.open_truncate "out".toList, StdinAction.open_read "in".toList) := by
  decide

/-- C15, at the lines `cat <` and `<`, which the validator of
`parse_commandline` accepts: the operator is the last token, so `DELETE_FILE`
takes the terminator entry as its operand and deletes it. For `cat <` the
list that remains is the single word `cat`, which `make_exec_args_array`
treats as the terminator: `exec_args` has one slot, NULL, and the word is
lost. For `<` the list that remains is empty: `exec_args` has no slot at all,
the NULL is stored in front of it, at `exec_args[-1]`, and the run has no
result. -/
theorem parse_commandline_terminator_consumed :
    parse_commandline [] (read_commandline "cat <".toList 5) [] =
        some ⟨0, [], [⟨[none], [], "stdout".toList, some Token.REDIRECT_INPUT⟩]⟩ ∧
      get_input_output [⟨"<".toList, Token.REDIRECT_INPUT⟩, ⟨[], Token.NORMAL⟩]
          fresh_subcommand =
        some ([], ⟨[], [], "stdout".toList, some Token.REDIRECT_INPUT⟩) ∧
      make_exec_args_array [] ⟨[], [], "stdout".toList, some Token.REDIRECT_INPUT⟩ = none ∧
      parse_commandline [] (read_commandline "<".toList 1) [] = none := by
  decide

/-! ## Theorems: built-in commands and the executor -/

/-- C16. For a successfully parsed line whose first stage has a command name,
`handle_internal` returns 1 exactly when the name is not in the table of
built-ins, no handler of the table returns 1, and so
`run_parser_executor_handler` calls `run_command` exactly when the name is
not a built-in. -/
theorem run_command_iff_external (os : OsCalls) (list_commands : List Subcommand)
    (list_env : List Environment) (list_args : List Argument) (input : List Char)
    (p : ParseOut) (entry : Subcommand) (rest : List Subcommand) (name : List Char)
    (args : List (Option (List Char)))
    (hparse : parse_commandline list_args
      (read_commandline (strip_newline input) input.length) list_commands = some p)
    (hret : p.ret = 0) (hfirst : p.list_commands = entry :: rest)
    (hname : entry.exec_args = some name :: args) :
    ((∃ list_env1, handle_internal os p.list_commands list_env = some (1, list_env1)) ↔
        name ∉ internal_cmds.map Prod.fst) ∧
      (∀ row ∈ internal_cmds, ∀ sub env r, row.2 os sub env = some r → r.1 ≠ 1) ∧
      ((∃ h, run_parser_executor_handler (handle_internal os) list_commands list_env
            list_args input = some h ∧
          ∃ n c e, Event.run_command n c e ∈ h.events) ↔
        name ∉ internal_cmds.map Prod.fst) := by
  obtain ⟨hext, hint⟩ := handle_internal_loop_dispatch os entry list_env name args hname
    internal_cmds
  have hcode : ∀ code list_env1, handle_internal os p.list_commands list_env =
      some (code, list_env1) → (code = 1 ↔ name ∉ internal_cmds.map Prod.fst) := by
    intro code list_env1 h
    rw [hfirst] at h
    simp only [handle_internal] at h
    by_cases hn : name ∈ internal_cmds.map Prod.fst
    · obtain ⟨row, hrow, _, hres⟩ := hint hn
      rw [hres] at h
      have := (internal_cmds_codes row hrow os entry list_env _ h).1
      exact ⟨fun h1 => absurd h1 this, fun h1 => absurd hn h1⟩
    · rw [hext hn] at h
      simp only [Option.some.injEq, Prod.mk.injEq] at h
      exact ⟨fun _ => hn, fun _ => h.1.symm⟩
  refine ⟨?_, fun row hrow sub env r h => (internal_cmds_codes row hrow os sub env r h).1, ?_⟩
  · constructor
    · rintro ⟨list_env1, h⟩
      exact (hcode 1 list_env1 h).1 rfl
    · intro hn
      refine ⟨list_env, ?_⟩
      rw [hfirst]
      exact hext hn
  · unfold run_parser_executor_handler
    simp only [hparse, hret, if_true]
    constructor
    · rintro ⟨h, hh, n, c, e, hev⟩
      cases hi : handle_internal os p.list_commands list_env with
      | none => rw [hi] at hh; cases hh
      | some r =>
        obtain ⟨code, list_env1⟩ := r
        rw [hi] at hh
        simp only at hh
        apply (hcode code list_env1 hi).1
        by_contra hne
        rw [if_neg hne] at hh
        split_ifs at hh <;>
          (simp only [Option.some.injEq] at hh; rw [← hh] at hev; simp at hev)
    · intro hn
      have hi : handle_internal os p.list_commands list_env = some (1, list_env) := by
        rw [hfirst]
        exact hext hn
      rw [hi]
      simp only [if_true]
      exact ⟨_, rfl, _, _, _, List.mem_cons_of_mem _ (List.mem_singleton.2 rfl)⟩

theorem run_command_iff_external_witness :
    ((∃ list_env1, handle_internal ⟨none, fun _ => 0⟩
          (ParseOut.mk 0 [] [⟨[some "ls".toList, none], "stdin".toList, "stdout".toList,
            some Token.NORMAL⟩]).list_commands [] = some (1, list_env1)) ↔
        "ls".toList ∉ internal_cmds.map Prod.fst) ∧
      (∀ row ∈ internal_cmds, ∀ sub env r,
        row.2 (⟨none, fun _ => 0⟩ : OsCalls) sub env = some r → r.1 ≠ 1) ∧
      ((∃ h, run_parser_executor_handler (handle_internal ⟨none, fun _ => 0⟩) [] []
            [] "ls\n".toList = some h ∧
          ∃ n c e, Event.run_command n c e ∈ h.events) ↔
        "ls".toList ∉ internal_cmds.map Prod.fst) :=
  run_command_iff_external ⟨none, fun _ => 0⟩ [] [] [] "ls\n".toList
    (ParseOut.mk 0 [] [⟨[some "ls".toList, none], "stdin".toList, "stdout".toList,
      some Token.NORMAL⟩])
    ⟨[some "ls".toList, none], "stdin".toList, "stdout".toList, some Token.NORMAL⟩ []
    "ls".toList [none] (by decide) (by decide) rfl rfl

/-- C18. For a successfully parsed line, `run_parser_executor_handler` ends in
`exit(0)`, with the command list and the environment list cleared, exactly
when the argument vector of the first stage is `exit` alone;
`exit` with a further argument makes `handle_internal` return -1 and the
interpreter go on with the same environment list; and the handler of no other
built-in returns 6. -/
theorem exit_iff_exit_alone (os : OsCalls) (list_env : List Environment)
    (list_args : List Argument) (input : List Char) (p : ParseOut)
    (hparse : parse_commandline list_args
      (read_commandline (strip_newline input) input.length) [] = some p)
    (hret : p.ret = 0) :
    ((∃ h, run_parser_executor_handler (handle_internal os) [] list_env list_args input =
            some h ∧ h.exited = true ∧ h.list_commands = [] ∧ h.list_env = []) ↔
        ∃ entry rest, p.list_commands = entry :: rest ∧
          entry.exec_args = [some "exit".toList, none]) ∧
      (∀ entry rest a args, p.list_commands = entry :: rest →
        entry.exec_args = some "exit".toList :: some a :: args →
        handle_internal os p.list_commands list_env = some (-1, list_env) ∧
        ∃ h, run_parser_executor_handler (handle_internal os) [] list_env list_args input =
            some h ∧ h.exited = false ∧ h.list_env = list_env) ∧
      (∀ row ∈ internal_cmds, row.1 ≠ "exit".toList →
        ∀ sub env r, row.2 os sub env = some r → r.1 ≠ 6) := by
  have hshape : ∀ sub ∈ p.list_commands, sub.exec_args = [] ∨
      ∃ a : List (List Char), sub.exec_args = a.map some ++ [none] := by
    intro sub hsub
    rcases parse_commandline_loop_shape _ _ _ _ _ _ hparse sub hsub with h | h
    · simp at h
    · exact h
  refine ⟨?_, ?_, fun row hrow hne sub env r h h6 =>
    hne ((internal_cmds_codes row hrow os sub env r h).2 h6)⟩
  · unfold run_parser_executor_handler
    simp only [hparse, hret, if_true]
    constructor
    · rintro ⟨h, hh, hex, _, _⟩
      cases hi : handle_internal os p.list_commands list_env with
      | none => rw [hi] at hh; cases hh
      | some r =>
        obtain ⟨code, list_env1⟩ := r
        rw [hi] at hh
        simp only at hh
        have h6 : code = 6 := by
          by_contra hne
          split_ifs at hh <;>
            (simp only [Option.some.injEq] at hh; rw [← hh] at hex; simp at hex)
        subst h6
        cases hc : p.list_commands with
        | nil => rw [hc] at hi; simp [handle_internal] at hi
        | cons entry rest =>
          refine ⟨entry, rest, rfl, ?_⟩
          rw [hc] at hi
          rcases hshape entry (by rw [hc]; simp) with hs | ⟨a, hs⟩
          · simp [handle_internal, handle_internal_loop, internal_cmds, hs] at hi
          · cases a with
            | nil => simp [handle_internal, handle_internal_loop, internal_cmds, hs] at hi
            | cons name a2 =>
              have hname : entry.exec_args = some name :: (a2.map some ++ [none]) := by
                rw [hs]; rfl
              obtain ⟨hext, hint⟩ := handle_internal_loop_dispatch os entry list_env name _
                hname internal_cmds
              simp only [handle_internal] at hi
              by_cases hn : name ∈ internal_cmds.map Prod.fst
              · obtain ⟨row, hrow, hrn, hres⟩ := hint hn
                rw [hres] at hi
                have hex2 := (internal_cmds_codes row hrow os entry list_env _ hi).2 rfl
                rw [hrn] at hex2
                subst hex2
                have hi2 := handle_internal_exit os entry rest list_env _ hname
                simp only [handle_internal] at hi2
                rw [hres, hi, handle_exit, hs,
                  get_num_args_terminated ("exit".toList :: a2) []] at hi2
                simp only [List.length_cons] at hi2
                split_ifs at hi2 with hlen
                · simp at hi2
                · have : a2 = [] := by
                    cases a2 with
                    | nil => rfl
                    | cons _ _ => simp at hlen
                  rw [hs, this]
                  rfl
              · rw [hext hn] at hi
                simp at hi
    · rintro ⟨entry, rest, hc, hex⟩
      have hi : handle_internal os p.list_commands list_env = some (6, list_env) := by
        rw [hc, handle_internal_exit os entry rest list_env [none] hex, handle_exit, hex]
        rfl
      rw [hi]
      exact ⟨_, rfl, rfl, rfl, rfl⟩
  · intro entry rest a args hc hex
    have hentry : entry ∈ p.list_commands := by rw [hc]; simp
    have hi : handle_internal os p.list_commands list_env = some (-1, list_env) := by
      rw [hc, handle_internal_exit os entry rest list_env _ hex, handle_exit]
      rcases hshape entry hentry with hs | ⟨a2, hs⟩
      · rw [hs] at hex; cases hex
      · rw [hs, get_num_args_terminated a2 []]
        simp only
        have hlen : a2.length ≠ 1 := by
          intro h1
          match a2, h1 with
          | [x], _ => simp [hs] at hex
        rw [if_pos hlen]
    refine ⟨hi, ?_⟩
    unfold run_parser_executor_handler
    simp only [hparse, hret, if_true, hi]
    exact ⟨_, rfl, rfl, rfl⟩

theorem exit_iff_exit_alone_witness :
    ((∃ h, run_parser_executor_handler (handle_internal ⟨none, fun _ => 0⟩) [] [] []
            "exit\n".toList = some h ∧ h.exited = true ∧ h.list_commands = [] ∧
          h.list_env = []) ↔
        ∃ entry rest,
          (ParseOut.mk 0 [] [⟨[some "exit".toList, none], "stdin".toList, "stdout".toList,
            none⟩]).list_commands = entry :: rest ∧
          entry.exec_args = [some "exit".toList, none]) ∧
      (∀ entry rest a args,
        (ParseOut.mk 0 [] [⟨[some "exit".toList, none], "stdin".toList, "stdout".toList,
          none⟩]).list_commands = entry :: rest →
        entry.exec_args = some "exit".toList :: some a :: args →
        handle_internal ⟨none, fun _ => 0⟩
            (ParseOut.mk 0 [] [⟨[some "exit".toList, none], "stdin".toList, "stdout".toList,
              none⟩]).list_commands [] = some (-1, []) ∧
        ∃ h, run_parser_executor_handler (handle_internal ⟨none, fun _ => 0⟩) [] [] []
            "exit\n".toList = some h ∧ h.exited = false ∧ h.list_env = []) ∧
      (∀ row ∈ internal_cmds, row.1 ≠ "exit".toList →
        ∀ sub env r, row.2 (⟨none, fun _ => 0⟩ : OsCalls) sub env = some r → r.1 ≠ 6) :=
  exit_iff_exit_alone ⟨none, fun _ => 0⟩ [] [] "exit\n".toList
    (ParseOut.mk 0 [] [⟨[some "exit".toList, none], "stdin".toList, "stdout".toList, none⟩])
    (by decide) (by decide)

/-- C19. A built-in called with an illegal number of arguments (`setenv` with
other than 3, `getenv` with more than 2, `unsetenv` with other than 2, `cd`
with more than 2, `pwd` with other than 1, `exit` with other than 1) returns
-1 and leaves the environment list as it was. -/
theorem handlers_illegal_argument_count (os : OsCalls) (sub : Subcommand)
    (list_env : List Environment) (num_args : Nat)
    (hnum : get_num_args sub.exec_args = some num_args) :
    (num_args ≠ 3 → handle_setenv os sub list_env = some (-1, list_env)) ∧
      (2 < num_args → handle_getenv os sub list_env = some (-1, list_env)) ∧
      (num_args ≠ 2 → handle_unsetenv os sub list_env = some (-1, list_env)) ∧
      (2 < num_args → handle_cd os sub list_env = some (-1, list_env)) ∧
      (num_args ≠ 1 → handle_pwd os sub list_env = some (-1, list_env)) ∧
      (num_args ≠ 1 → handle_exit os sub list_env = some (-1, list_env)) := by
  refine ⟨fun h => ?_, fun h => ?_, fun h => ?_, fun h => ?_, fun h => ?_, fun h => ?_⟩
  · simp only [handle_setenv, hnum]
    rw [if_pos h]
  · simp only [handle_getenv, hnum]
    rw [if_neg (by omega), if_neg (by omega)]
  · simp only [handle_unsetenv, hnum]
    rw [if_pos h]
  · simp only [handle_cd, hnum]
    rw [if_neg (by omega), if_neg (by omega)]
  · simp only [handle_pwd, hnum]
    rw [if_pos h]
  · simp only [handle_exit, hnum]
    rw [if_pos h]

theorem handlers_illegal_argument_count_witness :
    ((4 : Nat) ≠ 3 → handle_setenv ⟨none, fun _ => 0⟩
          ⟨[some "x".toList, some "a".toList, some "b".toList, some "c".toList, none],
            "stdin".toList, "stdout".toList, none⟩ [⟨some "A".toList, "A=1".toList⟩] =
        some (-1, [⟨some "A".toList, "A=1".toList⟩])) ∧
      (2 < (4 : Nat) → handle_getenv ⟨none, fun _ => 0⟩
          ⟨[some "x".toList, some "a".toList, some "b".toList, some "c".toList, none],
            "stdin".toList, "stdout".toList, none⟩ [⟨some "A".toList, "A=1".toList⟩] =
        some (-1, [⟨some "A".toList, "A=1".toList⟩])) ∧
      ((4 : Nat) ≠ 2 → handle_unsetenv ⟨none, fun _ => 0⟩
          ⟨[some "x".toList, some "a".toList, some "b".toList, some "c".toList, none],
            "stdin".toList, "stdout".toList, none⟩ [⟨some "A".toList, "A=1".toList⟩] =
        some (-1, [⟨some "A".toList, "A=1".toList⟩])) ∧
      (2 < (4 : Nat) → handle_cd ⟨none, fun _ => 0⟩
          ⟨[some "x".toList, some "a".toList, some "b".toList, some "c".toList, none],
            "stdin".toList, "stdout".toList, none⟩ [⟨some "A".toList, "A=1".toList⟩] =
        some (-1, [⟨some "A".toList, "A=1".toList⟩])) ∧
      ((4 : Nat) ≠ 1 → handle_pwd ⟨none, fun _ => 0⟩
          ⟨[some "x".toList, some "a".toList, some "b".toList, some "c".toList, none],
            "stdin".toList, "stdout".toList, none⟩ [⟨some "A".toList, "A=1".toList⟩] =
        some (-1, [⟨some "A".toList, "A=1".toList⟩])) ∧
      ((4 : Nat) ≠ 1 → handle_exit ⟨none, fun _ => 0⟩
          ⟨[some "x".toList, some "a".toList, some "b".toList, some "c".toList, none],
            "stdin".toList, "stdout".toList, none⟩ [⟨some "A".toList, "A=1".toList⟩] =
        some (-1, [⟨some "A".toList, "A=1".toList⟩])) :=
  handlers_illegal_argument_count ⟨none, fun _ => 0⟩
    ⟨[some "x".toList, some "a".toList, some "b".toList, some "c".toList, none],
      "stdin".toList, "stdout".toList, none⟩ [⟨some "A".toList, "A=1".toList⟩] 4 (by decide)

/-- C20, at `cd /nonexistent` with a failing `chdir` and at `unsetenv B` with
no entry `B` in the list: both handlers return 0. `handle_cd` hands the
status of `chdir` to `check_status`, which only prints, and returns 0;
`handle_unsetenv` overwrites the status of `unset_env` and returns 0. Only
`getenv B` returns -1. -/
theorem handlers_invalid_operand :
    handle_cd ⟨none, fun _ => -1⟩
        ⟨[some "cd".toList, some "/nonexistent".toList, none], "stdin".toList,
          "stdout".toList, none⟩ [⟨some "A".toList, "A=1".toList⟩] =
        some (0, [⟨some "A".toList, "A=1".toList⟩]) ∧
      handle_unsetenv ⟨none, fun _ => -1⟩
        ⟨[some "unsetenv".toList, some "B".toList, none], "stdin".toList,
          "stdout".toList, none⟩ [⟨some "A".toList, "A=1".toList⟩] =
        some (0, [⟨some "A".toList, "A=1".toList⟩]) ∧
      handle_getenv ⟨none, fun _ => -1⟩
        ⟨[some "getenv".toList, some "B".toList, none], "stdin".toList,
          "stdout".toList, none⟩ [⟨some "A".toList, "A=1".toList⟩] =
        some (-1, [⟨some "A".toList, "A=1".toList⟩]) := by
  decide

/-- C17, at the line ` ls` (a space first) read from the startup file:
`run_rc_file` hands it to `run_parser_executor_handler`, which parses it and
calls `handle_internal` and `run_command` for the stage `ls`; and a line that
is a lone newline leaves `subcommand[0]` unassigned, which `parse_commandline`
reads. The same line ` ls` typed at the prompt is skipped by
`run_user_input`. -/
theorem run_rc_file_leading_space :
    run_rc_file (handle_internal ⟨none, fun _ => 0⟩)
        ⟨[], [⟨some "A".toList, "A=1".toList⟩], [], [], false⟩ (some [" ls\n".toList]) =
      some ⟨[], [⟨some "A".toList, "A=1".toList⟩], [],
        [Event.handle_internal
            [⟨[some "ls".toList, none], "stdin".toList, "stdout".toList, some Token.NORMAL⟩]
            [⟨some "A".toList, "A=1".toList⟩],
          Event.run_command 1
            [⟨[some "ls".toList, none], "stdin".toList, "stdout".toList, some Token.NORMAL⟩]
            [some "A=1".toList, none]],
        false⟩ ∧
      run_rc_file (handle_internal ⟨none, fun _ => 0⟩)
        ⟨[], [⟨some "A".toList, "A=1".toList⟩], [], [], false⟩ (some ["\n".toList]) = none ∧
      run_user_input (handle_internal ⟨none, fun _ => 0⟩)
        ⟨[], [⟨some "A".toList, "A=1".toList⟩], [], [], false⟩ [" ls\n".toList] =
      some ⟨[], [⟨some "A".toList, "A=1".toList⟩], [], [], false⟩ := by
  decide

/-! ## The environment array -/

theorem make_env_array_loop_eq (list : List Environment) :
    ∀ (done slots : List (Option (List Char))), list.length ≤ slots.length →
      make_env_array_loop (done ++ slots) done.length list =
        done ++ (list.map fun entry => some entry.contents) ++ slots.drop list.length := by
  induction list with
  | nil => intro done slots _; simp [make_env_array_loop]
  | cons entry rest ih =>
    intro done slots h
    cases slots with
    | nil => simp at h
    | cons s slots =>
      have h1 : rest.length ≤ slots.length := by simpa using h
      have hset : (done ++ s :: slots).set done.length (some entry.contents) =
          (done ++ [some entry.contents]) ++ slots := by
        simp [List.set_append]
      rw [make_env_array_loop, hset]
      have := ih (done ++ [some entry.contents]) slots h1
      simp only [List.length_append, List.length_singleton] at this
      rw [this]
      simp

theorem make_env_array_eq (list : List Environment) :
    make_env_array list = (list.map fun entry => some entry.contents) ++ [none] := by
  unfold make_env_array getListLength
  simp only
  have h := make_env_array_loop_eq list [] (List.replicate (list.length + 1) none) (by simp)
  simp only [List.nil_append, List.length_nil] at h
  rw [h]
  have hd : (List.replicate (list.length + 1) (none : Option (List Char))).drop list.length
      = [none] := by
    simp [List.drop_replicate]
  rw [hd]
  have hl : (list.map fun entry => some entry.contents).length = list.length := by simp
  conv_lhs => rw [← hl]
  simp [List.set_append]

/-! ## The environment store -/

theorem name_matches_some (env : Environment) (name : List Char) (h : env.name ≠ none) :
    ∃ n, env.name = some n ∧ name_matches env name = some (n == name) := by
  cases hn : env.name with
  | none => exact absurd hn h
  | some n => exact ⟨n, rfl, by simp [name_matches, hn]⟩

theorem dropWhile_name_eq (name value : List Char) (h : '=' ∉ name) :
    (name ++ '=' :: value).dropWhile (fun c => c != '=') = '=' :: value := by
  induction name with
  | nil => simp [List.dropWhile]
  | cons c r ih =>
    have hc : (c != '=') = true := by
      simp only [bne_iff_ne, ne_eq]
      exact fun e => h (by simp [e])
    have hr : '=' ∉ r := fun e => h (by simp [e])
    rw [List.cons_append, List.dropWhile_cons, hc]
    simpa using ih hr

theorem get_env_variable_value_contents (name value : List Char) (h : '=' ∉ name) :
    get_env_variable_value (name ++ '=' :: value) = some value := by
  unfold get_env_variable_value
  rw [dropWhile_name_eq name value h]

/-- What `set_env` leaves behind, for a list whose entries all have a name:
it returns 0, and a lookup of the name finds the new contents. -/
theorem set_env_get_env (list : List Environment) (name value : List Char)
    (h : ∀ e ∈ list, e.name ≠ none) :
    ∃ list1, set_env list name value = some (0, list1) ∧
      get_env list1 name = some (some (name ++ '=' :: value)) ∧
      get_env_value list1 name =
        (get_env_variable_value (name ++ '=' :: value)).map some := by
  induction list with
  | nil =>
    refine ⟨_, rfl, ?_, ?_⟩
    · simp [get_env, name_matches, set_env_update_contents]
    · simp only [list_add_tail, List.nil_append, get_env_value, name_matches,
        set_env_update_contents, beq_self_eq_true]
      cases get_env_variable_value (name ++ '=' :: value) <;> rfl
  | cons env rest ih =>
    obtain ⟨n, hn, hm⟩ := name_matches_some env name (h env (by simp))
    obtain ⟨list1, h1, h2, h3⟩ := ih (fun e he => h e (by simp [he]))
    by_cases hnn : n = name
    · subst hnn
      refine ⟨set_env_update_contents env n value :: rest, ?_, ?_, ?_⟩
      · simp [set_env, hm]
      · simp [get_env, name_matches, set_env_update_contents, hn]
      · simp only [get_env_value, name_matches, set_env_update_contents, hn, beq_self_eq_true]
        cases get_env_variable_value (n ++ '=' :: value) <;> rfl
    · have hb : (n == name) = false := by simpa using hnn
      refine ⟨env :: list1, ?_, ?_, ?_⟩
      · simp [set_env, hm, hb, h1]
      · simp [get_env, hm, hb, h2]
      · simp [get_env_value, hm, hb, h3]

/-- Without an entry of that name `unset_env` leaves the list as it is and has
no return value, and both lookups return NULL. -/
theorem unset_env_absent (list : List Environment) (name : List Char)
    (h : ∀ e ∈ list, e.name ≠ none) (habs : ∀ e ∈ list, e.name ≠ some name) :
    unset_env list name = some (none, list) ∧ get_env list name = some none ∧
      get_env_value list name = some none := by
  induction list with
  | nil => exact ⟨rfl, rfl, rfl⟩
  | cons env rest ih =>
    obtain ⟨n, hn, hm⟩ := name_matches_some env name (h env (by simp))
    obtain ⟨h1, h2, h3⟩ := ih (fun e he => h e (by simp [he])) (fun e he => habs e (by simp [he]))
    have hnn : n ≠ name := fun e => habs env (by simp) (by rw [hn, e])
    have hb : (n == name) = false := by simpa using hnn
    exact ⟨by simp [unset_env, hm, hb, h1], by simp [get_env, hm, hb, h2],
      by simp [get_env_value, hm, hb, h3]⟩

/-- With an entry of that name `unset_env` deletes the first such entry and
returns 0. -/
theorem unset_env_present (list : List Environment) (name : List Char)
    (h : ∀ e ∈ list, e.name ≠ none) (hpres : ∃ e ∈ list, e.name = some name) :
    ∃ pre entry post, list = pre ++ entry :: post ∧ entry.name = some name ∧
      (∀ e ∈ pre, e.name ≠ some name) ∧
      unset_env list name = some (some 0, pre ++ post) := by
  induction list with
  | nil => obtain ⟨e, he, _⟩ := hpres; simp at he
  | cons env rest ih =>
    obtain ⟨n, hn, hm⟩ := name_matches_some env name (h env (by simp))
    by_cases hnn : n = name
    · subst hnn
      exact ⟨[], env, rest, rfl, hn, by simp, by simp [unset_env, hm]⟩
    · have hb : (n == name) = false := by simpa using hnn
      have hpres1 : ∃ e ∈ rest, e.name = some name := by
        obtain ⟨e, he, hen⟩ := hpres
        rcases List.mem_cons.1 he with rfl | he1
        · rw [hn] at hen; exact absurd (Option.some.inj hen) hnn
        · exact ⟨e, he1, hen⟩
      obtain ⟨pre, entry, post, hl, he, hp, hu⟩ := ih (fun e he => h e (by simp [he])) hpres1
      refine ⟨env :: pre, entry, post, by simp [hl], he, ?_, by simp [unset_env, hm, hb, hu]⟩
      intro e hmem
      rcases List.mem_cons.1 hmem with rfl | h1
      · rw [hn]; exact fun e => hnn (Option.some.inj e)
      · exact hp e h1

/-- `make_env_list` puts the strings of the array in front of the list, the
last one first. -/
theorem make_env_list_eq (strs : List (List Char)) :
    ∀ (list : List Environment) (tail : List (Option (List Char))),
      make_env_list list (strs.map some ++ none :: tail) =
        (strs.reverse.map fun contents =>
          (⟨get_env_variable_name contents, contents⟩ : Environment)) ++ list := by
  induction strs with
  | nil => intro list tail; simp [make_env_list]
  | cons s strs ih =>
    intro list tail
    rw [List.map_cons, List.cons_append, make_env_list, ih]
    simp

/-- The array that `make_env_array` returns for the list that `make_env_list`
built from an array holds the strings of that array in reverse order. -/
theorem make_env_array_make_env_list (strs : List (List Char))
    (tail : List (Option (List Char))) :
    make_env_array (make_env_list [] (strs.map some ++ none :: tail)) =
      strs.reverse.map some ++ [none] := by
  rw [make_env_list_eq, make_env_array_eq]
  simp

/-! ## C23 to C27: the environment store -/

/-- C23: `set_env(list, n, v)` on a list whose entries all have a name returns
0, and afterwards `get_env(list, n)` returns the string `n=v` and, when `n`
holds no `=`, `get_env_value(list, n)` returns `v`, whether or not an entry
named `n` was in the list before. -/
theorem set_env_then_lookup (list : List Environment) (n v : List Char)
    (hnames : ∀ e ∈ list, e.name ≠ none) :
    ∃ list1, set_env list n v = some (0, list1) ∧
      get_env list1 n = some (some (n ++ '=' :: v)) ∧
      ('=' ∉ n → get_env_value list1 n = some (some v)) := by
  obtain ⟨list1, h1, h2, h3⟩ := set_env_get_env list n v hnames
  refine ⟨list1, h1, h2, fun hn => ?_⟩
  rw [h3, get_env_variable_value_contents n v hn]
  rfl

theorem set_env_then_lookup_witness :
    ∃ list1,
      set_env [⟨some "A".toList, "A=1".toList⟩, ⟨some "B".toList, "B=2".toList⟩]
        "B".toList "3".toList = some (0, list1) ∧
      get_env list1 "B".toList = some (some ("B".toList ++ '=' :: "3".toList)) ∧
      ('=' ∉ "B".toList → get_env_value list1 "B".toList = some (some "3".toList)) :=
  set_env_then_lookup _ _ _ (by decide)

/-- C24, counterexample: the list that `make_env_list` builds from the array
`A=1`, `A=2` holds two entries named `A`; `unset_env` deletes the first one
only, and `get_env` and `get_env_value` still find the name afterwards. -/
theorem unset_env_duplicate_name :
    ∃ list1,
      unset_env (make_env_list [] [some "A=1".toList, some "A=2".toList, none]) "A".toList =
        some (some 0, list1) ∧
      get_env list1 "A".toList = some (some "A=1".toList) ∧
      get_env_value list1 "A".toList = some (some "1".toList) :=
  ⟨[⟨some "A".toList, "A=1".toList⟩], by decide, by decide, by decide⟩

/-- C24, amended: when every entry has a name and at most one entry is named
`n`, the name is absent after `unset_env(list, n)`: `get_env` and
`get_env_value` return NULL. -/
theorem unset_env_then_lookup (list : List Environment) (n : List Char)
    (hnames : ∀ e ∈ list, e.name ≠ none)
    (hunique : (list.filter fun e => e.name == some n).length ≤ 1) :
    ∃ r list1, unset_env list n = some (r, list1) ∧
      get_env list1 n = some none ∧ get_env_value list1 n = some none := by
  by_cases hpres : ∃ e ∈ list, e.name = some n
  · obtain ⟨pre, entry, post, hl, he, hp, hu⟩ := unset_env_present list n hnames hpres
    have hpost : ∀ e ∈ post, e.name ≠ some n := by
      intro e hmem hen
      have hf : (list.filter fun e => e.name == some n).length =
          (pre.filter fun e => e.name == some n).length + 1 +
            (post.filter fun e => e.name == some n).length := by
        rw [hl, List.filter_append, List.filter_cons]
        simp [he]
        omega
      have : 0 < (post.filter fun e => e.name == some n).length :=
        List.length_pos_of_mem (List.mem_filter.2 ⟨hmem, by simp [hen]⟩)
      omega
    have hnames1 : ∀ e ∈ pre ++ post, e.name ≠ none := by
      intro e hmem
      apply hnames e
      rw [hl]
      rcases List.mem_append.1 hmem with h1 | h1
      · exact List.mem_append_left _ h1
      · exact List.mem_append_right _ (List.mem_cons_of_mem _ h1)
    have habs : ∀ e ∈ pre ++ post, e.name ≠ some n := by
      intro e hmem
      rcases List.mem_append.1 hmem with h1 | h1
      · exact hp e h1
      · exact hpost e h1
    exact ⟨_, _, hu, (unset_env_absent _ n hnames1 habs).2⟩
  · have habs : ∀ e ∈ list, e.name ≠ some n := fun e he hen => hpres ⟨e, he, hen⟩
    exact ⟨_, _, (unset_env_absent list n hnames habs).1, (unset_env_absent list n hnames habs).2⟩

theorem unset_env_then_lookup_witness :
    ∃ r list1,
      unset_env [⟨some "A".toList, "A=1".toList⟩, ⟨some "B".toList, "B=2".toList⟩]
        "A".toList = some (r, list1) ∧
      get_env list1 "A".toList = some none ∧ get_env_value list1 "A".toList = some none :=
  unset_env_then_lookup _ _ (by decide) (by decide)

/-- C25: for the list with the one entry `A=1`, `unset_env(list, "A")` returns
0 and deletes the entry, while `unset_env(list, "B")` leaves the list as it is
and ends without a return value (it does not return -1). -/
theorem unset_env_unknown_name :
    unset_env [⟨some "A".toList, "A=1".toList⟩] "A".toList = some (some 0, []) ∧
    unset_env [⟨some "A".toList, "A=1".toList⟩] "B".toList =
      some (none, [⟨some "A".toList, "A=1".toList⟩]) := by
  decide

/-- C26: `make_env_array` returns an array of `n + 1` elements for a list of
`n` entries: element `i` is the contents of the `i`-th entry for `i < n`,
element `n` is NULL, and there is no further element. -/
theorem make_env_array_elements (list : List Environment) :
    (make_env_array list).length = list.length + 1 ∧
    ∀ i, (make_env_array list)[i]? =
      if i = list.length then some none
      else (list[i]?).map fun entry => some entry.contents := by
  rw [make_env_array_eq]
  refine ⟨by simp, fun i => ?_⟩
  rcases Nat.lt_trichotomy i list.length with h | h | h
  · rw [List.getElem?_append_left (by simpa using h), if_neg (Nat.ne_of_lt h)]
    simp
  · subst h
    simp [List.getElem?_append_right]
  · rw [if_neg (Nat.ne_of_gt h), List.getElem?_eq_none (by simp; omega),
      List.getElem?_eq_none (by omega)]
    rfl

/-- C27: `make_env_list` inserts with `list_add`, at the front: from the array
`A=1`, `B=2` it builds the list `B=2`, `A=1`, and `make_env_array` of that list
is `B=2`, `A=1`, NULL, the strings of the array in reverse order. -/
theorem make_env_list_reverses :
    make_env_list [] [some "A=1".toList, some "B=2".toList, none] =
      [⟨some "B".toList, "B=2".toList⟩, ⟨some "A".toList, "A=1".toList⟩] ∧
    make_env_array (make_env_list [] [some "A=1".toList, some "B=2".toList, none]) =
      [some "B=2".toList, some "A=1".toList, none] := by
  decide

/-! ## run_command: the calls of the parent -/

theorem fork_wait_calls_append (a b : List SysCall) :
    fork_wait_calls (a ++ b) = fork_wait_calls a ++ fork_wait_calls b := by
  simp [fork_wait_calls]

theorem check_validity_of_files_ok (os : ExecOs) (entry : Subcommand) (p : Process)
    (h : entry.input ≠ "stdin".toList → os.access entry.input = 0) :
    (check_validity_of_files os entry p).1 = 0 ∧
    fork_wait_calls (check_validity_of_files os entry p).2.calls = fork_wait_calls p.calls := by
  unfold check_validity_of_files
  by_cases hin : entry.input = "stdin".toList
  · rw [if_neg (not_not.2 hin)]
    exact ⟨rfl, rfl⟩
  · rw [if_pos hin]
    simp only
    rw [if_neg (not_not.2 (h hin))]
    exact ⟨rfl, by simp [fork_wait_calls_append, fork_wait_calls, is_fork, is_waitpid]⟩

theorem sys_pipe_ok (os : ExecOs) (i : Nat) (pipes : Option (Nat × Nat)) (p : Process)
    (h : 0 ≤ os.pipe i) :
    ∃ rd wr p1, sys_pipe os i pipes p = (os.pipe i, some (rd, wr), p1) ∧
      fork_wait_calls p1.calls = fork_wait_calls p.calls := by
  unfold sys_pipe
  rw [if_neg (by omega)]
  exact ⟨_, _, _, rfl, by simp [fork_wait_calls_append, fork_wait_calls, is_fork, is_waitpid]⟩

/-- The loop of `run_command` when every file check, `pipe` and `fork`
succeeds: it runs to the end of the list, and each `fork` is directly followed
by the `waitpid` for its child. -/
theorem run_command_loop_calls (os : ExecOs) (subcommand_count : Int)
    (env : List (Option (List Char))) :
    ∀ (rest : List Subcommand) (i prev_output : Nat) (pipes : Option (Nat × Nat))
      (p : Process),
      subcommand_count = (i : Int) + rest.length →
      (pipes.isSome ∨ 2 ≤ rest.length ∨ rest = []) →
      (∀ e ∈ rest, e.input ≠ "stdin".toList → os.access e.input = 0) →
      (∀ j, i ≤ j → j + 1 < i + rest.length → 0 ≤ os.pipe j) →
      (∀ j, i ≤ j → j < i + rest.length → os.fork j ≠ 0) →
      ∃ q, run_command_loop os subcommand_count env i prev_output pipes p rest = some q ∧
        fork_wait_calls q.calls = fork_wait_calls p.calls ++
          (List.range' i rest.length).flatMap fun j =>
            [SysCall.fork (os.fork j), SysCall.waitpid (os.fork j) 0] := by
  intro rest
  induction rest with
  | nil => intro i prev_output pipes p _ _ _ _ _; exact ⟨p, rfl, by simp⟩
  | cons entry rest ih =>
    intro i prev_output pipes p hcount hpipes haccess hpipe hfork
    obtain ⟨hv1, hv2⟩ := check_validity_of_files_ok os entry p (haccess entry (by simp))
    have hpid : os.fork i ≠ 0 := hfork i (Nat.le_refl _) (by simp)
    have hcount1 : subcommand_count = ((i + 1 : Nat) : Int) + rest.length := by
      rw [hcount]; simp only [List.length_cons]; push_cast; ring
    have haccess1 : ∀ e ∈ rest, e.input ≠ "stdin".toList → os.access e.input = 0 :=
      fun e he => haccess e (by simp [he])
    have hpipe1 : ∀ j, i + 1 ≤ j → j + 1 < i + 1 + rest.length → 0 ≤ os.pipe j :=
      fun j h1 h2 => hpipe j (by omega) (by simp only [List.length_cons]; omega)
    have hfork1 : ∀ j, i + 1 ≤ j → j < i + 1 + rest.length → os.fork j ≠ 0 :=
      fun j h1 h2 => hfork j (by omega) (by simp only [List.length_cons]; omega)
    rw [run_command_loop, if_neg (by rw [hv1]; decide)]
    simp only
    by_cases hlast : (i : Int) < subcommand_count - 1
    · have hp0 : 0 ≤ os.pipe i := hpipe i (Nat.le_refl _) (by
        rw [hcount] at hlast; simp only [List.length_cons] at hlast ⊢; push_cast at hlast; omega)
      obtain ⟨rd, wr, p1, hsp, hsp2⟩ :=
        sys_pipe_ok os i pipes (check_validity_of_files os entry p).2 hp0
      simp only [if_pos hlast, hsp]
      rw [if_neg (by omega), if_neg hpid]
      obtain ⟨q, hq1, hq2⟩ := ih (i + 1) rd (some (rd, wr))
        (handleParentInExecutor (os.fork i) 0
          (sys_close wr { p1 with calls := p1.calls ++ [SysCall.fork (os.fork i)] }))
        hcount1 (Or.inl rfl) haccess1 hpipe1 hfork1
      refine ⟨q, hq1, ?_⟩
      rw [hq2]
      simp [handleParentInExecutor, sys_close, fork_wait_calls_append, hsp2, hv2,
        List.range'_succ]
      simp [fork_wait_calls, is_fork, is_waitpid]
    · have hrest : rest = [] := by
        rw [hcount] at hlast; simp only [List.length_cons] at hlast; push_cast at hlast
        exact List.length_eq_zero.1 (by omega)
      have hsome : pipes.isSome := by
        rcases hpipes with h | h | h
        · exact h
        · rw [hrest] at h; simp at h
        · simp at h
      obtain ⟨⟨rd, wr⟩, hpp⟩ := Option.isSome_iff_exists.1 hsome
      simp only [if_neg hlast, hpp]
      rw [if_neg (by simp [hlast]), if_neg hpid]
      obtain ⟨q, hq1, hq2⟩ := ih (i + 1) rd (some (rd, wr))
        (handleParentInExecutor (os.fork i) 0
          (sys_close wr { (check_validity_of_files os entry p).2 with
            calls := (check_validity_of_files os entry p).2.calls ++
              [SysCall.fork (os.fork i)] }))
        hcount1 (Or.inl rfl) haccess1 hpipe1 hfork1
      refine ⟨q, hq1, ?_⟩
      rw [hq2]
      simp [handleParentInExecutor, sys_close, fork_wait_calls_append, hv2,
        List.range'_succ]
      simp [fork_wait_calls, is_fork, is_waitpid]

/-! ## run_command: the descriptors of the parent -/

theorem lowest_free_not_mem (fds : List Nat) : lowest_free fds ∉ fds := by
  unfold lowest_free
  cases hc : (List.range (fds.length + 1)).filter (fun n => !fds.contains n) with
  | nil =>
    exfalso
    have hsub : List.range (fds.length + 1) ⊆ fds := by
      intro k hk
      by_contra hmem
      have : k ∈ (List.range (fds.length + 1)).filter (fun n => !fds.contains n) :=
        List.mem_filter.2 ⟨hk, by simpa using hmem⟩
      rw [hc] at this
      simp at this
    have hle := ((List.nodup_range (fds.length + 1)).subperm hsub).length_le
    simp at hle
  | cons k rest =>
    have : k ∈ (List.range (fds.length + 1)).filter (fun n => !fds.contains n) := by
      rw [hc]; simp
    simpa using (List.mem_filter.1 this).2

theorem check_validity_of_files_open_fds (os : ExecOs) (entry : Subcommand) (p : Process) :
    (check_validity_of_files os entry p).2.open_fds = p.open_fds := by
  unfold check_validity_of_files
  split_ifs <;> rfl

theorem filter_ne_of_not_mem (fds : List Nat) (fd : Nat) (h : fd ∉ fds) :
    fds.filter (fun d => d != fd) = fds := by
  rw [List.filter_eq_self]
  intro d hd
  simp only [bne_iff_ne, ne_eq]
  rintro rfl
  exact h hd

/-- The loop of `run_command` when every file check, `pipe` and `fork`
succeeds in the parent: the read end of every pipe it creates is still open at
the end. -/
theorem run_command_loop_open_fds (os : ExecOs) (subcommand_count : Int)
    (env : List (Option (List Char))) :
    ∀ (rest : List Subcommand) (i prev_output : Nat) (pipes : Option (Nat × Nat))
      (p : Process),
      subcommand_count = (i : Int) + rest.length →
      (pipes.isSome ∨ 2 ≤ rest.length ∨ rest = []) →
      (∀ pr, pipes = some pr → pr.2 ∉ p.open_fds) →
      (∀ e ∈ rest, e.input ≠ "stdin".toList → os.access e.input = 0) →
      (∀ j, i ≤ j → j + 1 < i + rest.length → 0 ≤ os.pipe j) →
      (∀ j, i ≤ j → j < i + rest.length → os.fork j ≠ 0) →
      ∃ q extra, run_command_loop os subcommand_count env i prev_output pipes p rest = some q ∧
        q.open_fds = p.open_fds ++ extra ∧ extra.length = rest.length - 1 ∧
        ∀ fd ∈ extra, fd ∉ p.open_fds := by
  intro rest
  induction rest with
  | nil => intro i prev_output pipes p _ _ _ _ _ _; exact ⟨p, [], rfl, by simp, rfl, by simp⟩
  | cons entry rest ih =>
    intro i prev_output pipes p hcount hpipes hwr haccess hpipe hfork
    obtain ⟨hv1, _⟩ := check_validity_of_files_ok os entry p (haccess entry (by simp))
    have hv3 := check_validity_of_files_open_fds os entry p
    have hpid : os.fork i ≠ 0 := hfork i (Nat.le_refl _) (by simp)
    have hcount1 : subcommand_count = ((i + 1 : Nat) : Int) + rest.length := by
      rw [hcount]; simp only [List.length_cons]; push_cast; ring
    have haccess1 : ∀ e ∈ rest, e.input ≠ "stdin".toList → os.access e.input = 0 :=
      fun e he => haccess e (by simp [he])
    have hpipe1 : ∀ j, i + 1 ≤ j → j + 1 < i + 1 + rest.length → 0 ≤ os.pipe j :=
      fun j h1 h2 => hpipe j (by omega) (by simp only [List.length_cons]; omega)
    have hfork1 : ∀ j, i + 1 ≤ j → j < i + 1 + rest.length → os.fork j ≠ 0 :=
      fun j h1 h2 => hfork j (by omega) (by simp only [List.length_cons]; omega)
    rw [run_command_loop, if_neg (by rw [hv1]; decide)]
    simp only
    by_cases hlast : (i : Int) < subcommand_count - 1
    · have hlen : 1 ≤ rest.length := by
        rw [hcount] at hlast; simp only [List.length_cons] at hlast; push_cast at hlast; omega
      have hp0 : 0 ≤ os.pipe i := hpipe i (Nat.le_refl _) (by
        simp only [List.length_cons]; omega)
      have hrd := lowest_free_not_mem p.open_fds
      have hwr1 := lowest_free_not_mem (lowest_free p.open_fds :: p.open_fds)
      have hne : lowest_free p.open_fds ≠ lowest_free (lowest_free p.open_fds :: p.open_fds) :=
        fun e => hwr1 (by rw [← e]; simp)
      have hwr2 : lowest_free (lowest_free p.open_fds :: p.open_fds) ∉ p.open_fds :=
        fun e => hwr1 (List.mem_cons_of_mem _ e)
      simp only [if_pos hlast, sys_pipe, if_neg (not_lt.2 hp0), hv3]
      rw [if_neg (by omega), if_neg hpid]
      have hclose : (p.open_fds ++
            [lowest_free p.open_fds, lowest_free (lowest_free p.open_fds :: p.open_fds)]).filter
          (fun d => d != lowest_free (lowest_free p.open_fds :: p.open_fds)) =
          p.open_fds ++ [lowest_free p.open_fds] := by
        have hb : (lowest_free p.open_fds !=
            lowest_free (lowest_free p.open_fds :: p.open_fds)) = true := by simpa using hne
        rw [List.filter_append, filter_ne_of_not_mem _ _ hwr2]
        simp [List.filter, hb]
      obtain ⟨q, extra, hq1, hq2, hq3, hq4⟩ := ih (i + 1) (lowest_free p.open_fds)
        (some (lowest_free p.open_fds, lowest_free (lowest_free p.open_fds :: p.open_fds)))
        (handleParentInExecutor (os.fork i) 0
          (sys_close (lowest_free (lowest_free p.open_fds :: p.open_fds))
            { open_fds := p.open_fds ++
                [lowest_free p.open_fds, lowest_free (lowest_free p.open_fds :: p.open_fds)],
              calls := ((check_validity_of_files os entry p).2.calls ++
                [SysCall.pipe (os.pipe i) (some (lowest_free p.open_fds,
                  lowest_free (lowest_free p.open_fds :: p.open_fds)))]) ++
                [SysCall.fork (os.fork i)] }))
        hcount1 (Or.inl rfl)
        (by
          intro pr hpr
          cases hpr
          simp only [handleParentInExecutor, sys_close, hclose]
          intro hmem
          rcases List.mem_append.1 hmem with h | h
          · exact hwr2 h
          · exact hne (List.mem_singleton.1 h).symm)
        haccess1 hpipe1 hfork1
      refine ⟨q, lowest_free p.open_fds :: extra, hq1, ?_, ?_, ?_⟩
      · rw [hq2]; simp [handleParentInExecutor, sys_close, hclose]
      · simp only [List.length_cons, hq3]; omega
      · intro fd hfd
        rcases List.mem_cons.1 hfd with rfl | h
        · exact hrd
        · intro hmem
          apply hq4 fd h
          simp only [handleParentInExecutor, sys_close, hclose]
          exact List.mem_append_left _ hmem
    · have hrest : rest = [] := by
        rw [hcount] at hlast; simp only [List.length_cons] at hlast; push_cast at hlast
        exact List.length_eq_zero.1 (by omega)
      have hsome : pipes.isSome := by
        rcases hpipes with h | h | h
        · exact h
        · rw [hrest] at h; simp at h
        · simp at h
      obtain ⟨⟨rd, wr⟩, hpp⟩ := Option.isSome_iff_exists.1 hsome
      have hwr0 : wr ∉ p.open_fds := hwr (rd, wr) hpp
      simp only [if_neg hlast, hpp]
      rw [if_neg (by simp [hlast]), if_neg hpid]
      subst hrest
      refine ⟨_, [], rfl, ?_, rfl, by simp⟩
      simp [handleParentInExecutor, sys_close, hv3, filter_ne_of_not_mem _ _ hwr0]

/-- What `run_command` leaves open in the parent of a pipeline of N >= 2
stages in which every file check, `pipe` and `fork` succeeds: the descriptors
that were open before the call and N - 1 further ones. -/
theorem run_command_open_fds (os : ExecOs) (list_commands : List Subcommand)
    (env : List (Option (List Char))) (open_fds : List Nat)
    (hN : 2 ≤ list_commands.length)
    (haccess : ∀ e ∈ list_commands, e.input ≠ "stdin".toList → os.access e.input = 0)
    (hpipe : ∀ i, i + 1 < list_commands.length → 0 ≤ os.pipe i)
    (hfork : ∀ i, i < list_commands.length → 0 < os.fork i) :
    ∃ q extra, run_command os list_commands.length list_commands env open_fds = some q ∧
      q.open_fds = open_fds ++ extra ∧ extra.length = list_commands.length - 1 ∧
      ∀ fd ∈ extra, fd ∉ open_fds := by
  unfold run_command
  rw [if_pos (by omega)]
  exact run_command_loop_open_fds os list_commands.length env list_commands
    0 0 none ⟨open_fds, []⟩ (by simp) (Or.inr (Or.inl hN)) (by simp) haccess
    (fun j _ h => hpipe j (by omega)) (fun j _ h => Int.ne_of_gt (hfork j (by omega)))

/-! ## C21 and C22: the parent process of a pipeline -/

/-- C21, counterexample: for the pipeline `ls | wc`, with every call
succeeding, `run_command` waits for the first child before it forks the
second: its `fork` and `waitpid` calls are fork, wait, fork, wait, which is
not two forks followed by two waits. -/
theorem run_command_waits_before_second_fork :
    ∃ q, run_command ⟨fun _ => 0, fun _ => 0, fun i => 100 + i⟩ 2
        [⟨[some "ls".toList, none], "stdin".toList, "stdout".toList, some Token.NORMAL⟩,
         ⟨[some "wc".toList, none], "stdin".toList, "stdout".toList, some Token.NORMAL⟩]
        [none] [0, 1, 2] = some q ∧
      fork_wait_calls q.calls =
        [SysCall.fork 100, SysCall.waitpid 100 0, SysCall.fork 101, SysCall.waitpid 101 0] ∧
      ¬ spawn_all_then_wait 2 q.calls :=
  ⟨⟨[0, 1, 2, 3],
     [SysCall.pipe 0 (some (3, 4)), SysCall.fork 100, SysCall.close 4, SysCall.waitpid 100 0,
      SysCall.fork 101, SysCall.close 4, SysCall.waitpid 101 0]⟩,
   by decide, by decide, by decide⟩

/-- C21, amended: for a pipeline of N >= 2 stages in which every file check,
`pipe` and `fork` succeeds, `run_command` returns after N forks and N waits
that alternate: each `fork` is directly followed by the `waitpid` on the
process id it returned, before the next stage is forked. -/
theorem run_command_fork_then_wait (os : ExecOs) (list_commands : List Subcommand)
    (env : List (Option (List Char))) (open_fds : List Nat)
    (hN : 2 ≤ list_commands.length)
    (haccess : ∀ e ∈ list_commands, e.input ≠ "stdin".toList → os.access e.input = 0)
    (hpipe : ∀ i, i + 1 < list_commands.length → 0 ≤ os.pipe i)
    (hfork : ∀ i, i < list_commands.length → 0 < os.fork i) :
    ∃ q, run_command os list_commands.length list_commands env open_fds = some q ∧
      fork_wait_calls q.calls =
        (List.range list_commands.length).flatMap fun i =>
          [SysCall.fork (os.fork i), SysCall.waitpid (os.fork i) 0] := by
  unfold run_command
  rw [if_pos (by omega)]
  obtain ⟨q, hq1, hq2⟩ := run_command_loop_calls os list_commands.length env list_commands
    0 0 none ⟨open_fds, []⟩ (by simp) (Or.inr (Or.inl hN)) haccess
    (fun j _ h => hpipe j (by omega)) (fun j _ h => Int.ne_of_gt (hfork j (by omega)))
  refine ⟨q, hq1, ?_⟩
  rw [hq2, List.range_eq_range']
  simp [fork_wait_calls]

theorem run_command_fork_then_wait_witness :
    ∃ q, run_command ⟨fun _ => 0, fun _ => 0, fun i => 100 + i⟩
        (([⟨[some "ls".toList, none], "stdin".toList, "stdout".toList, some Token.NORMAL⟩,
           ⟨[some "wc".toList, none], "stdin".toList, "stdout".toList, some Token.NORMAL⟩] :
          List Subcommand).length)
        [⟨[some "ls".toList, none], "stdin".toList, "stdout".toList, some Token.NORMAL⟩,
         ⟨[some "wc".toList, none], "stdin".toList, "stdout".toList, some Token.NORMAL⟩]
        [none] [0, 1, 2] = some q ∧
      fork_wait_calls q.calls =
        (List.range
          ([⟨[some "ls".toList, none], "stdin".toList, "stdout".toList, some Token.NORMAL⟩,
            ⟨[some "wc".toList, none], "stdin".toList, "stdout".toList, some Token.NORMAL⟩] :
            List Subcommand).length).flatMap fun i =>
          [SysCall.fork
              ((⟨fun _ => 0, fun _ => 0, fun i => 100 + i⟩ : ExecOs).fork i),
            SysCall.waitpid
              ((⟨fun _ => 0, fun _ => 0, fun i => 100 + i⟩ : ExecOs).fork i) 0] :=
  run_command_fork_then_wait ⟨fun _ => 0, fun _ => 0, fun i => 100 + i⟩ _ [none] [0, 1, 2]
    (by decide) (fun _ _ _ => rfl) (fun _ _ => Int.le_refl 0)
    (fun i _ => by show (0 : Int) < 100 + (i : Int); omega)

/-- C22: for the pipelines `ls | wc` and `ls | wc | wc`, started with the
descriptors 0, 1 and 2 open, the parent returns from `run_command` with the
read end of every pipe still open (descriptor 3, and 3 and 4), and it has
called `close` on the write end of the last pipe twice. -/
theorem run_command_leaves_read_ends_open :
    (run_command ⟨fun _ => 0, fun _ => 0, fun i => 100 + i⟩ 2
        [⟨[some "ls".toList, none], "stdin".toList, "stdout".toList, some Token.NORMAL⟩,
         ⟨[some "wc".toList, none], "stdin".toList, "stdout".toList, some Token.NORMAL⟩]
        [none] [0, 1, 2]).map
      (fun q => (q.open_fds, created_pipes q.calls, closed_fds q.calls)) =
      some ([0, 1, 2, 3], [(3, 4)], [4, 4]) ∧
    (run_command ⟨fun _ => 0, fun _ => 0, fun i => 100 + i⟩ 3
        [⟨[some "ls".toList, none], "stdin".toList, "stdout".toList, some Token.NORMAL⟩,
         ⟨[some "wc".toList, none], "stdin".toList, "stdout".toList, some Token.NORMAL⟩,
         ⟨[some "wc".toList, none], "stdin".toList, "stdout".toList, some Token.NORMAL⟩]
        [none] [0, 1, 2]).map
      (fun q => (q.open_fds, created_pipes q.calls, closed_fds q.calls)) =
      some ([0, 1, 2, 3, 4], [(3, 4), (4, 5)], [4, 5, 5]) := by
  decide

/-! ## Runs of `>` and quoted spans -/

/-- What the branch for `>` does to a state whose word buffer is empty. -/
theorem scan_redir_out_empty (st : ParserState) (c : Char) (h : st.temp = []) :
    (scan_redir_out st c).1 =
      if c = REDIR_OUT then
        { st with list_args := st.list_args ++
                    [⟨[REDIR_OUT, REDIR_OUT], Token.REDIRECT_OUTPUT_APPEND⟩],
                  redirect_out_count := st.redirect_out_count + 1 }
      else
        { st with list_args := st.list_args ++ [⟨[REDIR_OUT], Token.REDIRECT_OUTPUT_TRUNCATE⟩],
                  redirect_out_count := st.redirect_out_count + 1 } := by
  cases st
  simp only at h
  subst h
  unfold scan_redir_out add_arg_to_list strncat
  split_ifs <;> simp_all

/-- A run of `k` characters `>` scanned from a state with an empty word
buffer. -/
theorem scan_subcommand_run (rest : List Char) (hrest : rest.head? ≠ some REDIR_OUT) :
    ∀ (k : Nat) (st : ParserState), st.temp = [] →
      scan_subcommand false st (List.replicate k REDIR_OUT ++ rest) =
        scan_subcommand false
          { st with list_args := st.list_args ++ redirect_run_tokens k,
                    redirect_out_count := st.redirect_out_count + (k / 2 + k % 2) } rest := by
  intro k
  induction k using Nat.strong_induction_on with
  | _ k ih =>
    intro st ht
    match k with
    | 0 =>
      cases st
      simp [redirect_run_tokens]
    | 1 =>
      cases rest with
      | nil =>
        rw [show List.replicate 1 REDIR_OUT ++ ([] : List Char) = [REDIR_OUT] from rfl,
          scan_step_truncate_last, scan_redir_out_empty _ _ ht,
          if_neg (by decide)]
        simp [scan_subcommand, redirect_run_tokens]
      | cons c rest1 =>
        have hc : c ≠ REDIR_OUT := fun e => hrest (by simp [e])
        rw [show List.replicate 1 REDIR_OUT ++ c :: rest1 = REDIR_OUT :: c :: rest1 from rfl,
          scan_step_truncate _ _ _ hc, scan_redir_out_empty _ _ ht, if_neg hc]
        simp [redirect_run_tokens]
    | k + 2 =>
      rw [show List.replicate (k + 2) REDIR_OUT ++ rest =
          REDIR_OUT :: REDIR_OUT :: (List.replicate k REDIR_OUT ++ rest) from by
            simp [List.replicate_succ],
        scan_step_append, scan_redir_out_empty _ _ ht, if_pos rfl,
        ih k (by omega)
          { st with list_args := st.list_args ++
                      [⟨[REDIR_OUT, REDIR_OUT], Token.REDIRECT_OUTPUT_APPEND⟩],
                    redirect_out_count := st.redirect_out_count + 1 } ht]
      have h1 : (k + 2) / 2 = k / 2 + 1 := by omega
      have h2 : (k + 2) % 2 = k % 2 := by omega
      simp only [redirect_run_tokens, h1, h2, List.replicate_succ, List.append_assoc,
        List.singleton_append, List.cons_append]
      congr 2
      omega

/-! ## The positions the scan stands at -/

theorem scan_redir_out_lookahead (st : ParserState) (c : Char) (h : c ≠ REDIR_OUT) :
    (scan_redir_out st c).1 = (scan_redir_out st (Char.ofNat 0)).1 := by
  have h0 : Char.ofNat 0 ≠ REDIR_OUT := by decide
  unfold scan_redir_out
  simp only [if_neg h, if_neg h0]

/-- The scan of a segment is the scan of its rest from the state reached at
the end of a beginning `pre` that closes every quoted span it opens, when the
rest is not empty and the cut does not separate two characters `>`; that
state does not depend on the rest, and it is not `QUOTE`. -/
theorem scan_subcommand_position :
    ∀ (n : Nat) (pre : List Char) (q : Bool) (st : ParserState), pre.length = n →
      (q = false → st.currentState ≠ State.QUOTE) → quote_open q pre = false →
      ∃ st1, st1.currentState ≠ State.QUOTE ∧
        ∀ suf, suf ≠ [] → (pre.getLast? ≠ some REDIR_OUT ∨ suf.head? ≠ some REDIR_OUT) →
          scan_subcommand q st (pre ++ suf) = scan_subcommand false st1 suf := by
  intro n
  induction n using Nat.strong_induction_on with
  | _ n ih =>
    intro pre q st hn hq hclosed
    cases q with
    | true =>
      cases pre with
      | nil => simp [quote_open] at hclosed
      | cons c r =>
        have hlt : r.length < n := by simp at hn; omega
        by_cases hc : c = QUOTATIONMARK
        · subst hc
          obtain ⟨st1, h1, h2⟩ := ih r.length hlt r false
            { add_arg_to_list st Token.NORMAL with currentState := State.WHITESPACE } rfl
            (fun _ => by simp) (by simpa [quote_open] using hclosed)
          refine ⟨st1, h1, fun suf hs hcut => ?_⟩
          rw [List.cons_append, scan_quoted_close]
          apply h2 suf hs
          rcases hcut with h | h
          · left
            cases r with
            | nil => simp
            | cons d r1 => simpa [List.getLast?_cons_cons] using h
          · exact Or.inr h
        · obtain ⟨st1, h1, h2⟩ := ih r.length hlt r true (strncat st [c]) rfl
            (fun h => by simp at h) (by simpa [quote_open, hc] using hclosed)
          refine ⟨st1, h1, fun suf hs hcut => ?_⟩
          rw [List.cons_append, scan_quoted_copy _ _ _ hc]
          apply h2 suf hs
          rcases hcut with h | h
          · left
            cases r with
            | nil => simp
            | cons d r1 => simpa [List.getLast?_cons_cons] using h
          · exact Or.inr h
    | false =>
      have hs0 := hq rfl
      cases pre with
      | nil => exact ⟨st, hs0, fun suf _ _ => rfl⟩
      | cons c r =>
        have hlt : r.length < n := by simp at hn; omega
        have hcut1 : ∀ suf : List Char,
            ((c :: r).getLast? ≠ some REDIR_OUT ∨ suf.head? ≠ some REDIR_OUT) →
            (r.getLast? ≠ some REDIR_OUT ∨ suf.head? ≠ some REDIR_OUT) := by
          intro suf hcut
          rcases hcut with h | h
          · left
            cases r with
            | nil => simp
            | cons d r1 => simpa [List.getLast?_cons_cons] using h
          · exact Or.inr h
        rcases check_character_state_cases c with h | h | h | h | h
        · subst h
          have hclosed1 : quote_open false r = false := by
            simpa [quote_open, show REDIR_OUT ≠ QUOTATIONMARK by decide] using hclosed
          cases r with
          | nil =>
            refine ⟨(scan_redir_out st (Char.ofNat 0)).1,
              by rw [scan_redir_out_currentState]; exact hs0, fun suf hs hcut => ?_⟩
            cases suf with
            | nil => exact absurd rfl hs
            | cons c2 suf1 =>
              have hc2 : c2 ≠ REDIR_OUT := by
                rcases hcut with h | h
                · simp at h
                · intro e; exact h (by simp [e])
              rw [show [REDIR_OUT] ++ c2 :: suf1 = REDIR_OUT :: c2 :: suf1 from rfl,
                scan_step_truncate _ _ _ hc2, scan_redir_out_lookahead _ _ hc2]
          | cons c2 r2 =>
            by_cases h2 : c2 = REDIR_OUT
            · subst h2
              obtain ⟨st1, h1, h3⟩ := ih r2.length (by simp at hn; omega) r2 false
                (scan_redir_out st REDIR_OUT).1 rfl
                (fun _ => by rw [scan_redir_out_currentState]; exact hs0)
                (by simpa [quote_open, show REDIR_OUT ≠ QUOTATIONMARK by decide] using hclosed1)
              refine ⟨st1, h1, fun suf hs hcut => ?_⟩
              rw [List.cons_append, List.cons_append, scan_step_append]
              apply h3 suf hs
              rcases hcut with h | h
              · left
                cases r2 with
                | nil => simp
                | cons d r3 => simpa [List.getLast?_cons_cons] using h
              · exact Or.inr h
            · obtain ⟨st1, h1, h3⟩ := ih (c2 :: r2).length hlt (c2 :: r2) false
                (scan_redir_out st c2).1 rfl
                (fun _ => by rw [scan_redir_out_currentState]; exact hs0) hclosed1
              refine ⟨st1, h1, fun suf hs hcut => ?_⟩
              rw [List.cons_append, List.cons_append, scan_step_truncate _ _ _ h2]
              exact h3 suf hs (hcut1 suf hcut)
        · subst h
          obtain ⟨st1, h1, h3⟩ := ih r.length hlt r false (scan_redir_in st) rfl
            (fun _ => by rw [scan_redir_in_currentState]; exact hs0)
            (by simpa [quote_open, show REDIR_IN ≠ QUOTATIONMARK by decide] using hclosed)
          refine ⟨st1, h1, fun suf hs hcut => ?_⟩
          rw [List.cons_append, scan_step_in]
          exact h3 suf hs (hcut1 suf hcut)
        · subst h
          obtain ⟨st1, h1, h3⟩ := ih r.length hlt r true
            { st with currentState := State.QUOTE } rfl (fun h => by simp at h)
            (by simpa [quote_open] using hclosed)
          refine ⟨st1, h1, fun suf hs hcut => ?_⟩
          rw [List.cons_append, scan_step_quote _ _ hs0]
          exact h3 suf hs (hcut1 suf hcut)
        · have hcq : c ≠ QUOTATIONMARK := by rintro rfl; revert h; decide
          obtain ⟨st1, h1, h3⟩ := ih r.length hlt r false (scan_whitespace st) rfl
            (fun _ => by rw [scan_whitespace_currentState]; decide)
            (by simpa [quote_open, hcq] using hclosed)
          refine ⟨st1, h1, fun suf hs hcut => ?_⟩
          rw [List.cons_append, scan_step_whitespace _ _ _ h]
          exact h3 suf hs (hcut1 suf hcut)
        · have hcq : c ≠ QUOTATIONMARK := by rintro rfl; revert h; decide
          obtain ⟨st1, h1, h3⟩ := ih r.length hlt r false (scan_character st c false) rfl
            (fun _ => by rw [scan_character_currentState]; decide)
            (by simpa [quote_open, hcq] using hclosed)
          refine ⟨st1, h1, fun suf hs hcut => ?_⟩
          rw [List.cons_append, scan_step_character _ _ _ h]
          have he : (r ++ suf).isEmpty = false := by
            cases r <;> cases suf <;> simp_all
          rw [he]
          exact h3 suf hs (hcut1 suf hcut)

/-- The branch for `>` first flushes a pending word: it acts on the state with
the word flushed as on the state itself. -/
theorem scan_redir_out_flush (st : ParserState) (c : Char) :
    scan_redir_out (if st.temp.length > 0 then add_arg_to_list st Token.NORMAL else st) c =
      scan_redir_out st c := by
  by_cases h : st.temp.length > 0
  · rw [if_pos h]
    unfold scan_redir_out
    simp [h, add_arg_to_list]
  · rw [if_neg h]

theorem scan_subcommand_out_flush (st : ParserState) (rest : List Char) :
    scan_subcommand false st (REDIR_OUT :: rest) =
      scan_subcommand false
        (if st.temp.length > 0 then add_arg_to_list st Token.NORMAL else st)
        (REDIR_OUT :: rest) := by
  cases rest with
  | nil => rw [scan_step_truncate_last, scan_step_truncate_last, scan_redir_out_flush]
  | cons c rest1 =>
    by_cases hc : c = REDIR_OUT
    · subst hc
      rw [scan_step_append, scan_step_append, scan_redir_out_flush]
    · rw [scan_step_truncate _ _ _ hc, scan_step_truncate _ _ _ hc, scan_redir_out_flush]

/-- The closing part of a quoted span: the characters up to the quotation mark
join the word buffer, and the buffer becomes one token. -/
theorem scan_subcommand_span (rest : List Char) :
    ∀ (span : List Char) (st : ParserState), QUOTATIONMARK ∉ span →
      scan_subcommand true st (span ++ QUOTATIONMARK :: rest) =
        scan_subcommand false
          { st with temp := [], currentState := State.WHITESPACE,
                    list_args := st.list_args ++ [⟨st.temp ++ span, Token.NORMAL⟩] } rest := by
  intro span
  induction span with
  | nil =>
    intro st _
    rw [List.nil_append, scan_quoted_close]
    simp [add_arg_to_list]
  | cons c span ih =>
    intro st h
    have hc : c ≠ QUOTATIONMARK := fun e => h (by simp [e])
    have hs : QUOTATIONMARK ∉ span := fun e => h (by simp [e])
    rw [List.cons_append, scan_quoted_copy _ _ _ hc, ih _ hs]
    simp [strncat]

/-- A run of `k` characters `>` scanned from any state outside a quoted span:
a pending word is flushed, then the tokens of the run are emitted. -/
theorem scan_subcommand_run_step (st : ParserState) (k : Nat) (rest : List Char)
    (hk : 0 < k) (hrest : rest.head? ≠ some REDIR_OUT) :
    scan_subcommand false st (List.replicate k REDIR_OUT ++ rest) =
      scan_subcommand false
        { st with
          temp := [],
          list_args := st.list_args ++
            (if st.temp.length > 0 then [⟨st.temp, Token.NORMAL⟩] else []) ++
            redirect_run_tokens k,
          redirect_out_count := st.redirect_out_count + (k / 2 + k % 2) } rest := by
  obtain ⟨k, rfl⟩ : ∃ j, k = j + 1 := ⟨k - 1, by omega⟩
  rw [List.replicate_succ, List.cons_append, scan_subcommand_out_flush,
    ← List.cons_append, ← List.replicate_succ]
  by_cases h : st.temp.length > 0
  · rw [if_pos h, scan_subcommand_run rest hrest (k + 1) _ rfl]
    simp [add_arg_to_list, h]
  · have ht : st.temp = [] := List.length_eq_zero.1 (by omega)
    rw [if_neg h, scan_subcommand_run rest hrest (k + 1) _ ht]
    simp [h, ht]

/-- A quoted span scanned from any state outside a quoted span: pending word
and span become one token. -/
theorem scan_subcommand_span_step (st : ParserState) (span rest : List Char)
    (hstate : st.currentState ≠ State.QUOTE) (hspan : QUOTATIONMARK ∉ span) :
    scan_subcommand false st (QUOTATIONMARK :: span ++ QUOTATIONMARK :: rest) =
      scan_subcommand false
        { st with temp := [], currentState := State.WHITESPACE,
                  list_args := st.list_args ++ [⟨st.temp ++ span, Token.NORMAL⟩] } rest := by
  rw [List.cons_append, scan_step_quote _ _ hstate, scan_subcommand_span rest span _ hspan]

/-! ## The tokens and the counters of a scan -/

theorem redirect_out_tokens_append (a b : List Argument) :
    redirect_out_tokens (a ++ b) = redirect_out_tokens a + redirect_out_tokens b := by
  simp [redirect_out_tokens]

theorem redirect_in_tokens_append (a b : List Argument) :
    redirect_in_tokens (a ++ b) = redirect_in_tokens a + redirect_in_tokens b := by
  simp [redirect_in_tokens]

theorem redirect_run_tokens_out (k : Nat) :
    redirect_out_tokens (redirect_run_tokens k) = k / 2 + k % 2 := by
  unfold redirect_out_tokens redirect_run_tokens
  rw [List.filter_append, List.length_append, List.filter_eq_self.2, List.filter_eq_self.2]
  · simp
  · intro a ha
    rw [List.eq_of_mem_replicate ha]
    decide
  · intro a ha
    rw [List.eq_of_mem_replicate ha]
    decide

/-- What one step of the scan adds to `list_args`, and to the two counters:
each counter goes up by the number of tokens of its kind. -/
theorem scan_redir_out_tokens (st : ParserState) (c : Char) :
    ∃ toks, (scan_redir_out st c).1.list_args = st.list_args ++ toks ∧
      (scan_redir_out st c).1.redirect_out_count =
        st.redirect_out_count + redirect_out_tokens toks ∧
      (scan_redir_out st c).1.redirect_in_count =
        st.redirect_in_count + redirect_in_tokens toks := by
  unfold scan_redir_out add_arg_to_list strncat
  by_cases h : st.temp.length > 0 <;> by_cases hc : c = REDIR_OUT
  · exact ⟨[⟨st.temp, Token.NORMAL⟩, ⟨[REDIR_OUT, REDIR_OUT], Token.REDIRECT_OUTPUT_APPEND⟩],
      by simp [h, hc], by simp [h, hc, redirect_out_tokens],
      by simp [h, hc, redirect_in_tokens]⟩
  · exact ⟨[⟨st.temp, Token.NORMAL⟩, ⟨[REDIR_OUT], Token.REDIRECT_OUTPUT_TRUNCATE⟩],
      by simp [h, hc], by simp [h, hc, redirect_out_tokens],
      by simp [h, hc, redirect_in_tokens]⟩
  · have ht : st.temp = [] := List.length_eq_zero.1 (by omega)
    exact ⟨[⟨[REDIR_OUT, REDIR_OUT], Token.REDIRECT_OUTPUT_APPEND⟩],
      by simp [h, hc, ht], by simp [h, hc, redirect_out_tokens],
      by simp [h, hc, redirect_in_tokens]⟩
  · have ht : st.temp = [] := List.length_eq_zero.1 (by omega)
    exact ⟨[⟨[REDIR_OUT], Token.REDIRECT_OUTPUT_TRUNCATE⟩],
      by simp [h, hc, ht], by simp [h, hc, redirect_out_tokens],
      by simp [h, hc, redirect_in_tokens]⟩

theorem scan_redir_in_tokens (st : ParserState) :
    ∃ toks, (scan_redir_in st).list_args = st.list_args ++ toks ∧
      (scan_redir_in st).redirect_out_count =
        st.redirect_out_count + redirect_out_tokens toks ∧
      (scan_redir_in st).redirect_in_count =
        st.redirect_in_count + redirect_in_tokens toks := by
  unfold scan_redir_in add_arg_to_list strncat
  by_cases h : st.temp.length > 0
  · exact ⟨[⟨st.temp, Token.NORMAL⟩, ⟨[REDIR_IN], Token.REDIRECT_INPUT⟩],
      by simp [h], by simp [h, redirect_out_tokens], by simp [h, redirect_in_tokens]⟩
  · have ht : st.temp = [] := List.length_eq_zero.1 (by omega)
    exact ⟨[⟨[REDIR_IN], Token.REDIRECT_INPUT⟩],
      by simp [h, ht], by simp [h, redirect_out_tokens], by simp [h, redirect_in_tokens]⟩

theorem scan_character_tokens (st : ParserState) (c : Char) (b : Bool) :
    ∃ toks, (scan_character st c b).list_args = st.list_args ++ toks ∧
      (scan_character st c b).redirect_out_count =
        st.redirect_out_count + redirect_out_tokens toks ∧
      (scan_character st c b).redirect_in_count =
        st.redirect_in_count + redirect_in_tokens toks := by
  rw [scan_character_eq]
  cases b
  · exact ⟨[], by simp, by simp [redirect_out_tokens], by simp [redirect_in_tokens]⟩
  · exact ⟨[⟨st.temp ++ [c], Token.NORMAL⟩], by simp, by simp [redirect_out_tokens],
      by simp [redirect_in_tokens]⟩

theorem scan_whitespace_tokens (st : ParserState) :
    ∃ toks, (scan_whitespace st).list_args = st.list_args ++ toks ∧
      (scan_whitespace st).redirect_out_count =
        st.redirect_out_count + redirect_out_tokens toks ∧
      (scan_whitespace st).redirect_in_count =
        st.redirect_in_count + redirect_in_tokens toks := by
  unfold scan_whitespace add_arg_to_list
  by_cases h : st.currentState ≠ State.WHITESPACE
  · exact ⟨[⟨st.temp, Token.NORMAL⟩], by simp [h], by simp [h, redirect_out_tokens],
      by simp [h, redirect_in_tokens]⟩
  · exact ⟨[], by simp [h], by simp [h, redirect_out_tokens], by simp [h, redirect_in_tokens]⟩

/-- The scan of a segment only adds tokens to `list_args`, and each of the two
redirect counters goes up by the number of operator tokens of its kind among
them: once per token. -/
theorem scan_subcommand_extends (q : Bool) (st : ParserState) (s : List Char)
    (hq : q = false → st.currentState ≠ State.QUOTE) :
    ∀ st1, scan_subcommand q st s = some st1 →
      ∃ more, st1.list_args = st.list_args ++ more ∧
        st1.redirect_out_count = st.redirect_out_count + redirect_out_tokens more ∧
        st1.redirect_in_count = st.redirect_in_count + redirect_in_tokens more := by
  have step : ∀ (a b : ParserState) (toks : List Argument) (st1 : ParserState),
      b.list_args = a.list_args ++ toks →
      b.redirect_out_count = a.redirect_out_count + redirect_out_tokens toks →
      b.redirect_in_count = a.redirect_in_count + redirect_in_tokens toks →
      (∃ more, st1.list_args = b.list_args ++ more ∧
        st1.redirect_out_count = b.redirect_out_count + redirect_out_tokens more ∧
        st1.redirect_in_count = b.redirect_in_count + redirect_in_tokens more) →
      ∃ more, st1.list_args = a.list_args ++ more ∧
        st1.redirect_out_count = a.redirect_out_count + redirect_out_tokens more ∧
        st1.redirect_in_count = a.redirect_in_count + redirect_in_tokens more := by
    intro a b toks st1 h1 h2 h3 ⟨more, g1, g2, g3⟩
    refine ⟨toks ++ more, ?_, ?_, ?_⟩
    · rw [g1, h1, List.append_assoc]
    · rw [g2, h2, redirect_out_tokens_append]; omega
    · rw [g3, h3, redirect_in_tokens_append]; omega
  refine scan_induction (fun q st s => ∀ st1, scan_subcommand q st s = some st1 →
      ∃ more, st1.list_args = st.list_args ++ more ∧
        st1.redirect_out_count = st.redirect_out_count + redirect_out_tokens more ∧
        st1.redirect_in_count = st.redirect_in_count + redirect_in_tokens more)
    ?_ ?_ ?_ ?_ ?_ ?_ ?_ ?_ ?_ ?_ ?_ q st s hq
  · intro st _ st1 h
    simp only [scan_subcommand, Option.some.injEq] at h
    subst h
    exact ⟨[], by simp, by simp [redirect_out_tokens], by simp [redirect_in_tokens]⟩
  · intro st st1 h; simp [scan_subcommand] at h
  · intro st rest ih st1 h
    rw [scan_quoted_close] at h
    exact step st _ [⟨st.temp, Token.NORMAL⟩] st1 (by simp [add_arg_to_list])
      (by simp [add_arg_to_list, redirect_out_tokens])
      (by simp [add_arg_to_list, redirect_in_tokens]) (ih st1 h)
  · intro st c rest hc ih st1 h
    rw [scan_quoted_copy _ _ _ hc] at h
    exact step st _ [] st1 (by simp [strncat]) (by simp [strncat, redirect_out_tokens])
      (by simp [strncat, redirect_in_tokens]) (ih st1 h)
  · intro st rest _ ih st1 h
    rw [scan_step_append] at h
    obtain ⟨toks, h1, h2, h3⟩ := scan_redir_out_tokens st REDIR_OUT
    exact step st _ toks st1 h1 h2 h3 (ih st1 h)
  · intro st _ ih st1 h
    rw [scan_step_truncate_last] at h
    obtain ⟨toks, h1, h2, h3⟩ := scan_redir_out_tokens st (Char.ofNat 0)
    exact step st _ toks st1 h1 h2 h3 (ih st1 (by simpa [scan_subcommand] using h))
  · intro st c rest _ hc ih st1 h
    rw [scan_step_truncate _ _ _ hc] at h
    obtain ⟨toks, h1, h2, h3⟩ := scan_redir_out_tokens st c
    exact step st _ toks st1 h1 h2 h3 (ih st1 h)
  · intro st rest _ ih st1 h
    rw [scan_step_in] at h
    obtain ⟨toks, h1, h2, h3⟩ := scan_redir_in_tokens st
    exact step st _ toks st1 h1 h2 h3 (ih st1 h)
  · intro st c rest _ hc ih st1 h
    rw [scan_step_character _ _ _ hc] at h
    obtain ⟨toks, h1, h2, h3⟩ := scan_character_tokens st c rest.isEmpty
    exact step st _ toks st1 h1 h2 h3 (ih st1 h)
  · intro st c rest _ hc ih st1 h
    rw [scan_step_whitespace _ _ _ hc] at h
    obtain ⟨toks, h1, h2, h3⟩ := scan_whitespace_tokens st
    exact step st _ toks st1 h1 h2 h3 (ih st1 h)
  · intro st rest hs ih st1 h
    rw [scan_step_quote _ _ hs] at h
    exact step st _ [] st1 (by simp) (by simp [redirect_out_tokens])
      (by simp [redirect_in_tokens]) (ih st1 h)

/-- The branch for `>` never writes past the end of the word buffer: a run of
`>` is scanned inside it from every state. -/
theorem temp_overrun_run (k : Nat) :
    ∀ st : ParserState, temp_overrun false st (List.replicate k REDIR_OUT) = false := by
  induction k using Nat.strong_induction_on with
  | _ k ih =>
    intro st
    match k with
    | 0 => exact overrun_nil _ _
    | 1 => exact overrun_step_truncate_last st
    | k + 2 =>
      rw [show List.replicate (k + 2) REDIR_OUT =
          REDIR_OUT :: REDIR_OUT :: List.replicate k REDIR_OUT from by
            simp [List.replicate_succ], overrun_step_append]
      exact ih k (by omega) _

/-! ## C29 and C30 -/

/-- C29: take a segment `pre ++ run ++ rest` in which `run` is a maximal run
of `k` characters `>` outside the quoted spans (`pre` closes every span it
opens and does not end in `>`, `rest` does not begin with `>`), scanned from a
state `st`. The scan arrives at the run in a state `st1` (the state from which
it goes on behind `pre`, whatever follows). There it flushes a pending word,
emits `k / 2` appending-output tokens followed by `k % 2` truncating-output
token, adds one to the output redirect count for each of these tokens, and
goes on with `rest`; nothing else changes. A run that ends the segment gives
exactly this state as the result of the scan, and the run itself is scanned
inside the word buffer. When `rest` closes every quoted span it opens and the
scan of the segment stays inside the word buffer, the scan has a result: its
token list holds the tokens of the run behind those of `pre`, and its output
redirect count is that of the arrival plus one for each token of the run and
for each output redirect token that `rest` adds. -/
theorem scan_subcommand_redirect_run (st : ParserState) (pre : List Char) (k : Nat)
    (rest : List Char) (hstate : st.currentState ≠ State.QUOTE)
    (hquotes : quote_open false pre = false) (hpre : pre.getLast? ≠ some REDIR_OUT)
    (hrest : rest.head? ≠ some REDIR_OUT) (hk : 0 < k) :
    ∃ st1,
      (∀ suf, suf ≠ [] → scan_subcommand false st (pre ++ suf) = scan_subcommand false st1 suf) ∧
      scan_subcommand false st (pre ++ (List.replicate k REDIR_OUT ++ rest)) =
        scan_subcommand false
          { st1 with
            temp := [],
            list_args := st1.list_args ++
              (if st1.temp.length > 0 then [⟨st1.temp, Token.NORMAL⟩] else []) ++
              redirect_run_tokens k,
            redirect_out_count := st1.redirect_out_count + (k / 2 + k % 2) } rest ∧
      scan_subcommand false st1 (List.replicate k REDIR_OUT) =
        some { st1 with
          temp := [],
          list_args := st1.list_args ++
            (if st1.temp.length > 0 then [⟨st1.temp, Token.NORMAL⟩] else []) ++
            redirect_run_tokens k,
          redirect_out_count := st1.redirect_out_count + (k / 2 + k % 2) } ∧
      temp_overrun false st1 (List.replicate k REDIR_OUT) = false ∧
      (quote_open false rest = false →
        temp_overrun false st (pre ++ (List.replicate k REDIR_OUT ++ rest)) = false →
        ∃ stf after,
          scan_subcommand false st (pre ++ (List.replicate k REDIR_OUT ++ rest)) = some stf ∧
          stf.list_args = st1.list_args ++
            (if st1.temp.length > 0 then [⟨st1.temp, Token.NORMAL⟩] else []) ++
            redirect_run_tokens k ++ after ∧
          stf.redirect_out_count =
            st1.redirect_out_count + (k / 2 + k % 2) + redirect_out_tokens after) := by
  obtain ⟨st1, h1, h2⟩ := scan_subcommand_position pre.length pre false st rfl
    (fun _ => hstate) hquotes
  have hrun : scan_subcommand false st (pre ++ (List.replicate k REDIR_OUT ++ rest)) =
      scan_subcommand false
        { st1 with
          temp := [],
          list_args := st1.list_args ++
            (if st1.temp.length > 0 then [⟨st1.temp, Token.NORMAL⟩] else []) ++
            redirect_run_tokens k,
          redirect_out_count := st1.redirect_out_count + (k / 2 + k % 2) } rest := by
    rw [h2 _ (by cases k with
      | zero => omega
      | succ j => simp [List.replicate_succ]) (Or.inl hpre)]
    exact scan_subcommand_run_step st1 k rest hk hrest
  refine ⟨st1, fun suf hs => h2 suf hs (Or.inl hpre), hrun, ?_, temp_overrun_run k st1, ?_⟩
  · have := scan_subcommand_run_step st1 k [] hk (by simp)
    rw [List.append_nil] at this
    rw [this]
    simp [scan_subcommand]
  · intro hclosed _
    have key : ∀ st2 : ParserState, st2.currentState ≠ State.QUOTE →
        ∃ stf after, scan_subcommand false st2 rest = some stf ∧
          stf.list_args = st2.list_args ++ after ∧
          stf.redirect_out_count = st2.redirect_out_count + redirect_out_tokens after := by
      intro st2 hs2
      cases hsc : scan_subcommand false st2 rest with
      | none =>
        rw [scan_subcommand_eq_none_iff false _ _ (fun _ => hs2), hclosed] at hsc
        cases hsc
      | some stf =>
        obtain ⟨after, g1, g2, _⟩ := scan_subcommand_extends false _ rest (fun _ => hs2) stf hsc
        exact ⟨stf, after, rfl, g1, g2⟩
    obtain ⟨stf, after, g0, g1, g2⟩ := key
      { st1 with
        temp := [],
        list_args := st1.list_args ++
          (if st1.temp.length > 0 then [⟨st1.temp, Token.NORMAL⟩] else []) ++
          redirect_run_tokens k,
        redirect_out_count := st1.redirect_out_count + (k / 2 + k % 2) } h1
    exact ⟨stf, after, by rw [hrun, g0], g1, g2⟩

theorem scan_subcommand_redirect_run_witness :
    ∃ st1,
      (∀ suf, suf ≠ [] →
        scan_subcommand false ⟨[], State.WHITESPACE, [], 0, 0, 0⟩ ("ls".toList ++ suf) =
          scan_subcommand false st1 suf) ∧
      scan_subcommand false ⟨[], State.WHITESPACE, [], 0, 0, 0⟩
          ("ls".toList ++ (List.replicate 3 REDIR_OUT ++ "f".toList)) =
        scan_subcommand false
          { st1 with
            temp := [],
            list_args := st1.list_args ++
              (if st1.temp.length > 0 then [⟨st1.temp, Token.NORMAL⟩] else []) ++
              redirect_run_tokens 3,
            redirect_out_count := st1.redirect_out_count + (3 / 2 + 3 % 2) } "f".toList ∧
      scan_subcommand false st1 (List.replicate 3 REDIR_OUT) =
        some { st1 with
          temp := [],
          list_args := st1.list_args ++
            (if st1.temp.length > 0 then [⟨st1.temp, Token.NORMAL⟩] else []) ++
            redirect_run_tokens 3,
          redirect_out_count := st1.redirect_out_count + (3 / 2 + 3 % 2) } ∧
      temp_overrun false st1 (List.replicate 3 REDIR_OUT) = false ∧
      (quote_open false "f".toList = false →
        temp_overrun false ⟨[], State.WHITESPACE, [], 0, 0, 0⟩
          ("ls".toList ++ (List.replicate 3 REDIR_OUT ++ "f".toList)) = false →
        ∃ stf after,
          scan_subcommand false ⟨[], State.WHITESPACE, [], 0, 0, 0⟩
              ("ls".toList ++ (List.replicate 3 REDIR_OUT ++ "f".toList)) = some stf ∧
          stf.list_args = st1.list_args ++
            (if st1.temp.length > 0 then [⟨st1.temp, Token.NORMAL⟩] else []) ++
            redirect_run_tokens 3 ++ after ∧
          stf.redirect_out_count =
            st1.redirect_out_count + (3 / 2 + 3 % 2) + redirect_out_tokens after) :=
  scan_subcommand_redirect_run ⟨[], State.WHITESPACE, [], 0, 0, 0⟩ "ls".toList 3 "f".toList
    (by decide) (by decide) (by decide) (by decide) (by decide)

/-- C30, at the line of a double quote, 200 letters `a` and a double quote:
the span between the quotes is closed, so the scan should emit it as one
PlainWord token, but the inner loop of the quote branch appends every
character of the span to `temp` with `strncat` and no test of the length. The
buffer has 100 bytes: the hundredth letter puts the NUL behind them, so the
run writes past the end of `temp` and `parse_commandline` has no result (a
span of 100 letters is the shortest that does so; with a span of 99 letters
the stage has the span as its one argument). -/
theorem parse_commandline_span_overruns_temp :
    quote_open false (QUOTATIONMARK :: (List.replicate 200 'a' ++ [QUOTATIONMARK])) = false ∧
      parse_commandline []
          (read_commandline (QUOTATIONMARK :: (List.replicate 200 'a' ++ [QUOTATIONMARK])) 202)
          [] = none ∧
      temp_overrun false (ParserState.mk [] State.WHITESPACE [] 0 0 0)
        (QUOTATIONMARK :: (List.replicate 100 'a' ++ [QUOTATIONMARK])) = true ∧
      parse_commandline []
          (read_commandline (QUOTATIONMARK :: (List.replicate 100 'a' ++ [QUOTATIONMARK])) 102)
          [] = none ∧
      parse_commandline []
          (read_commandline (QUOTATIONMARK :: (List.replicate 99 'a' ++ [QUOTATIONMARK])) 101)
          [] =
        some ⟨0, [], [⟨[some (List.replicate 99 'a'), none], "stdin".toList, "stdout".toList,
          some Token.NORMAL⟩]⟩ := by
  decide!

/-! ## C28 -/

/-- C28: a space that follows a redirect operator or a word that ended the
segment before is scanned in a state other than `WHITESPACE`, and the branch
for whitespace then emits the empty word buffer as a PlainWord token. The
segment `cmd> file` gives the tokens `cmd`, `>`, the empty word and `file`, so
the stage gets the empty string as its output and `file` as an argument; in
the line `ls| wc` the second stage gets the empty word as its command name. -/
theorem scan_subcommand_empty_word :
    (scan_subcommand false ⟨[], State.WHITESPACE, [], 0, 0, 0⟩ "cmd> file".toList).map
        (fun st => st.list_args) =
      some [⟨"cmd".toList, Token.NORMAL⟩, ⟨">".toList, Token.REDIRECT_OUTPUT_TRUNCATE⟩,
        ⟨[], Token.NORMAL⟩, ⟨"file".toList, Token.NORMAL⟩] ∧
    parse_commandline [] (read_commandline "cmd> file".toList 9) [] =
      some ⟨0, [], [⟨[some "cmd".toList, some "file".toList, none], "stdin".toList, [],
        some Token.REDIRECT_OUTPUT_TRUNCATE⟩]⟩ ∧
    parse_commandline [] (read_commandline "ls| wc".toList 6) [] =
      some ⟨0, [], [⟨[some "ls".toList, none], "stdin".toList, "stdout".toList,
          some Token.NORMAL⟩,
        ⟨[some [], some "wc".toList, none], "stdin".toList, "stdout".toList,
          some Token.NORMAL⟩]⟩ := by
  refine ⟨by decide, by decide, by decide⟩

/-! ## Theorems: the first and the last token of a segment -/

theorem last_nonblank_cons_some (c d : Char) (rest : List Char)
    (h : last_nonblank rest = some d) : last_nonblank (c :: rest) = some d := by
  simp [last_nonblank, h]

theorem last_nonblank_cons_none (c : Char) (rest : List Char)
    (h : last_nonblank rest = none) :
    last_nonblank (c :: rest) = if is_whitespace c then none else some c := by
  simp [last_nonblank, h]

theorem last_nonblank_quoted (s : List Char) (h : last_nonblank s = none) :
    QUOTATIONMARK ∉ s := by
  induction s with
  | nil => simp
  | cons c r ih =>
    cases hr : last_nonblank r with
    | some d => rw [last_nonblank_cons_some _ _ _ hr] at h; cases h
    | none =>
      rw [last_nonblank_cons_none _ _ hr] at h
      have hc : is_whitespace c = true := by
        by_contra hc
        rw [if_neg hc] at h
        cases h
      have : c ≠ QUOTATIONMARK := by rintro rfl; revert hc; decide
      simp only [List.mem_cons, not_or]
      exact ⟨fun e => this e.symm, ih hr⟩

/-- Inside a quoted span, a text without a quotation mark ends the segment
inside the span. -/
theorem scan_subcommand_unclosed (s : List Char) (h : QUOTATIONMARK ∉ s) :
    ∀ st : ParserState, scan_subcommand true st s = none := by
  induction s with
  | nil => intro st; simp [scan_subcommand]
  | cons c r ih =>
    intro st
    have hc : c ≠ QUOTATIONMARK := fun e => h (by simp [e])
    rw [scan_quoted_copy _ _ _ hc]
    exact ih (fun e => h (by simp [e])) _

theorem scan_whitespace_of_whitespace (st : ParserState)
    (h : st.currentState = State.WHITESPACE) : scan_whitespace st = st := by
  unfold scan_whitespace
  rw [if_neg (not_not.2 h)]

theorem scan_whitespace_idem (st : ParserState) :
    scan_whitespace (scan_whitespace st) = scan_whitespace st :=
  scan_whitespace_of_whitespace _ (scan_whitespace_currentState st)

/-- The scan of spaces and tabs: the first of them ends a word in progress,
the others do nothing. -/
theorem scan_subcommand_blanks (s : List Char) (hs : last_nonblank s = none) :
    ∀ st : ParserState, st.currentState ≠ State.QUOTE →
      scan_subcommand false st s = some (if s = [] then st else scan_whitespace st) := by
  induction s with
  | nil => intro st _; simp [scan_subcommand]
  | cons c r ih =>
    intro st hst
    cases hr : last_nonblank r with
    | some d => rw [last_nonblank_cons_some _ _ _ hr] at hs; cases hs
    | none =>
      rw [last_nonblank_cons_none _ _ hr] at hs
      have hc : is_whitespace c = true := by
        by_contra hc
        rw [if_neg hc] at hs
        cases hs
      rw [scan_step_whitespace _ _ _ hc,
        ih hr _ (by rw [scan_whitespace_currentState]; decide)]
      simp only [List.cons_ne_self, reduceCtorEq, if_false]
      split_ifs
      · rfl
      · rw [scan_whitespace_idem]

theorem scan_whitespace_list_args (st : ParserState) :
    (scan_whitespace st).list_args =
      if st.currentState ≠ State.WHITESPACE then st.list_args ++ [⟨st.temp, Token.NORMAL⟩]
      else st.list_args := by
  unfold scan_whitespace add_arg_to_list
  split_ifs <;> rfl

/-- The last token of a segment whose last character other than space and tab
is neither `<` nor `>` is a plain word. -/
theorem scan_subcommand_last_token (q : Bool) (st : ParserState) (s : List Char)
    (hq : q = false → st.currentState ≠ State.QUOTE) :
    ∀ st1, scan_subcommand q st s = some st1 →
      ∀ d, last_nonblank s = some d → d ≠ REDIR_IN → d ≠ REDIR_OUT →
      ∃ toks w, st1.list_args = st.list_args ++ toks ++ [⟨w, Token.NORMAL⟩] := by
  have step : ∀ (a b : ParserState) (st1 : ParserState),
      (∃ toks0, b.list_args = a.list_args ++ toks0) →
      (∃ toks w, st1.list_args = b.list_args ++ toks ++ [⟨w, Token.NORMAL⟩]) →
      ∃ toks w, st1.list_args = a.list_args ++ toks ++ [⟨w, Token.NORMAL⟩] := by
    intro a b st1 ⟨toks0, h0⟩ ⟨toks, w, h⟩
    exact ⟨toks0 ++ toks, w, by rw [h, h0]; simp⟩
  refine scan_induction (fun q st s => ∀ st1, scan_subcommand q st s = some st1 →
      ∀ d, last_nonblank s = some d → d ≠ REDIR_IN → d ≠ REDIR_OUT →
      ∃ toks w, st1.list_args = st.list_args ++ toks ++ [⟨w, Token.NORMAL⟩])
    ?_ ?_ ?_ ?_ ?_ ?_ ?_ ?_ ?_ ?_ ?_ q st s hq
  · intro st _ st1 _ d hd
    simp [last_nonblank] at hd
  · intro st st1 h; simp [scan_subcommand] at h
  · -- closing quotation mark
    intro st rest ih st1 h d hd hi ho
    rw [scan_quoted_close] at h
    cases hr : last_nonblank rest with
    | some d2 =>
      rw [last_nonblank_cons_some _ _ _ hr, Option.some.injEq] at hd
      subst hd
      exact step st _ st1 ⟨[⟨st.temp, Token.NORMAL⟩], by simp [add_arg_to_list]⟩
        (ih st1 h d2 hr hi ho)
    | none =>
      rw [scan_subcommand_blanks rest hr _ (by simp), Option.some.injEq] at h
      subst h
      refine ⟨[], st.temp, ?_⟩
      split_ifs
      · simp [add_arg_to_list]
      · rw [scan_whitespace_list_args]
        simp [add_arg_to_list]
  · -- a character of a quoted span
    intro st c rest hc ih st1 h d hd hi ho
    rw [scan_quoted_copy _ _ _ hc] at h
    cases hr : last_nonblank rest with
    | some d2 =>
      rw [last_nonblank_cons_some _ _ _ hr, Option.some.injEq] at hd
      subst hd
      exact step st _ st1 ⟨[], by simp [strncat]⟩ (ih st1 h d2 hr hi ho)
    | none =>
      rw [scan_subcommand_unclosed rest (last_nonblank_quoted rest hr)] at h
      cases h
  · -- `>>`
    intro st rest _ ih st1 h d hd hi ho
    rw [scan_step_append] at h
    cases hr : last_nonblank rest with
    | some d2 =>
      rw [last_nonblank_cons_some _ _ _ (last_nonblank_cons_some _ _ _ hr),
        Option.some.injEq] at hd
      subst hd
      obtain ⟨toks0, h0, _⟩ := scan_redir_out_tokens st REDIR_OUT
      exact step st _ st1 ⟨toks0, h0⟩ (ih st1 h d2 hr hi ho)
    | none =>
      have h1 : last_nonblank (REDIR_OUT :: rest) = some REDIR_OUT := by
        rw [last_nonblank_cons_none _ _ hr]; rfl
      rw [last_nonblank_cons_some _ _ _ h1, Option.some.injEq] at hd
      exact absurd hd.symm ho
  · -- `>` at the end
    intro st _ _ st1 _ d hd _ ho
    have : last_nonblank [REDIR_OUT] = some REDIR_OUT := rfl
    rw [this, Option.some.injEq] at hd
    exact absurd hd.symm ho
  · -- `>`
    intro st c rest _ hc ih st1 h d hd hi ho
    rw [scan_step_truncate _ _ _ hc] at h
    cases hr : last_nonblank (c :: rest) with
    | some d2 =>
      rw [last_nonblank_cons_some _ _ _ hr, Option.some.injEq] at hd
      subst hd
      obtain ⟨toks0, h0, _⟩ := scan_redir_out_tokens st c
      exact step st _ st1 ⟨toks0, h0⟩ (ih st1 h d2 hr hi ho)
    | none =>
      have h1 : last_nonblank (REDIR_OUT :: c :: rest) = some REDIR_OUT := by
        rw [last_nonblank_cons_none _ _ hr]; rfl
      rw [h1, Option.some.injEq] at hd
      exact absurd hd.symm ho
  · -- `<`
    intro st rest _ ih st1 h d hd hi ho
    rw [scan_step_in] at h
    cases hr : last_nonblank rest with
    | some d2 =>
      rw [last_nonblank_cons_some _ _ _ hr, Option.some.injEq] at hd
      subst hd
      obtain ⟨toks0, h0, _⟩ := scan_redir_in_tokens st
      exact step st _ st1 ⟨toks0, h0⟩ (ih st1 h d2 hr hi ho)
    | none =>
      have h1 : last_nonblank (REDIR_IN :: rest) = some REDIR_IN := by
        rw [last_nonblank_cons_none _ _ hr]; rfl
      rw [h1, Option.some.injEq] at hd
      exact absurd hd.symm hi
  · -- an ordinary character
    intro st c rest _ hc ih st1 h d hd hi ho
    rw [scan_step_character _ _ _ hc] at h
    cases hr : last_nonblank rest with
    | some d2 =>
      rw [last_nonblank_cons_some _ _ _ hr, Option.some.injEq] at hd
      subst hd
      obtain ⟨toks0, h0, _⟩ := scan_character_tokens st c rest.isEmpty
      exact step st _ st1 ⟨toks0, h0⟩ (ih st1 h d2 hr hi ho)
    | none =>
      rw [scan_subcommand_blanks rest hr _ (by rw [scan_character_currentState]; decide),
        Option.some.injEq] at h
      subst h
      refine ⟨[], st.temp ++ [c], ?_⟩
      cases rest with
      | nil => simp [scan_character_eq]
      | cons b r =>
        simp only [reduceCtorEq, if_false, List.isEmpty_cons]
        rw [scan_whitespace_list_args, scan_character_currentState, if_pos (by decide),
          scan_character_eq]
        simp
  · -- a space or a tab
    intro st c rest _ hc ih st1 h d hd hi ho
    rw [scan_step_whitespace _ _ _ hc] at h
    cases hr : last_nonblank rest with
    | some d2 =>
      rw [last_nonblank_cons_some _ _ _ hr, Option.some.injEq] at hd
      subst hd
      obtain ⟨toks0, h0, _⟩ := scan_whitespace_tokens st
      exact step st _ st1 ⟨toks0, h0⟩ (ih st1 h d2 hr hi ho)
    | none =>
      rw [last_nonblank_cons_none _ _ hr, if_pos hc] at hd
      cases hd
  · -- opening quotation mark
    intro st rest hs ih st1 h d hd hi ho
    rw [scan_step_quote _ _ hs] at h
    cases hr : last_nonblank rest with
    | some d2 =>
      rw [last_nonblank_cons_some _ _ _ hr, Option.some.injEq] at hd
      subst hd
      exact step st _ st1 ⟨[], by simp⟩ (ih st1 h d2 hr hi ho)
    | none =>
      rw [scan_subcommand_unclosed rest (last_nonblank_quoted rest hr)] at h
      cases h

theorem scan_redir_out_pending (st : ParserState) (c : Char) (h : st.temp ≠ []) :
    ∃ more, (scan_redir_out st c).1.list_args =
      st.list_args ++ ⟨st.temp, Token.NORMAL⟩ :: more := by
  have hl : st.temp.length > 0 := List.length_pos.2 h
  unfold scan_redir_out add_arg_to_list strncat
  by_cases hc : c = REDIR_OUT
  · exact ⟨[⟨[REDIR_OUT, REDIR_OUT], Token.REDIRECT_OUTPUT_APPEND⟩], by simp [hl, hc]⟩
  · exact ⟨[⟨[REDIR_OUT], Token.REDIRECT_OUTPUT_TRUNCATE⟩], by simp [hl, hc]⟩

theorem scan_redir_in_pending (st : ParserState) (h : st.temp ≠ []) :
    ∃ more, (scan_redir_in st).list_args =
      st.list_args ++ ⟨st.temp, Token.NORMAL⟩ :: more := by
  have hl : st.temp.length > 0 := List.length_pos.2 h
  unfold scan_redir_in add_arg_to_list strncat
  exact ⟨[⟨[REDIR_IN], Token.REDIRECT_INPUT⟩], by simp [hl]⟩

/-- With a word in progress, the first token that the scan adds is a plain
word that is not empty, whatever follows. -/
theorem scan_subcommand_pending (q : Bool) (st : ParserState) (s : List Char)
    (hq : q = false → st.currentState ≠ State.QUOTE) :
    ∀ st1, scan_subcommand q st s = some st1 → st.temp ≠ [] →
      (q = false → s ≠ [] ∧ st.currentState = State.CHARACTER) →
      ∃ w more, w ≠ [] ∧ st1.list_args = st.list_args ++ ⟨w, Token.NORMAL⟩ :: more := by
  have tail : ∀ (a b st1 : ParserState) (w : List Char) (more0 : List Argument) (r : List Char),
      w ≠ [] → b.currentState ≠ State.QUOTE →
      b.list_args = a.list_args ++ ⟨w, Token.NORMAL⟩ :: more0 →
      scan_subcommand false b r = some st1 →
      ∃ w more, w ≠ [] ∧ st1.list_args = a.list_args ++ ⟨w, Token.NORMAL⟩ :: more := by
    intro a b st1 w more0 r hw hb hl hsc
    obtain ⟨more, hm, _⟩ := scan_subcommand_extends false b r (fun _ => hb) st1 hsc
    exact ⟨w, more0 ++ more, hw, by rw [hm, hl]; simp⟩
  refine scan_induction (fun q st s => ∀ st1, scan_subcommand q st s = some st1 →
      st.temp ≠ [] → (q = false → s ≠ [] ∧ st.currentState = State.CHARACTER) →
      ∃ w more, w ≠ [] ∧ st1.list_args = st.list_args ++ ⟨w, Token.NORMAL⟩ :: more)
    ?_ ?_ ?_ ?_ ?_ ?_ ?_ ?_ ?_ ?_ ?_ q st s hq
  · intro st _ st1 _ _ h
    exact absurd rfl (h rfl).1
  · intro st st1 h; simp [scan_subcommand] at h
  · intro st rest _ st1 h ht _
    rw [scan_quoted_close] at h
    exact tail st _ st1 st.temp [] rest ht (by simp) (by simp [add_arg_to_list]) h
  · intro st c rest hc ih st1 h ht _
    rw [scan_quoted_copy _ _ _ hc] at h
    obtain ⟨w, more, hw, hl⟩ := ih st1 h (by simp [strncat]) (fun h => by simp at h)
    exact ⟨w, more, hw, by simpa [strncat] using hl⟩
  · intro st rest hs _ st1 h ht _
    rw [scan_step_append] at h
    obtain ⟨more0, h0⟩ := scan_redir_out_pending st REDIR_OUT ht
    exact tail st _ st1 st.temp more0 rest ht
      (by rw [scan_redir_out_currentState]; exact hs) h0 h
  · intro st hs _ st1 h ht _
    rw [scan_step_truncate_last, Option.some.injEq] at h
    subst h
    obtain ⟨more0, h0⟩ := scan_redir_out_pending st (Char.ofNat 0) ht
    exact ⟨st.temp, more0, ht, h0⟩
  · intro st c rest hs hc _ st1 h ht _
    rw [scan_step_truncate _ _ _ hc] at h
    obtain ⟨more0, h0⟩ := scan_redir_out_pending st c ht
    exact tail st _ st1 st.temp more0 (c :: rest) ht
      (by rw [scan_redir_out_currentState]; exact hs) h0 h
  · intro st rest hs _ st1 h ht _
    rw [scan_step_in] at h
    obtain ⟨more0, h0⟩ := scan_redir_in_pending st ht
    exact tail st _ st1 st.temp more0 rest ht
      (by rw [scan_redir_in_currentState]; exact hs) h0 h
  · intro st c rest _ hc ih st1 h ht _
    rw [scan_step_character _ _ _ hc] at h
    cases rest with
    | nil =>
      simp only [List.isEmpty_nil, scan_subcommand, Option.some.injEq] at h
      refine ⟨st.temp ++ [c], [], by simp, ?_⟩
      rw [← h, scan_character_eq]
      simp
    | cons c2 r2 =>
      obtain ⟨w, more, hw, hl⟩ := ih st1 h (by rw [scan_character_eq]; simp)
        (fun _ => ⟨by simp, scan_character_currentState _ _ _⟩)
      refine ⟨w, more, hw, ?_⟩
      rw [hl, scan_character_eq]
      simp
  · intro st c rest _ hc _ st1 h ht hcs
    rw [scan_step_whitespace _ _ _ hc] at h
    refine tail st _ st1 st.temp [] rest ht
      (by rw [scan_whitespace_currentState]; decide) ?_ h
    rw [scan_whitespace_list_args, if_pos (by rw [(hcs rfl).2]; decide)]
  · intro st rest hs ih st1 h ht _
    rw [scan_step_quote _ _ hs] at h
    exact ih st1 h ht (fun h => by simp at h)

/-- A segment that begins with a word: the first token of its scan is a plain
word that is not empty. -/
theorem scan_subcommand_first_token (st st1 : ParserState) (s : List Char)
    (hst : st.currentState ≠ State.QUOTE) (hs : begins_with_word s = true)
    (h : scan_subcommand false st s = some st1) :
    ∃ w more, w ≠ [] ∧ st1.list_args = st.list_args ++ ⟨w, Token.NORMAL⟩ :: more := by
  cases s with
  | nil => simp [begins_with_word] at hs
  | cons c r =>
    by_cases hc : c = QUOTATIONMARK
    · subst hc
      cases r with
      | nil => simp [begins_with_word] at hs
      | cons c2 r2 =>
        have hc2 : c2 ≠ QUOTATIONMARK := by simpa [begins_with_word] using hs
        rw [scan_step_quote _ _ hst, scan_quoted_copy _ _ _ hc2] at h
        obtain ⟨w, more, hw, hl⟩ := scan_subcommand_pending true _ r2 (fun h => by simp at h)
          st1 h (by simp [strncat]) (fun h => by simp at h)
        exact ⟨w, more, hw, by simpa [strncat] using hl⟩
    · have hch : is_character c = true := by simpa [begins_with_word, hc] using hs
      rw [scan_step_character _ _ _ hch] at h
      cases r with
      | nil =>
        simp only [List.isEmpty_nil, scan_subcommand, Option.some.injEq] at h
        refine ⟨st.temp ++ [c], [], by simp, ?_⟩
        rw [← h, scan_character_eq]
        simp
      | cons c2 r2 =>
        obtain ⟨w, more, hw, hl⟩ := scan_subcommand_pending false _ (c2 :: r2)
          (fun _ => by rw [scan_character_currentState]; decide) st1 h
          (by rw [scan_character_eq]; simp)
          (fun _ => ⟨by simp, scan_character_currentState _ _ _⟩)
        refine ⟨w, more, hw, ?_⟩
        rw [hl, scan_character_eq]
        simp

/-- Leading spaces and tabs are passed over when the scan is in the state
`WHITESPACE`. -/
theorem scan_subcommand_leading_blanks (s : List Char) :
    ∀ st : ParserState, st.currentState = State.WHITESPACE →
      scan_subcommand false st s =
        scan_subcommand false st (s.dropWhile fun c => is_whitespace c) := by
  induction s with
  | nil => intro st _; rfl
  | cons c r ih =>
    intro st hst
    by_cases hc : is_whitespace c = true
    · rw [scan_step_whitespace _ _ _ hc, scan_whitespace_of_whitespace _ hst, ih _ hst,
        List.dropWhile_cons_of_pos hc]
    · rw [List.dropWhile_cons_of_neg hc]

/-- A segment that ends in a space, a tab or a closing quotation mark leaves
the scan in the state `WHITESPACE`. -/
theorem scan_subcommand_end_state (q : Bool) (st : ParserState) (s : List Char)
    (hq : q = false → st.currentState ≠ State.QUOTE) :
    ∀ st1, scan_subcommand q st s = some st1 →
      ∀ d, s.getLast? = some d → is_whitespace d = true ∨ d = QUOTATIONMARK →
      st1.currentState = State.WHITESPACE := by
  refine scan_induction (fun q st s => ∀ st1, scan_subcommand q st s = some st1 →
      ∀ d, s.getLast? = some d → is_whitespace d = true ∨ d = QUOTATIONMARK →
      st1.currentState = State.WHITESPACE)
    ?_ ?_ ?_ ?_ ?_ ?_ ?_ ?_ ?_ ?_ ?_ q st s hq
  · intro st _ st1 _ d hd; simp at hd
  · intro st st1 h; simp [scan_subcommand] at h
  · intro st rest ih st1 h d hd hdd
    rw [scan_quoted_close] at h
    cases rest with
    | nil =>
      simp only [scan_subcommand, Option.some.injEq] at h
      rw [← h]
    | cons c r =>
      exact ih st1 h d (by simpa [List.getLast?_cons_cons] using hd) hdd
  · intro st c rest hc ih st1 h d hd hdd
    rw [scan_quoted_copy _ _ _ hc] at h
    cases rest with
    | nil => simp [scan_subcommand] at h
    | cons c2 r => exact ih st1 h d (by simpa [List.getLast?_cons_cons] using hd) hdd
  · intro st rest _ ih st1 h d hd hdd
    rw [scan_step_append] at h
    cases rest with
    | nil =>
      simp only [List.getLast?_cons_cons, List.getLast?_singleton, Option.some.injEq] at hd
      subst hd
      rcases hdd with h1 | h1
      · exact absurd h1 (by decide)
      · exact absurd h1 (by decide)
    | cons c2 r =>
      exact ih st1 h d (by simpa [List.getLast?_cons_cons] using hd) hdd
  · intro st _ _ st1 _ d hd hdd
    simp only [List.getLast?_singleton, Option.some.injEq] at hd
    subst hd
    rcases hdd with h1 | h1
    · exact absurd h1 (by decide)
    · exact absurd h1 (by decide)
  · intro st c rest _ hc ih st1 h d hd hdd
    rw [scan_step_truncate _ _ _ hc] at h
    exact ih st1 h d (by simpa [List.getLast?_cons_cons] using hd) hdd
  · intro st rest _ ih st1 h d hd hdd
    rw [scan_step_in] at h
    cases rest with
    | nil =>
      simp only [List.getLast?_singleton, Option.some.injEq] at hd
      subst hd
      rcases hdd with h1 | h1
      · exact absurd h1 (by decide)
      · exact absurd h1 (by decide)
    | cons c2 r =>
      exact ih st1 h d (by simpa [List.getLast?_cons_cons] using hd) hdd
  · intro st c rest _ hc ih st1 h d hd hdd
    rw [scan_step_character _ _ _ hc] at h
    cases rest with
    | nil =>
      simp only [List.getLast?_singleton, Option.some.injEq] at hd
      subst hd
      rcases hdd with h1 | h1
      · simp [is_character, h1] at hc
      · subst h1; exact absurd hc (by decide)
    | cons c2 r =>
      exact ih st1 h d (by simpa [List.getLast?_cons_cons] using hd) hdd
  · intro st c rest _ hc ih st1 h d hd hdd
    rw [scan_step_whitespace _ _ _ hc] at h
    cases rest with
    | nil =>
      simp only [scan_subcommand, Option.some.injEq] at h
      rw [← h, scan_whitespace_currentState]
    | cons c2 r =>
      exact ih st1 h d (by simpa [List.getLast?_cons_cons] using hd) hdd
  · intro st rest hs ih st1 h d hd hdd
    rw [scan_step_quote _ _ hs] at h
    cases rest with
    | nil => simp [scan_subcommand] at h
    | cons c2 r =>
      exact ih st1 h d (by simpa [List.getLast?_cons_cons] using hd) hdd

/-- The output redirect count of a segment is at most the number of `>`
outside its quoted spans. -/
theorem scan_subcommand_out_le (q : Bool) (st : ParserState) (s : List Char)
    (hq : q = false → st.currentState ≠ State.QUOTE) :
    ∀ st1, scan_subcommand q st s = some st1 →
      st1.redirect_out_count ≤ st.redirect_out_count + (outside_quotes q s).count REDIR_OUT := by
  refine scan_induction (fun q st s => ∀ st1, scan_subcommand q st s = some st1 →
      st1.redirect_out_count ≤ st.redirect_out_count + (outside_quotes q s).count REDIR_OUT)
    ?_ ?_ ?_ ?_ ?_ ?_ ?_ ?_ ?_ ?_ ?_ q st s hq
  · intro st _ st1 h
    simp only [scan_subcommand, Option.some.injEq] at h
    subst h
    simp
  · intro st st1 h; simp [scan_subcommand] at h
  · intro st rest ih st1 h
    rw [scan_quoted_close] at h
    have := ih st1 h
    simpa [outside_quotes, add_arg_to_list] using this
  · intro st c rest hc ih st1 h
    rw [scan_quoted_copy _ _ _ hc] at h
    have := ih st1 h
    simpa [outside_quotes, hc, strncat] using this
  · intro st rest _ ih st1 h
    rw [scan_step_append] at h
    have := ih st1 h
    rw [(scan_redir_out_counts st REDIR_OUT).2] at this
    rw [outside_quotes_cons (by decide), outside_quotes_cons (by decide)]
    simp only [List.count_cons_self]
    omega
  · intro st _ _ st1 h
    rw [scan_step_truncate_last, Option.some.injEq] at h
    subst h
    rw [(scan_redir_out_counts st (Char.ofNat 0)).2, outside_quotes_cons (by decide)]
    simp
  · intro st c rest _ hc ih st1 h
    rw [scan_step_truncate _ _ _ hc] at h
    have := ih st1 h
    rw [(scan_redir_out_counts st c).2] at this
    rw [outside_quotes_cons (c := REDIR_OUT) (by decide)]
    simp only [List.count_cons_self]
    omega
  · intro st rest _ ih st1 h
    rw [scan_step_in] at h
    have := ih st1 h
    rw [(scan_redir_in_counts st).2] at this
    rw [outside_quotes_cons (by decide), count_cons_ne (by decide)]
    exact this
  · intro st c rest _ hc ih st1 h
    rw [scan_step_character _ _ _ hc] at h
    have := ih st1 h
    rw [(scan_character_counts st c rest.isEmpty).2] at this
    have hq : c ≠ QUOTATIONMARK := by rintro rfl; revert hc; decide
    have ho : c ≠ REDIR_OUT := by rintro rfl; revert hc; decide
    rw [outside_quotes_cons hq, count_cons_ne ho]
    exact this
  · intro st c rest _ hc ih st1 h
    rw [scan_step_whitespace _ _ _ hc] at h
    have := ih st1 h
    rw [(scan_whitespace_counts st).2] at this
    have hq : c ≠ QUOTATIONMARK := by rintro rfl; revert hc; decide
    have ho : c ≠ REDIR_OUT := by rintro rfl; revert hc; decide
    rw [outside_quotes_cons hq, count_cons_ne ho]
    exact this
  · intro st rest hs ih st1 h
    rw [scan_step_quote _ _ hs] at h
    have := ih st1 h
    simpa [outside_quotes] using this

theorem last_nonblank_none_all (s : List Char) (h : last_nonblank s = none) :
    ∀ c ∈ s, is_whitespace c = true := by
  induction s with
  | nil => intro c hc; simp at hc
  | cons a r ih =>
    cases hr : last_nonblank r with
    | some d => rw [last_nonblank_cons_some _ _ _ hr] at h; cases h
    | none =>
      rw [last_nonblank_cons_none _ _ hr] at h
      have ha : is_whitespace a = true := by
        by_contra ha
        rw [if_neg ha] at h
        cases h
      intro c hc
      rcases List.mem_cons.1 hc with rfl | hc
      · exact ha
      · exact ih hr c hc

theorem begins_with_word_last_nonblank (s : List Char)
    (h : begins_with_word (s.dropWhile fun c => is_whitespace c) = true) :
    ∃ d, last_nonblank s = some d := by
  cases hl : last_nonblank s with
  | some d => exact ⟨d, rfl⟩
  | none =>
    have : s.dropWhile (fun c => is_whitespace c) = [] :=
      List.dropWhile_eq_nil_iff.2 (last_nonblank_none_all s hl)
    rw [this] at h
    simp [begins_with_word] at h

theorem begins_with_word_dropWhile (s : List Char) (h : begins_with_word s = true) :
    s.dropWhile (fun c => is_whitespace c) = s := by
  cases s with
  | nil => rfl
  | cons c r =>
    have hc : ¬ is_whitespace c = true := by
      intro hw
      by_cases hq : c = QUOTATIONMARK
      · subst hq; exact absurd hw (by decide)
      · have : is_character c = true := by simpa [begins_with_word, hq] using h
        simp [is_character, hw] at this
    rw [List.dropWhile_cons_of_neg hc]

/-- A token list that begins with a plain word and whose last token is a plain
word: the stage that `make_subcommand` builds from it and the terminator has
the first word as its first argument. -/
theorem make_subcommand_command_name (cmds cmds1 : List Subcommand) (w : List Char)
    (more args : List Argument)
    (hlast : ∃ toks w2, Argument.mk w Token.NORMAL :: more = toks ++ [⟨w2, Token.NORMAL⟩])
    (h : make_subcommand cmds (Argument.mk w Token.NORMAL :: more ++ [⟨[], Token.NORMAL⟩]) =
      some (cmds1, args)) :
    ∃ sub, cmds1 = cmds ++ [sub] ∧ sub.exec_args.head? = some (some w) := by
  by_cases hint : w ∈ internal_cmd_names
  · unfold make_subcommand at h
    rw [List.cons_append, check_internal_command_cons, if_pos hint] at h
    simp only at h
    rw [if_neg (by decide), ← List.cons_append, make_exec_args_array_terminated] at h
    simp only [Option.some.injEq, Prod.mk.injEq] at h
    exact ⟨_, h.1.symm, by simp⟩
  · have hext : check_internal_command
        (Argument.mk w Token.NORMAL :: more ++ [⟨[], Token.NORMAL⟩]) = some 1 := by
      rw [List.cons_append, check_internal_command_cons, if_neg hint]
    obtain ⟨sub0, hres, _, hc⟩ := make_subcommand_external _ _ _ _ hext h
    rw [List.cons_append,
      get_input_output_loop_keep _ _ _ _ _ (by decide) (by simp)] at hres
    have hshape : more ++ [Argument.mk [] Token.NORMAL] = [Argument.mk [] Token.NORMAL] ∨
        ∃ pre a, more ++ [Argument.mk [] Token.NORMAL] = pre ++ [a, Argument.mk [] Token.NORMAL] ∧
          a.token = Token.NORMAL := by
      obtain ⟨toks, w2, ht⟩ := hlast
      cases toks with
      | nil =>
        simp only [List.nil_append, List.cons.injEq] at ht
        left
        rw [ht.2]
        rfl
      | cons t0 toks1 =>
        simp only [List.cons_append, List.cons.injEq] at ht
        right
        exact ⟨toks1, ⟨w2, Token.NORMAL⟩, by rw [ht.2]; simp, rfl⟩
    obtain ⟨more1, sub1, hl⟩ := get_input_output_loop_last (Argument.mk [] Token.NORMAL) rfl
      _ _ rfl hshape (0 + 1) ([] ++ [Argument.mk w Token.NORMAL])
      { fresh_subcommand with input := "stdin".toList, output := "stdout".toList,
                              type := some Token.NORMAL }
    rw [hl, Option.some.injEq, Prod.mk.injEq] at hres
    refine ⟨_, hc, ?_⟩
    rw [← hres.1, List.dropLast_concat]
    rfl

/-- On a successful parse, the stage of a segment that begins with a word
(behind leading spaces and tabs that the scan passes over in the state
`WHITESPACE`) and does not end in a redirect operator has a first argument
that is not NULL and not empty. -/
theorem parse_commandline_loop_command_name (num : Nat) (subs : List (Option (List Char))) :
    ∀ (i : Nat) (st : ParserState) (cmds : List Subcommand) (out : ParseOut),
      st.list_args = [] → st.currentState ≠ State.QUOTE →
      parse_commandline_loop num i subs st cmds = some out → out.ret = 0 →
      ∀ (k : Nat) (s : List Char), subs[k]? = some (some s) → i + k < num →
        begins_with_word (s.dropWhile fun c => is_whitespace c) = true →
        (k = 0 → begins_with_word s = true ∨ st.currentState = State.WHITESPACE) →
        (∀ j, k = j + 1 → begins_with_word s = true ∨
          ∃ p d, subs[j]? = some (some p) ∧ p.getLast? = some d ∧
            (is_whitespace d = true ∨ d = QUOTATIONMARK)) →
        last_nonblank s ≠ some REDIR_IN → last_nonblank s ≠ some REDIR_OUT →
        ∃ sub w, out.list_commands[cmds.length + k]? = some sub ∧
          sub.exec_args.head? = some (some w) ∧ w ≠ [] := by
  induction subs with
  | nil => intro i st cmds out _ _ _ _ k s hk; simp at hk
  | cons x rest ih =>
    intro i st cmds out hargs hs h hret k s hk hik hword hzero hsucc hin hout
    have hi : i < num := by omega
    cases x with
    | none =>
      rw [parse_commandline_loop_unassigned _ _ _ _ _ hi] at h
      cases h
    | some x =>
      obtain ⟨_, hc⟩ := parse_commandline_loop_cases _ _ _ _ _ _ _ hi h
      rcases hc with ⟨_, rfl⟩ | ⟨st1, hsc, ⟨_, rfl⟩ | ⟨_, sub, args, hm, hnext⟩⟩
      · simp at hret
      · simp at hret
      · have hs1 := (scan_subcommand_counts false
          { st with redirect_in_count := 0, redirect_out_count := 0 } x (fun _ => hs) st1 hsc).1
        cases k with
        | zero =>
          simp only [List.getElem?_cons_zero, Option.some.injEq] at hk
          subst hk
          have hsc2 : scan_subcommand false
              { st with redirect_in_count := 0, redirect_out_count := 0 }
              (x.dropWhile fun c => is_whitespace c) = some st1 := by
            rcases hzero rfl with hb | hw
            · rw [begins_with_word_dropWhile x hb]; exact hsc
            · rw [← scan_subcommand_leading_blanks x
                { st with redirect_in_count := 0, redirect_out_count := 0 } hw]
              exact hsc
          obtain ⟨w, more, hw, hfirst⟩ := scan_subcommand_first_token
            { st with redirect_in_count := 0, redirect_out_count := 0 } st1 _ hs hword hsc2
          obtain ⟨d, hd⟩ := begins_with_word_last_nonblank x hword
          obtain ⟨toks, w2, hlast⟩ := scan_subcommand_last_token false
            { st with redirect_in_count := 0, redirect_out_count := 0 } x (fun _ => hs) st1 hsc
            d hd (fun e => hin (by rw [hd, e])) (fun e => hout (by rw [hd, e]))
          simp only [hargs, List.nil_append] at hfirst hlast
          rw [hfirst] at hm
          obtain ⟨sub1, hc1, hhead⟩ := make_subcommand_command_name cmds _ w more args
            ⟨toks, w2, by rw [← hfirst, hlast]⟩ hm
          have hsub : sub = sub1 := by simpa using hc1
          obtain ⟨more2, hmore⟩ := parse_commandline_loop_extends _ _ _ _ _ _ hnext
          refine ⟨sub, w, ?_, by rw [hsub]; exact hhead, hw⟩
          rw [hmore, Nat.add_zero, List.append_assoc,
            List.getElem?_append_right (Nat.le_refl _)]
          simp
        | succ k =>
          simp only [List.getElem?_cons_succ] at hk
          obtain ⟨sub2, w, h1, h2, h3⟩ := ih (i + 1) { st1 with list_args := [] }
            (cmds ++ [sub]) out rfl hs1 hnext hret k s hk (by omega) hword
            (by
              intro hk0
              subst hk0
              rcases hsucc 0 rfl with hb | ⟨p, d, hp, hd, hdd⟩
              · exact Or.inl hb
              · simp only [List.getElem?_cons_zero, Option.some.injEq] at hp
                subst hp
                exact Or.inr (scan_subcommand_end_state false
                  { st with redirect_in_count := 0, redirect_out_count := 0 } x (fun _ => hs) st1 hsc d hd hdd))
            (by
              intro j hj
              rcases hsucc (j + 1) (by omega) with hb | ⟨p, d, hp, hd, hdd⟩
              · exact Or.inl hb
              · exact Or.inr ⟨p, d, by simpa using hp, hd, hdd⟩)
            hin hout
          refine ⟨sub2, w, ?_, h2, h3⟩
          rw [← h1]
          simp only [List.length_append, List.length_singleton]
          congr 1
          omega

/-- The loop of `parse_commandline` returns -1 only at a segment that ends
inside a quoted span, or whose redirect counts the validator rejects at its
position: one input redirect for every `<` outside the quoted spans, and at
most one output redirect for every `>` outside them. -/
theorem parse_commandline_loop_rejected (num : Nat) (subs : List (Option (List Char))) :
    ∀ (i : Nat) (st : ParserState) (cmds : List Subcommand) (out : ParseOut),
      st.currentState ≠ State.QUOTE →
      parse_commandline_loop num i subs st cmds = some out → out.ret = -1 →
      ∃ (k : Nat) (s : List Char), subs[k]? = some (some s) ∧ i + k < num ∧
        (quote_open false s = true ∨
          ∃ stdouts : Nat, stdouts ≤ (outside_quotes false s).count REDIR_OUT ∧
            check_validity_of_cmdline_redirects num ((i + k : Nat) + 1)
              ((outside_quotes false s).count REDIR_IN : Nat) stdouts = -1) := by
  induction subs with
  | nil =>
    intro i st cmds out _ h hret
    by_cases hi : i < num
    · rw [parse_commandline_loop_nil _ _ _ _ hi] at h
      cases h
    · rw [parse_commandline_loop_done _ _ _ _ _ hi, Option.some.injEq] at h
      rw [← h] at hret
      simp at hret
  | cons x rest ih =>
    intro i st cmds out hs h hret
    by_cases hi : i < num
    · cases x with
      | none =>
        rw [parse_commandline_loop_unassigned _ _ _ _ _ hi] at h
        cases h
      | some x =>
        obtain ⟨_, hc⟩ := parse_commandline_loop_cases _ _ _ _ _ _ _ hi h
        rcases hc with ⟨hsc, _⟩ | ⟨st1, hsc, ⟨hv, _⟩ | ⟨_, sub, args, hm, hnext⟩⟩
        · refine ⟨0, x, by simp, by omega, Or.inl ?_⟩
          exact (scan_subcommand_eq_none_iff false
            { st with redirect_in_count := 0, redirect_out_count := 0 } x (fun _ => hs)).1 hsc
        · obtain ⟨_, hcin, _, _⟩ := scan_subcommand_counts false
            { st with redirect_in_count := 0, redirect_out_count := 0 } x (fun _ => hs) st1 hsc
          have hle := scan_subcommand_out_le false
            { st with redirect_in_count := 0, redirect_out_count := 0 } x (fun _ => hs) st1 hsc
          simp only [Nat.zero_add] at hcin hle
          refine ⟨0, x, by simp, by omega, Or.inr ⟨st1.redirect_out_count, hle, ?_⟩⟩
          rw [← hcin]
          simpa using hv
        · have hs1 := (scan_subcommand_counts false
            { st with redirect_in_count := 0, redirect_out_count := 0 } x (fun _ => hs)
            st1 hsc).1
          obtain ⟨k, s, hk, hik, hres⟩ := ih (i + 1) { st1 with list_args := [] }
            (cmds ++ [sub]) out hs1 hnext hret
          refine ⟨k + 1, s, by simpa using hk, by omega, ?_⟩
          have he : i + (k + 1) = i + 1 + k := by omega
          rw [he]
          exact hres
    · rw [parse_commandline_loop_done _ _ _ _ _ hi, Option.some.injEq] at h
      rw [← h] at hret
      simp at hret

/-- C9, at three lines that `parse_commandline` accepts with 0 although a
command name is missing: `ls | | wc` (a blank segment between two pipes) and
`> f` (a segment that holds only a redirect and its operand) yield a stage
whose first argument is NULL, and so does `cmd >`, where the terminator entry
is taken as the operand and the command word is left in the terminator's
place. -/
theorem parse_commandline_empty_command_name :
    parse_commandline [] (read_commandline "ls | | wc".toList 9) [] =
        some ⟨0, [], [⟨[some "ls".toList, none], "stdin".toList, "stdout".toList,
            some Token.NORMAL⟩,
          ⟨[none], "stdin".toList, "stdout".toList, some Token.NORMAL⟩,
          ⟨[some "wc".toList, none], "stdin".toList, "stdout".toList, some Token.NORMAL⟩]⟩ ∧
      parse_commandline [] (read_commandline "> f".toList 3) [] =
        some ⟨0, [], [⟨[none], "stdin".toList, "f".toList,
          some Token.REDIRECT_OUTPUT_TRUNCATE⟩]⟩ ∧
      parse_commandline [] (read_commandline "cmd >".toList 5) [] =
        some ⟨0, [], [⟨[none], "stdin".toList, [],
          some Token.REDIRECT_OUTPUT_TRUNCATE⟩]⟩ := by
  decide!

/-- C9, amended. When `parse_commandline`, called with an empty `list_args`,
returns 0, a stage has a first argument that is not NULL and not empty
whenever its segment begins with a word behind its leading spaces and tabs (an
ordinary character, or a double quote that opens a span that is not empty),
has leading spaces or tabs only if it is the first segment or the segment
before it ends in a space, a tab or a double quote, and does not end, spaces
and tabs aside, in `<` or `>`: redirect operators with their operands, quoted
words and further segments are all allowed. When it returns -1, some segment
ends inside a quoted span or has redirect counts that the validator rejects
at its position; the command name is never looked at. -/
theorem parse_commandline_command_name (list_commands : List Subcommand) (input : List Char)
    (len : Nat) (out : ParseOut)
    (hparse : parse_commandline [] (read_commandline input len) list_commands = some out) :
    (out.ret = 0 →
      ∀ (k : Nat) (s : List Char),
        (read_commandline input len).subcommand[k]? = some (some s) →
        begins_with_word (s.dropWhile fun c => is_whitespace c) = true →
        (begins_with_word s = true ∨ k = 0 ∨
          ∃ p d, (read_commandline input len).subcommand[k - 1]? = some (some p) ∧
            p.getLast? = some d ∧ (is_whitespace d = true ∨ d = QUOTATIONMARK)) →
        last_nonblank s ≠ some REDIR_IN → last_nonblank s ≠ some REDIR_OUT →
        ∃ sub w, out.list_commands[list_commands.length + k]? = some sub ∧
          sub.exec_args.head? = some (some w) ∧ w ≠ []) ∧
    (out.ret = -1 →
      ∃ (k : Nat) (s : List Char),
        (read_commandline input len).subcommand[k]? = some (some s) ∧
        (quote_open false s = true ∨
          ∃ stdouts : Nat, stdouts ≤ (outside_quotes false s).count REDIR_OUT ∧
            check_validity_of_cmdline_redirects (read_commandline input len).num
              ((k : Nat) + 1) ((outside_quotes false s).count REDIR_IN : Nat) stdouts = -1)) := by
  refine ⟨fun hret k s hseg hword hlead hin hout => ?_, fun hret => ?_⟩
  · obtain ⟨_, _, _, _, hk⟩ := copy_subcommands_split input _ k s hseg
    refine parse_commandline_loop_command_name _ _ 0 _ list_commands out rfl (by simp) hparse
      hret k s hseg (by simpa using hk) hword (fun _ => Or.inr rfl) ?_ hin hout
    intro j hj
    rcases hlead with hb | h0 | ⟨p, d, hp, hd, hdd⟩
    · exact Or.inl hb
    · omega
    · refine Or.inr ⟨p, d, ?_, hd, hdd⟩
      have : k - 1 = j := by omega
      rw [← this]
      exact hp
  · obtain ⟨k, s, hk, _, hres⟩ := parse_commandline_loop_rejected _ _ 0 _ list_commands out
      (by simp) hparse hret
    refine ⟨k, s, hk, ?_⟩
    simpa using hres

theorem parse_commandline_command_name_witness :
    ∃ sub w,
      (ParseOut.mk 0 [] [⟨[some "cat".toList, none], "in".toList, "stdout".toList,
            some Token.REDIRECT_INPUT⟩,
          ⟨[some "wc".toList, none], "stdin".toList, "f".toList,
            some Token.REDIRECT_OUTPUT_TRUNCATE⟩]).list_commands[
          ([] : List Subcommand).length + 1]? = some sub ∧
      sub.exec_args.head? = some (some w) ∧ w ≠ [] :=
  (parse_commandline_command_name [] "cat < in | wc > f".toList 17
    (ParseOut.mk 0 [] [⟨[some "cat".toList, none], "in".toList, "stdout".toList,
        some Token.REDIRECT_INPUT⟩,
      ⟨[some "wc".toList, none], "stdin".toList, "f".toList,
        some Token.REDIRECT_OUTPUT_TRUNCATE⟩])
    (by decide)).1 rfl 1 " wc > f".toList (by decide) (by decide)
    (Or.inr (Or.inr ⟨"cat < in ".toList, ' ', by decide, by decide, Or.inl (by decide)⟩))
    (by decide) (by decide)

/-! ## The token list between segments and lines -/

/-- Whenever the loop of `parse_commandline` returns, from a state with an
empty `list_args`, it returns with `list_args` empty. -/
theorem parse_commandline_loop_list_args (num : Nat) (subs : List (Option (List Char))) :
    ∀ (i : Nat) (st : ParserState) (cmds : List Subcommand) (out : ParseOut),
      parse_commandline_loop num i subs st cmds = some out → st.list_args = [] →
      out.list_args = [] := by
  induction subs with
  | nil =>
    intro i st cmds out h hst
    by_cases hi : i < num
    · rw [parse_commandline_loop_nil _ _ _ _ hi] at h
      cases h
    · rw [parse_commandline_loop_done _ _ _ _ _ hi, Option.some.injEq] at h
      rw [← h]; exact hst
  | cons x rest ih =>
    intro i st cmds out h hst
    by_cases hi : i < num
    · cases x with
      | none =>
        rw [parse_commandline_loop_unassigned _ _ _ _ _ hi] at h
        cases h
      | some s =>
        obtain ⟨_, hc⟩ := parse_commandline_loop_cases _ _ _ _ _ _ _ hi h
        rcases hc with ⟨_, rfl⟩ | ⟨st1, _, ⟨_, rfl⟩ | ⟨_, sub, args, _, hnext⟩⟩
        · rfl
        · rfl
        · exact ih _ _ _ _ hnext rfl
    · rw [parse_commandline_loop_done _ _ _ _ _ hi, Option.some.injEq] at h
      rw [← h]; exact hst

/-! ## C39 -/

/-- C39: whenever `parse_commandline`, called with an empty `list_args`,
returns, `list_args` is empty again, on the success path as on the two error
paths (unterminated quote, illegal redirect count). -/
theorem parse_commandline_list_args_empty :
    ∀ (commandline : Commandline) (list_commands : List Subcommand) (out : ParseOut),
      parse_commandline [] commandline list_commands = some out → out.list_args = [] :=
  fun _ _ _ h => parse_commandline_loop_list_args _ _ _ _ _ _ h rfl

theorem parse_commandline_list_args_empty_witness :
    (parse_commandline [] ⟨2, [some "ls > f".toList, some "wc".toList]⟩ [] =
        some ⟨-1, [], []⟩ ∧
      (⟨-1, [], []⟩ : ParseOut).list_args = []) ∧
    (parse_commandline [] ⟨1, [some "echo \"a".toList]⟩ [] = some ⟨-1, [], []⟩ ∧
      (⟨-1, [], []⟩ : ParseOut).list_args = []) ∧
    (parse_commandline [] ⟨1, [some "ls".toList]⟩ [] =
        some ⟨0, [], [⟨[some "ls".toList, none], "stdin".toList, "stdout".toList,
          some Token.NORMAL⟩]⟩ ∧
      (⟨0, [], [⟨[some "ls".toList, none], "stdin".toList, "stdout".toList,
          some Token.NORMAL⟩]⟩ : ParseOut).list_args = []) :=
  ⟨⟨by decide,
    parse_commandline_list_args_empty ⟨2, [some "ls > f".toList, some "wc".toList]⟩ []
      ⟨-1, [], []⟩ (by decide)⟩,
   ⟨by decide,
    parse_commandline_list_args_empty ⟨1, [some "echo \"a".toList]⟩ []
      ⟨-1, [], []⟩ (by decide)⟩,
   ⟨by decide,
    parse_commandline_list_args_empty ⟨1, [some "ls".toList]⟩ []
      ⟨0, [], [⟨[some "ls".toList, none], "stdin".toList, "stdout".toList,
        some Token.NORMAL⟩]⟩ (by decide)⟩⟩

/-! ## A segment of plain words -/

/-- No piece of a split holds a separator. -/
theorem splitOnP_no_separator (p : Char → Bool) (l : List Char) :
    ∀ w ∈ l.splitOnP p, ∀ c ∈ w, p c = false := by
  induction l with
  | nil => intro w hw c hc; simp [List.splitOnP_nil] at hw; subst hw; simp at hc
  | cons a r ih =>
    intro w hw c hc
    rw [List.splitOnP_cons] at hw
    by_cases ha : p a = true
    · rw [if_pos ha] at hw
      rcases List.mem_cons.1 hw with rfl | h
      · simp at hc
      · exact ih w h c hc
    · rw [if_neg ha] at hw
      cases hs : List.splitOnP p r with
      | nil => rw [hs] at hw; simp at hw
      | cons w0 ws =>
        rw [hs] at hw ih
        simp only [List.modifyHead_cons, List.mem_cons] at hw
        rcases hw with rfl | h
        · rcases List.mem_cons.1 hc with rfl | h1
          · simpa using ha
          · exact ih w0 (by simp) c h1
        · exact ih w (by simp [h]) c hc

/-- The words of the whitespace-split are not empty and hold no space and no
tab. -/
theorem whitespace_split_words (s : List Char) :
    ∀ w ∈ whitespace_split s, w ≠ [] ∧ ∀ c ∈ w, c ≠ SPACE ∧ c ≠ TAB := by
  intro w hw
  unfold whitespace_split at hw
  obtain ⟨h1, h2⟩ := List.mem_filter.1 hw
  refine ⟨by intro e; subst e; simp at h2, fun c hc => ?_⟩
  have := splitOnP_no_separator is_whitespace s w h1 c hc
  unfold is_whitespace at this
  simp only [Bool.or_eq_false_iff, beq_eq_false_iff_ne, ne_eq] at this
  exact this

/-! ## C31 -/

/-- C31: for every non-empty single-segment line without `|`, `<`, `>` and
double quote whose words are shorter than 100 characters, `parse_commandline`
returns 0 and builds exactly one stage; its argument vector, before the NULL,
is the list of the maximal runs of characters other than space and tab, in
order, none of them empty: whitespace in front, behind or repeated gives no
argument, and a last word without whitespace behind it is an argument. (The
bound on the words is the size of the word buffer `temp`: a word of 100
characters or more is written past its end.) -/
theorem parse_commandline_whitespace_runs (line : List Char) (_hne : line ≠ [])
    (hchars : ∀ c ∈ line, c ≠ PIPE ∧ c ≠ REDIR_IN ∧ c ≠ REDIR_OUT ∧ c ≠ QUOTATIONMARK)
    (hwords : ∀ w ∈ whitespace_split line, w.length < 100) :
    ∃ sub, parse_commandline [] ⟨1, [some line]⟩ [] = some ⟨0, [], [sub]⟩ ∧
      sub.exec_args = (whitespace_split line).map some ++ [none] ∧
      ∀ w ∈ whitespace_split line, w ≠ [] ∧ ∀ c ∈ w, c ≠ SPACE ∧ c ≠ TAB := by
  obtain ⟨sub, h1, h2, _⟩ := parse_commandline_plain_segment line
    (fun c hc => (hchars c hc).2) hwords
  exact ⟨sub, h1, h2, whitespace_split_words line⟩

theorem parse_commandline_whitespace_runs_witness :
    ∃ sub, parse_commandline [] ⟨1, [some " \tls   -l /tmp".toList]⟩ [] =
        some ⟨0, [], [sub]⟩ ∧
      sub.exec_args = (whitespace_split " \tls   -l /tmp".toList).map some ++ [none] ∧
      ∀ w ∈ whitespace_split " \tls   -l /tmp".toList,
        w ≠ [] ∧ ∀ c ∈ w, c ≠ SPACE ∧ c ≠ TAB :=
  parse_commandline_whitespace_runs " \tls   -l /tmp".toList (by decide) (by decide)
    (by decide)

/-! ## C38 -/

/-- C38, counterexample: the parser tests the first token of a segment, and
`handle_internal` the first element of the argument vector. For the line
`> f cd` the first token is the operator `>`, so the stage is built with its
redirect resolved (output `f`), and its command `cd` is then dispatched to
`handle_cd`. -/
theorem parse_commandline_redirect_before_builtin :
    check_internal_command
        [⟨">".toList, Token.REDIRECT_OUTPUT_TRUNCATE⟩, ⟨"f".toList, Token.NORMAL⟩,
         ⟨"cd".toList, Token.NORMAL⟩, ⟨[], Token.NORMAL⟩] = some 1 ∧
    parse_commandline [] (read_commandline "> f cd".toList 6) [] =
      some ⟨0, [], [⟨[some "cd".toList, none], "stdin".toList, "f".toList,
        some Token.REDIRECT_OUTPUT_TRUNCATE⟩]⟩ ∧
    handle_internal ⟨some "/".toList, fun _ => 0⟩
        [⟨[some "cd".toList, none], "stdin".toList, "f".toList,
          some Token.REDIRECT_OUTPUT_TRUNCATE⟩] [] =
      handle_cd ⟨some "/".toList, fun _ => 0⟩
        ⟨[some "cd".toList, none], "stdin".toList, "f".toList,
          some Token.REDIRECT_OUTPUT_TRUNCATE⟩ [] ∧
    handle_internal ⟨some "/".toList, fun _ => 0⟩
        [⟨[some "cd".toList, none], "stdin".toList, "f".toList,
          some Token.REDIRECT_OUTPUT_TRUNCATE⟩] [] = some (0, []) := by
  refine ⟨by decide, by decide, by decide, by decide⟩

/-- C38, amended: for every string `s`, `check_internal_command` classifies a
token list whose first token is `s` as internal exactly when the table
`internal_cmds` has a handler named `s`, that is, when `s` is one of `setenv`,
`getenv`, `unsetenv`, `cd`, `pwd`, `exit`. A token list so classified is made
into a stage without redirect resolution, and a stage whose first argument is
`s` is dispatched to a handler exactly when a token list with the first token
`s` is classified as internal; otherwise `handle_internal` returns 1. -/
theorem check_internal_command_iff_handler (s : List Char) (tok : Token)
    (rest : List Argument) (os : OsCalls) (entry : Subcommand)
    (list_env : List Environment) (args : List (Option (List Char)))
    (hname : entry.exec_args = some s :: args) :
    (check_internal_command (⟨s, tok⟩ :: rest) = some 0 ↔ s ∈ internal_cmds.map Prod.fst) ∧
    (s ∈ internal_cmds.map Prod.fst ↔
      s ∈ ["setenv".toList, "getenv".toList, "unsetenv".toList, "cd".toList, "pwd".toList,
        "exit".toList]) ∧
    (check_internal_command (⟨s, tok⟩ :: rest) = some 0 →
      ∃ sub,
        make_exec_args_array (⟨s, tok⟩ :: rest)
            { fresh_subcommand with input := "stdin".toList, output := "stdout".toList } =
          some sub ∧
        ∀ list_commands, make_subcommand list_commands (⟨s, tok⟩ :: rest) =
          some (list_commands ++ [sub], ⟨s, tok⟩ :: rest)) ∧
    (check_internal_command (⟨s, tok⟩ :: rest) = some 0 ↔
      ∃ row ∈ internal_cmds, row.1 = s ∧
        handle_internal_loop os entry list_env internal_cmds = row.2 os entry list_env) ∧
    (check_internal_command (⟨s, tok⟩ :: rest) = some 1 ↔
      handle_internal_loop os entry list_env internal_cmds = some (1, list_env)) := by
  have hnames : internal_cmds.map Prod.fst = internal_cmd_names := rfl
  have hdis := handle_internal_loop_dispatch os entry list_env s args hname internal_cmds
  have hcheck : check_internal_command (⟨s, tok⟩ :: rest) =
      some (if s ∈ internal_cmd_names then 0 else 1) := rfl
  have h0 : check_internal_command (⟨s, tok⟩ :: rest) = some 0 ↔
      s ∈ internal_cmds.map Prod.fst := by
    rw [hcheck, hnames]
    by_cases hs : s ∈ internal_cmd_names <;> simp [hs]
  have h1 : check_internal_command (⟨s, tok⟩ :: rest) = some 1 ↔
      s ∉ internal_cmds.map Prod.fst := by
    rw [hcheck, hnames]
    by_cases hs : s ∈ internal_cmd_names <;> simp [hs]
  refine ⟨h0, by rw [hnames]; rfl, ?_, ?_, ?_⟩
  · intro hc
    refine ⟨_, make_exec_args_array_eq_some _ _ (by simp), fun list_commands => ?_⟩
    unfold make_subcommand
    rw [hc]
    simp only
    rw [if_neg (by decide), make_exec_args_array_eq_some _ _ (by simp)]
  · rw [h0]
    constructor
    · intro hs
      obtain ⟨row, hr, hrn, hres⟩ := hdis.2 hs
      exact ⟨row, hr, hrn, hres⟩
    · rintro ⟨row, hr, hrn, _⟩
      exact List.mem_map.2 ⟨row, hr, hrn⟩
  · rw [h1]
    constructor
    · exact hdis.1
    · intro hres hs
      obtain ⟨row, hr, _, hrow⟩ := hdis.2 hs
      rw [hres] at hrow
      exact (internal_cmds_codes row hr os entry list_env (1, list_env) hrow.symm).1 rfl

theorem check_internal_command_iff_handler_witness :
    (check_internal_command (⟨"cd".toList, Token.NORMAL⟩ :: [⟨[], Token.NORMAL⟩]) = some 0 ↔
      "cd".toList ∈ internal_cmds.map Prod.fst) ∧
    ("cd".toList ∈ internal_cmds.map Prod.fst ↔
      "cd".toList ∈ ["setenv".toList, "getenv".toList, "unsetenv".toList, "cd".toList,
        "pwd".toList, "exit".toList]) ∧
    (check_internal_command (⟨"cd".toList, Token.NORMAL⟩ :: [⟨[], Token.NORMAL⟩]) = some 0 →
      ∃ sub,
        make_exec_args_array (⟨"cd".toList, Token.NORMAL⟩ :: [⟨[], Token.NORMAL⟩])
            { fresh_subcommand with input := "stdin".toList, output := "stdout".toList } =
          some sub ∧
        ∀ list_commands,
          make_subcommand list_commands
              (⟨"cd".toList, Token.NORMAL⟩ :: [⟨[], Token.NORMAL⟩]) =
            some (list_commands ++ [sub], ⟨"cd".toList, Token.NORMAL⟩ :: [⟨[], Token.NORMAL⟩])) ∧
    (check_internal_command (⟨"cd".toList, Token.NORMAL⟩ :: [⟨[], Token.NORMAL⟩]) = some 0 ↔
      ∃ row ∈ internal_cmds, row.1 = "cd".toList ∧
        handle_internal_loop ⟨some "/".toList, fun _ => 0⟩
            ⟨[some "cd".toList, none], "stdin".toList, "stdout".toList, none⟩ []
            internal_cmds =
          row.2 ⟨some "/".toList, fun _ => 0⟩
            ⟨[some "cd".toList, none], "stdin".toList, "stdout".toList, none⟩ []) ∧
    (check_internal_command (⟨"cd".toList, Token.NORMAL⟩ :: [⟨[], Token.NORMAL⟩]) = some 1 ↔
      handle_internal_loop ⟨some "/".toList, fun _ => 0⟩
          ⟨[some "cd".toList, none], "stdin".toList, "stdout".toList, none⟩ []
          internal_cmds = some (1, [])) :=
  check_internal_command_iff_handler "cd".toList Token.NORMAL [⟨[], Token.NORMAL⟩]
    ⟨some "/".toList, fun _ => 0⟩
    ⟨[some "cd".toList, none], "stdin".toList, "stdout".toList, none⟩ [] [none] rfl

/-! ## C34 and C35 -/

/-- C34: `currentState` is set before the loop over the segments and not again
for each segment. After the segment `ls` it is `CHARACTER`, so the space that
begins the next segment of the line `ls| wc` emits the empty word buffer: the
tokens of that segment are the empty word and `wc`, while the same segment
parsed alone as a one-segment line gives the single token `wc`. -/
theorem parse_commandline_state_carries_over :
    (scan_subcommand false ⟨[], State.WHITESPACE, [], 0, 0, 0⟩ "ls".toList).map
        (fun st => (st.currentState, st.temp)) = some (State.CHARACTER, []) ∧
    (scan_subcommand false ⟨[], State.CHARACTER, [], 0, 0, 0⟩ " wc".toList).map
        (fun st => st.list_args) =
      some [⟨[], Token.NORMAL⟩, ⟨"wc".toList, Token.NORMAL⟩] ∧
    (scan_subcommand false ⟨[], State.WHITESPACE, [], 0, 0, 0⟩ " wc".toList).map
        (fun st => st.list_args) =
      some [⟨"wc".toList, Token.NORMAL⟩] ∧
    parse_commandline [] ⟨2, [some "ls".toList, some " wc".toList]⟩ [] =
      some ⟨0, [], [⟨[some "ls".toList, none], "stdin".toList, "stdout".toList,
          some Token.NORMAL⟩,
        ⟨[some [], some "wc".toList, none], "stdin".toList, "stdout".toList,
          some Token.NORMAL⟩]⟩ ∧
    parse_commandline [] ⟨1, [some " wc".toList]⟩ [] =
      some ⟨0, [], [⟨[some "wc".toList, none], "stdin".toList, "stdout".toList,
        some Token.NORMAL⟩]⟩ := by
  refine ⟨by decide, by decide, by decide, by decide, by decide⟩

/-- Whatever `handle_input_output` returns, it has taken the redirect branch
for standard output exactly when the output of the stage is not the string
`stdout`. -/
theorem handle_input_output_stdout (access : List Char → Int) (fopen : List Char → Bool)
    (sub : Subcommand) (r : Int × StdoutAction × StdinAction)
    (h : handle_input_output access fopen sub = some r) :
    r.2.1 ≠ StdoutAction.inherit ↔ sub.output ≠ "stdout".toList := by
  unfold handle_input_output at h
  simp only at h
  by_cases ho : sub.output = "stdout".toList
  · rw [if_neg (not_not.2 ho), Option.map_eq_some'] at h
    obtain ⟨a, _, rfl⟩ := h
    simp [ho]
  · rw [if_pos ho] at h
    refine ⟨fun _ => ho, fun _ => ?_⟩
    cases ht : sub.type with
    | none => rw [ht] at h; cases h
    | some t =>
      rw [ht] at h
      simp only at h
      by_cases h1 : t = Token.REDIRECT_OUTPUT_TRUNCATE
      · rw [if_pos h1] at h
        by_cases ha : access sub.output ≠ 0
        · rw [if_pos ha] at h; cases h; simp
        · rw [if_neg ha, Option.map_eq_some'] at h
          obtain ⟨a, _, rfl⟩ := h
          simp
      · rw [if_neg h1] at h
        by_cases h2 : t = Token.REDIRECT_OUTPUT_APPEND
        · rw [if_pos h2] at h
          by_cases ha : access sub.output ≠ 0
          · rw [if_pos ha] at h; cases h; simp
          · rw [if_neg ha, Option.map_eq_some'] at h
            obtain ⟨a, _, rfl⟩ := h
            simp
        · rw [if_neg h2, Option.map_eq_some'] at h
          obtain ⟨a, _, rfl⟩ := h
          simp

/-- Whatever `handle_input_output` returns: with the input `stdin` the
standard input is inherited; with another input the file is opened for
standard input when the function returns 0, and not looked at when the
function returns at the error check of the output file. -/
theorem handle_input_output_stdin (access : List Char → Int) (fopen : List Char → Bool)
    (sub : Subcommand) (r : Int × StdoutAction × StdinAction)
    (h : handle_input_output access fopen sub = some r) :
    (sub.input = "stdin".toList → r.2.2 = StdinAction.inherit) ∧
      (sub.input ≠ "stdin".toList →
        (r.1 = 0 → r.2.2 = StdinAction.open_read sub.input) ∧
        (r.1 ≠ 0 → r.2.2 = StdinAction.inherit)) := by
  have hin : ∀ a : StdinAction,
      (if sub.input ≠ "stdin".toList then
        if fopen sub.input = true then some (StdinAction.open_read sub.input) else none
      else some StdinAction.inherit) = some a →
      (sub.input = "stdin".toList → a = StdinAction.inherit) ∧
        (sub.input ≠ "stdin".toList → a = StdinAction.open_read sub.input) := by
    intro a ha
    by_cases hi : sub.input = "stdin".toList
    · rw [if_neg (not_not.2 hi), Option.some.injEq] at ha
      exact ⟨fun _ => ha.symm, fun h => absurd hi h⟩
    · rw [if_pos hi] at ha
      by_cases hf : fopen sub.input = true
      · rw [if_pos hf, Option.some.injEq] at ha
        exact ⟨fun h => absurd h hi, fun _ => ha.symm⟩
      · rw [if_neg hf] at ha; cases ha
  have hmap : ∀ (x : StdoutAction),
      Option.map (fun a => ((0 : Int), x, a))
        (if sub.input ≠ "stdin".toList then
          if fopen sub.input = true then some (StdinAction.open_read sub.input) else none
        else some StdinAction.inherit) = some r →
      (sub.input = "stdin".toList → r.2.2 = StdinAction.inherit) ∧
      (sub.input ≠ "stdin".toList →
        (r.1 = 0 → r.2.2 = StdinAction.open_read sub.input) ∧
        (r.1 ≠ 0 → r.2.2 = StdinAction.inherit)) := by
    intro x hx
    rw [Option.map_eq_some'] at hx
    obtain ⟨a, ha, rfl⟩ := hx
    exact ⟨(hin a ha).1, fun hne => ⟨fun _ => (hin a ha).2 hne, fun h0 => absurd rfl h0⟩⟩
  have hfail : ∀ (x : StdoutAction), some ((-1 : Int), x, StdinAction.inherit) = some r →
      (sub.input = "stdin".toList → r.2.2 = StdinAction.inherit) ∧
      (sub.input ≠ "stdin".toList →
        (r.1 = 0 → r.2.2 = StdinAction.open_read sub.input) ∧
        (r.1 ≠ 0 → r.2.2 = StdinAction.inherit)) := by
    intro x hx
    cases hx
    exact ⟨fun _ => rfl, fun _ => ⟨fun h0 => by simp at h0, fun _ => rfl⟩⟩
  unfold handle_input_output at h
  simp only at h
  by_cases ho : sub.output = "stdout".toList
  · rw [if_neg (not_not.2 ho)] at h
    exact hmap _ h
  · rw [if_pos ho] at h
    cases ht : sub.type with
    | none => rw [ht] at h; cases h
    | some t =>
      rw [ht] at h
      simp only at h
      by_cases h1 : t = Token.REDIRECT_OUTPUT_TRUNCATE
      · rw [if_pos h1] at h
        by_cases ha : access sub.output ≠ 0
        · rw [if_pos ha] at h; exact hfail _ h
        · rw [if_neg ha] at h; exact hmap _ h
      · rw [if_neg h1] at h
        by_cases h2 : t = Token.REDIRECT_OUTPUT_APPEND
        · rw [if_pos h2] at h
          by_cases ha : access sub.output ≠ 0
          · rw [if_pos ha] at h; exact hfail _ h
          · rw [if_neg ha] at h; exact hmap _ h
        · rw [if_neg h2] at h
          exact hmap _ h

/-- On a stage whose `type` has been written, `handle_input_output` returns
when `fopen` opens the input. -/
theorem handle_input_output_isSome (access : List Char → Int) (fopen : List Char → Bool)
    (sub : Subcommand) (htype : sub.type ≠ none) (hopen : fopen sub.input = true) :
    ∃ r, handle_input_output access fopen sub = some r := by
  unfold handle_input_output
  simp only [hopen, if_true]
  cases ht : sub.type with
  | none => exact absurd ht htype
  | some t =>
    simp only
    split_ifs <;> exact ⟨_, rfl⟩

/-- C35, counterexample: the stage marks an inherited stream by the strings
`stdout` and `stdin`. For the line `cmd > stdout` the parser stores the output
`stdout` with the type of the operator, and `handle_input_output` takes the
inherit branch for it; likewise for `cmd < stdin`, for which
`check_validity_of_files` makes no file check either. -/
theorem handle_input_output_file_named_stdout :
    parse_commandline [] (read_commandline "cmd > stdout".toList 12) [] =
      some ⟨0, [], [⟨[some "cmd".toList, none], "stdin".toList, "stdout".toList,
        some Token.REDIRECT_OUTPUT_TRUNCATE⟩]⟩ ∧
    (∀ access fopen, handle_input_output access fopen
        ⟨[some "cmd".toList, none], "stdin".toList, "stdout".toList,
          some Token.REDIRECT_OUTPUT_TRUNCATE⟩ =
      some (0, StdoutAction.inherit, StdinAction.inherit)) ∧
    parse_commandline [] (read_commandline "cmd < stdin".toList 11) [] =
      some ⟨0, [], [⟨[some "cmd".toList, none], "stdin".toList, "stdout".toList,
        some Token.REDIRECT_INPUT⟩]⟩ ∧
    (∀ access fopen, handle_input_output access fopen
        ⟨[some "cmd".toList, none], "stdin".toList, "stdout".toList,
          some Token.REDIRECT_INPUT⟩ =
      some (0, StdoutAction.inherit, StdinAction.inherit)) ∧
    (check_validity_of_files ⟨fun _ => -1, fun _ => 0, fun _ => 1⟩
        ⟨[some "cmd".toList, none], "stdin".toList, "stdout".toList,
          some Token.REDIRECT_INPUT⟩ ⟨[0, 1, 2], []⟩) = (0, ⟨[0, 1, 2], []⟩) := by
  refine ⟨by decide, fun _ _ => rfl, by decide, fun _ _ => rfl, by decide⟩

/-- C35, amended: take an external stage that begins with a plain word and in
which `get_input_output` resolves a redirect operator with the entry `file`
behind it (the operator is reached within twenty iterations, and no operator
of the same direction follows). The stage is built, `handle_input_output`
returns on it when `fopen` opens its input, and whatever it returns, with
whatever `access` and `fopen` give: for an output operator it has taken the
redirect branch for standard output exactly when the filename is not
`stdout`; for an input operator it has inherited the standard input when the
filename is `stdin`, and with another filename it has opened the file for
standard input when it returns 0, and has not come to the input when it
returns -1 at the error check of the output file. -/
theorem handle_input_output_redirect_branch (access : List Char → Int)
    (fopen : List Char → Bool) (list_commands : List Subcommand) (first : Argument)
    (pre post : List Argument) (op file : Argument) (k : Nat)
    (hfirst : first.token = Token.NORMAL)
    (hext : check_internal_command (first :: pre ++ op :: file :: post) = some 1)
    (hsteps : resolve_steps (first :: pre) = some k) (hk : k < 20)
    (hterm : (file :: post).getLast? = some (Argument.mk [] Token.NORMAL)) :
    ∃ sub args, make_subcommand list_commands (first :: pre ++ op :: file :: post) =
        some (list_commands ++ [sub], args) ∧
      (fopen sub.input = true → ∃ r, handle_input_output access fopen sub = some r) ∧
      ∀ r, handle_input_output access fopen sub = some r →
        (op.token = Token.REDIRECT_OUTPUT_TRUNCATE ∨ op.token = Token.REDIRECT_OUTPUT_APPEND →
          (∀ e ∈ post, e.token ≠ Token.REDIRECT_OUTPUT_TRUNCATE ∧
            e.token ≠ Token.REDIRECT_OUTPUT_APPEND) →
          (r.2.1 ≠ StdoutAction.inherit ↔ file.contents ≠ "stdout".toList)) ∧
        (op.token = Token.REDIRECT_INPUT → (∀ e ∈ post, e.token ≠ Token.REDIRECT_INPUT) →
          (file.contents = "stdin".toList → r.2.2 = StdinAction.inherit) ∧
          (file.contents ≠ "stdin".toList →
            (r.1 = 0 → r.2.2 = StdinAction.open_read file.contents) ∧
            (r.1 ≠ 0 → r.2.2 = StdinAction.inherit))) := by
  have hlast : (first :: (pre ++ op :: file :: post)).getLast? =
      some (Argument.mk [] Token.NORMAL) := by
    rw [show first :: (pre ++ op :: file :: post) = (first :: pre ++ [op]) ++ (file :: post) by
      simp, List.getLast?_append, hterm]
    rfl
  obtain ⟨sub, args, hm⟩ := make_subcommand_isSome list_commands first
    (pre ++ op :: file :: post) hfirst hext hlast
  obtain ⟨hin, hout, htype⟩ := make_subcommand_resolved_operand list_commands (first :: pre)
    post op file k hext hsteps hk sub args hm
  refine ⟨sub, args, hm, handle_input_output_isSome access fopen sub htype, fun r hr => ⟨?_, ?_⟩⟩
  · intro h1 h2
    rw [← hout h1 h2]
    exact handle_input_output_stdout access fopen sub r hr
  · intro h1 h2
    rw [← hin h1 h2]
    exact handle_input_output_stdin access fopen sub r hr

theorem handle_input_output_redirect_branch_witness :
    ∃ sub args, make_subcommand []
          (⟨"cat".toList, Token.NORMAL⟩ ::
            [⟨"<".toList, Token.REDIRECT_INPUT⟩, ⟨"in".toList, Token.NORMAL⟩] ++
            ⟨">".toList, Token.REDIRECT_OUTPUT_TRUNCATE⟩ :: ⟨"out".toList, Token.NORMAL⟩ ::
              [Argument.mk [] Token.NORMAL]) =
        some ([] ++ [sub], args) ∧
      ((fun _ : List Char => true) sub.input = true →
        ∃ r, handle_input_output (fun _ => -1) (fun _ => true) sub = some r) ∧
      ∀ r, handle_input_output (fun _ => -1) (fun _ => true) sub = some r →
        ((⟨">".toList, Token.REDIRECT_OUTPUT_TRUNCATE⟩ : Argument).token =
              Token.REDIRECT_OUTPUT_TRUNCATE ∨
            (⟨">".toList, Token.REDIRECT_OUTPUT_TRUNCATE⟩ : Argument).token =
              Token.REDIRECT_OUTPUT_APPEND →
          (∀ e ∈ [Argument.mk [] Token.NORMAL], e.token ≠ Token.REDIRECT_OUTPUT_TRUNCATE ∧
            e.token ≠ Token.REDIRECT_OUTPUT_APPEND) →
          (r.2.1 ≠ StdoutAction.inherit ↔
            (⟨"out".toList, Token.NORMAL⟩ : Argument).contents ≠ "stdout".toList)) ∧
        ((⟨">".toList, Token.REDIRECT_OUTPUT_TRUNCATE⟩ : Argument).token =
            Token.REDIRECT_INPUT →
          (∀ e ∈ [Argument.mk [] Token.NORMAL], e.token ≠ Token.REDIRECT_INPUT) →
          ((⟨"out".toList, Token.NORMAL⟩ : Argument).contents = "stdin".toList →
            r.2.2 = StdinAction.inherit) ∧
          ((⟨"out".toList, Token.NORMAL⟩ : Argument).contents ≠ "stdin".toList →
            (r.1 = 0 → r.2.2 =
              StdinAction.open_read (⟨"out".toList, Token.NORMAL⟩ : Argument).contents) ∧
            (r.1 ≠ 0 → r.2.2 = StdinAction.inherit))) :=
  handle_input_output_redirect_branch (fun _ => -1) (fun _ => true) []
    ⟨"cat".toList, Token.NORMAL⟩
    [⟨"<".toList, Token.REDIRECT_INPUT⟩, ⟨"in".toList, Token.NORMAL⟩]
    [Argument.mk [] Token.NORMAL] ⟨">".toList, Token.REDIRECT_OUTPUT_TRUNCATE⟩
    ⟨"out".toList, Token.NORMAL⟩ 2 (by decide) (by decide) (by decide) (by decide) (by decide)

/-! ## Lookups and updates of the environment list -/

/-- In a list of named entries the lookups of a name that exactly one entry
has return the contents, or the value, of that entry. -/
theorem get_env_of_mem (list : List Environment) (m : List Char) (e : Environment)
    (hnames : ∀ x ∈ list, x.name ≠ none) (he : e ∈ list) (hem : e.name = some m)
    (huniq : ∀ x ∈ list, x.name = some m → x = e) :
    get_env list m = some (some e.contents) ∧
      get_env_value list m = (get_env_variable_value e.contents).map some := by
  induction list with
  | nil => simp at he
  | cons env rest ih =>
    obtain ⟨n, hn, hm⟩ := name_matches_some env m (hnames env (by simp))
    by_cases hnm : n = m
    · subst hnm
      have : env = e := huniq env (by simp) hn
      subst this
      refine ⟨by simp [get_env, hm], ?_⟩
      simp only [get_env_value, hm, beq_self_eq_true]
      cases get_env_variable_value env.contents <;> rfl
    · have hb : (n == m) = false := by simpa using hnm
      have he1 : e ∈ rest := by
        rcases List.mem_cons.1 he with rfl | h
        · rw [hn] at hem; exact absurd (Option.some.inj hem) hnm
        · exact h
      obtain ⟨h1, h2⟩ := ih (fun x hx => hnames x (by simp [hx])) he1
        (fun x hx => huniq x (by simp [hx]))
      exact ⟨by simp [get_env, hm, hb, h1], by simp [get_env_value, hm, hb, h2]⟩

/-- The lookups in a list of named entries with distinct names do not depend
on the order of the entries. -/
theorem get_env_reverse (list : List Environment) (m : List Char)
    (hnames : ∀ x ∈ list, x.name ≠ none)
    (hunique : (list.map fun x => x.name).Nodup) :
    get_env list.reverse m = get_env list m ∧
      get_env_value list.reverse m = get_env_value list m := by
  have hnames1 : ∀ x ∈ list.reverse, x.name ≠ none := fun x hx =>
    hnames x (List.mem_reverse.1 hx)
  by_cases hpres : ∃ e ∈ list, e.name = some m
  · obtain ⟨e, he, hem⟩ := hpres
    have huniq : ∀ x ∈ list, x.name = some m → x = e := fun x hx hxm =>
      List.inj_on_of_nodup_map hunique hx he (by rw [hxm, hem])
    obtain ⟨h1, h2⟩ := get_env_of_mem list m e hnames he hem huniq
    obtain ⟨h3, h4⟩ := get_env_of_mem list.reverse m e hnames1 (List.mem_reverse.2 he) hem
      (fun x hx => huniq x (List.mem_reverse.1 hx))
    exact ⟨by rw [h1, h3], by rw [h2, h4]⟩
  · have habs : ∀ x ∈ list, x.name ≠ some m := fun x hx hxm => hpres ⟨x, hx, hxm⟩
    obtain ⟨_, h1, h2⟩ := unset_env_absent list m hnames habs
    obtain ⟨_, h3, h4⟩ := unset_env_absent list.reverse m hnames1
      (fun x hx => habs x (List.mem_reverse.1 hx))
    exact ⟨by rw [h1, h3], by rw [h2, h4]⟩

/-- What `set_env` does to the names of the list and to the lookup of another
name. -/
theorem set_env_frame (list : List Environment) (n m v : List Char) (hnm : n ≠ m)
    (hnames : ∀ e ∈ list, e.name ≠ none) :
    ∃ list1, set_env list n v = some (0, list1) ∧ get_env list1 m = get_env list m ∧
      ((∃ e ∈ list, e.name = some n) →
        (list1.map fun e => e.name) = list.map fun e => e.name) ∧
      ((∀ e ∈ list, e.name ≠ some n) →
        (list1.map fun e => e.name) = (list.map fun e => e.name) ++ [some n]) := by
  induction list with
  | nil =>
    refine ⟨_, rfl, ?_, fun h => ?_, fun _ => rfl⟩
    · have hb : (n == m) = false := by simpa using hnm
      simp [get_env, name_matches, set_env_update_contents, hb]
    · obtain ⟨e, he, _⟩ := h
      simp at he
  | cons env rest ih =>
    obtain ⟨k, hk, hmatch⟩ := name_matches_some env n (hnames env (by simp))
    obtain ⟨list1, h1, h2, h3, h4⟩ := ih (fun e he => hnames e (by simp [he]))
    have hm_env : name_matches env m = some (k == m) := by simp [name_matches, hk]
    by_cases hkn : k = n
    · subst hkn
      have hb : (k == m) = false := by simpa using hnm
      refine ⟨set_env_update_contents env k v :: rest, by simp [set_env, hmatch], ?_,
        fun _ => by simp [set_env_update_contents], fun h => ?_⟩
      · have : name_matches (set_env_update_contents env k v) m = some (k == m) := by
          simp [name_matches, set_env_update_contents, hk]
        simp [get_env, this, hm_env, hb]
      · exact absurd hk (h env (by simp))
    · have hb : (k == n) = false := by simpa using hkn
      refine ⟨env :: list1, by simp [set_env, hmatch, hb, h1], ?_, fun h => ?_, fun h => ?_⟩
      · simp only [get_env, hm_env]
        cases (k == m) <;> simp [h2]
      · have : ∃ e ∈ rest, e.name = some n := by
          obtain ⟨e, he, hen⟩ := h
          rcases List.mem_cons.1 he with rfl | h5
          · rw [hk] at hen; exact absurd (Option.some.inj hen) hkn
          · exact ⟨e, h5, hen⟩
        simp [h3 this]
      · simp [h4 fun e he => h e (by simp [he])]

/-- The list that `unset_env` leaves is the list without one of its entries,
or the list itself. -/
theorem unset_env_sublist (list : List Environment) (n : List Char)
    (hnames : ∀ e ∈ list, e.name ≠ none) :
    ∃ r list2, unset_env list n = some (r, list2) ∧ list2.Sublist list := by
  by_cases hpres : ∃ e ∈ list, e.name = some n
  · obtain ⟨pre, entry, post, hl, _, _, hu⟩ := unset_env_present list n hnames hpres
    refine ⟨_, _, hu, ?_⟩
    rw [hl]
    exact List.Sublist.append (List.Sublist.refl pre) (List.sublist_cons_self entry post)
  · have habs : ∀ e ∈ list, e.name ≠ some n := fun e he hen => hpres ⟨e, he, hen⟩
    exact ⟨_, _, (unset_env_absent list n hnames habs).1, List.Sublist.refl list⟩

/-! ## C32 and C33 -/

/-- C32, counterexample: the rebuild derives the name of every entry from its
contents, up to the first `=`. After `set_env(list, "A=B", "c")` on the empty
list the lookup of `A=B` finds `A=B=c`; after the snapshot-and-rebuild step the
entry is named `A`, and the lookup of `A=B` returns NULL. -/
theorem make_env_list_renames_entry :
    set_env [] "A=B".toList "c".toList =
      some (0, [⟨some "A=B".toList, "A=B=c".toList⟩]) ∧
    get_env [⟨some "A=B".toList, "A=B=c".toList⟩] "A=B".toList =
      some (some "A=B=c".toList) ∧
    make_env_list (clear_list_env [⟨some "A=B".toList, "A=B=c".toList⟩])
        (make_env_array [⟨some "A=B".toList, "A=B=c".toList⟩]) =
      [⟨some "A".toList, "A=B=c".toList⟩] ∧
    get_env
        (make_env_list (clear_list_env [⟨some "A=B".toList, "A=B=c".toList⟩])
          (make_env_array [⟨some "A=B".toList, "A=B=c".toList⟩]))
        "A=B".toList = some none := by
  refine ⟨by decide, by decide, by decide, by decide⟩

/-- C32, amended: for a list of named entries in which the name of every entry
is the part of its contents that `get_env_variable_name` gives, and no two
entries share a name, the snapshot-and-rebuild step (`make_env_array`, then
`clear_list_env`, then `make_env_list` from the snapshot) leaves the lookups
as they are: `get_env` and `get_env_value` return for every name what they
returned before. -/
theorem make_env_list_keeps_lookups (list : List Environment) (m : List Char)
    (hnames : ∀ e ∈ list, e.name ≠ none)
    (hderived : ∀ e ∈ list, e.name = get_env_variable_name e.contents)
    (hunique : (list.map fun e => e.name).Nodup) :
    get_env (make_env_list (clear_list_env list) (make_env_array list)) m = get_env list m ∧
    get_env_value (make_env_list (clear_list_env list) (make_env_array list)) m =
      get_env_value list m := by
  have harr : make_env_array list = (list.map fun e => e.contents).map some ++ none :: [] := by
    rw [make_env_array_eq]
    simp [Function.comp_def]
  have hlist : make_env_list (clear_list_env list) (make_env_array list) = list.reverse := by
    rw [harr, clear_list_env, make_env_list_eq, List.append_nil, ← List.map_reverse,
      List.map_map]
    have : ∀ e ∈ list.reverse,
        ((fun contents => (⟨get_env_variable_name contents, contents⟩ : Environment)) ∘
          fun e => e.contents) e = e := by
      intro e he
      show (⟨get_env_variable_name e.contents, e.contents⟩ : Environment) = e
      rw [← hderived e (List.mem_reverse.1 he)]
    rw [List.map_congr_left this]
    simp
  rw [hlist]
  exact get_env_reverse list m hnames hunique

theorem make_env_list_keeps_lookups_witness :
    get_env
        (make_env_list
          (clear_list_env [⟨some "A".toList, "A=1".toList⟩, ⟨some "B".toList, "B=2".toList⟩])
          (make_env_array [⟨some "A".toList, "A=1".toList⟩, ⟨some "B".toList, "B=2".toList⟩]))
        "B".toList =
      get_env [⟨some "A".toList, "A=1".toList⟩, ⟨some "B".toList, "B=2".toList⟩] "B".toList ∧
    get_env_value
        (make_env_list
          (clear_list_env [⟨some "A".toList, "A=1".toList⟩, ⟨some "B".toList, "B=2".toList⟩])
          (make_env_array [⟨some "A".toList, "A=1".toList⟩, ⟨some "B".toList, "B=2".toList⟩]))
        "B".toList =
      get_env_value [⟨some "A".toList, "A=1".toList⟩, ⟨some "B".toList, "B=2".toList⟩]
        "B".toList :=
  make_env_list_keeps_lookups _ _ (by decide) (by decide) (by decide)

/-- C33: for a list of named entries, distinct names `n` and `m` and a value
`v`, `set_env(list, n, v)` returns 0 and leaves `get_env(list, m)` as it is;
the list has the same length when an entry named `n` was there and one entry
more when none was; and when no two entries shared a name before the call,
none do after it, nor after `unset_env(list, n)`. -/
theorem set_env_other_names (list : List Environment) (n m v : List Char)
    (hnm : n ≠ m) (hnames : ∀ e ∈ list, e.name ≠ none) :
    (∃ list1, set_env list n v = some (0, list1) ∧ get_env list1 m = get_env list m ∧
      ((∃ e ∈ list, e.name = some n) → list1.length = list.length) ∧
      ((∀ e ∈ list, e.name ≠ some n) → list1.length = list.length + 1) ∧
      ((list.map fun e => e.name).Nodup → (list1.map fun e => e.name).Nodup)) ∧
    (∃ r list2, unset_env list n = some (r, list2) ∧
      ((list.map fun e => e.name).Nodup → (list2.map fun e => e.name).Nodup)) := by
  obtain ⟨list1, h1, h2, h3, h4⟩ := set_env_frame list n m v hnm hnames
  obtain ⟨r, list2, h5, h6⟩ := unset_env_sublist list n hnames
  refine ⟨⟨list1, h1, h2, fun hp => ?_, fun ha => ?_, fun hu => ?_⟩,
    ⟨r, list2, h5, fun hu => hu.sublist (h6.map _)⟩⟩
  · have := congrArg List.length (h3 hp)
    simpa using this
  · have := congrArg List.length (h4 ha)
    simpa using this
  · by_cases hp : ∃ e ∈ list, e.name = some n
    · rw [h3 hp]; exact hu
    · have ha : ∀ e ∈ list, e.name ≠ some n := fun e he hen => hp ⟨e, he, hen⟩
      rw [h4 ha]
      refine List.Nodup.append hu (List.nodup_singleton _) ?_
      intro x hx hx2
      rw [List.mem_singleton] at hx2
      subst hx2
      obtain ⟨e, he, hen⟩ := List.mem_map.1 hx
      exact ha e he hen

theorem set_env_other_names_witness :
    (∃ list1,
      set_env [⟨some "A".toList, "A=1".toList⟩, ⟨some "B".toList, "B=2".toList⟩]
        "C".toList "3".toList = some (0, list1) ∧
      get_env list1 "B".toList =
        get_env [⟨some "A".toList, "A=1".toList⟩, ⟨some "B".toList, "B=2".toList⟩]
          "B".toList ∧
      ((∃ e ∈ [(⟨some "A".toList, "A=1".toList⟩ : Environment),
            ⟨some "B".toList, "B=2".toList⟩], e.name = some "C".toList) →
        list1.length =
          [(⟨some "A".toList, "A=1".toList⟩ : Environment),
            ⟨some "B".toList, "B=2".toList⟩].length) ∧
      ((∀ e ∈ [(⟨some "A".toList, "A=1".toList⟩ : Environment),
            ⟨some "B".toList, "B=2".toList⟩], e.name ≠ some "C".toList) →
        list1.length =
          [(⟨some "A".toList, "A=1".toList⟩ : Environment),
            ⟨some "B".toList, "B=2".toList⟩].length + 1) ∧
      (([(⟨some "A".toList, "A=1".toList⟩ : Environment),
            ⟨some "B".toList, "B=2".toList⟩].map fun e => e.name).Nodup →
        (list1.map fun e => e.name).Nodup)) ∧
    (∃ r list2,
      unset_env [⟨some "A".toList, "A=1".toList⟩, ⟨some "B".toList, "B=2".toList⟩]
        "C".toList = some (r, list2) ∧
      (([(⟨some "A".toList, "A=1".toList⟩ : Environment),
            ⟨some "B".toList, "B=2".toList⟩].map fun e => e.name).Nodup →
        (list2.map fun e => e.name).Nodup)) :=
  set_env_other_names _ "C".toList "B".toList "3".toList (by decide) (by decide)

/-! ## Theorems: the circular lists in memory -/

theorem Memory.list_add_next (m : Memory) (new head u : Nat) :
    (m.list_add new head).next u =
      if u = head then new else if u = new then m.next head else m.next u := by
  simp only [Memory.list_add, Memory.set_next, Memory.set_prev, Function.update_apply]

theorem Memory.list_add_prev (m : Memory) (new head v : Nat) :
    (m.list_add new head).prev v =
      if v = new then head else if v = m.next head then new else m.prev v := by
  simp only [Memory.list_add, Memory.set_next, Memory.set_prev, Function.update_apply]

theorem Memory.list_add_tail_next (m : Memory) (new head u : Nat) :
    (m.list_add_tail new head).next u =
      if u = new then head else if u = m.prev head then new else m.next u := by
  simp only [Memory.list_add_tail, Memory.set_next, Memory.set_prev, Function.update_apply]

theorem Memory.list_add_tail_prev (m : Memory) (new head v : Nat) :
    (m.list_add_tail new head).prev v =
      if v = head then new else if v = new then m.prev head else m.prev v := by
  simp only [Memory.list_add_tail, Memory.set_next, Memory.set_prev, Function.update_apply]

theorem Memory.list_del_next (m : Memory) (entry u : Nat) :
    (m.list_del entry).next u =
      if u = entry then entry else if u = m.prev entry then m.next entry else m.next u := by
  simp only [Memory.list_del, Memory.set_next, Memory.set_prev, Function.update_apply]

theorem Memory.list_del_prev (m : Memory) (entry v : Nat) :
    (m.list_del entry).prev v =
      if v = entry then entry else if v = m.next entry then m.prev entry else m.prev v := by
  simp only [Memory.list_del, Memory.set_next, Memory.set_prev, Function.update_apply]

/-- A path stays a path in a memory that has the same `next` fields on its
nodes but the last and the same `prev` fields on its nodes but the first. -/
theorem Memory.is_chain_frame (m m1 : Memory) :
    ∀ (xs : List Nat) (a b : Nat), m.is_chain a xs b →
      (∀ u ∈ a :: xs, m1.next u = m.next u) → (∀ v ∈ xs ++ [b], m1.prev v = m.prev v) →
      m1.is_chain a xs b := by
  intro xs
  induction xs with
  | nil =>
    intro a b h hn hp
    simp only [Memory.is_chain] at h ⊢
    rw [hn a (by simp), hp b (by simp)]
    exact h
  | cons x xs ih =>
    intro a b h hn hp
    simp only [Memory.is_chain] at h ⊢
    rw [hn a (by simp), hp x (by simp)]
    exact ⟨h.1, h.2.1, ih x b h.2.2 (fun u hu => hn u (by simp [hu]))
      (fun v hv => hp v (by simp [hv]))⟩

/-- On a path from `a` to `b` the `prev` field of `b` is `a` or a node of the
path. -/
theorem Memory.is_chain_prev_mem (m : Memory) :
    ∀ (xs : List Nat) (a b : Nat), m.is_chain a xs b → m.prev b ∈ a :: xs := by
  intro xs
  induction xs with
  | nil => intro a b h; simp only [Memory.is_chain] at h; simp [h.2]
  | cons x xs ih =>
    intro a b h
    simp only [Memory.is_chain] at h
    exact List.mem_cons_of_mem _ (ih x b h.2.2)

/-- On a path from `a` to `b` the `next` field of `a` is a node of the path or
`b`. -/
theorem Memory.is_chain_next_mem (m : Memory) (xs : List Nat) (a b : Nat)
    (h : m.is_chain a xs b) : m.next a ∈ xs ++ [b] := by
  cases xs with
  | nil => simp only [Memory.is_chain] at h; simp [h.1]
  | cons x xs => simp only [Memory.is_chain] at h; simp [h.1]

/-- A path through `pre`, `x` and `post` is a path to `x` followed by a path
from `x`. -/
theorem Memory.is_chain_append (m : Memory) (x : Nat) (post : List Nat) (b : Nat) :
    ∀ (pre : List Nat) (a : Nat),
      m.is_chain a (pre ++ x :: post) b ↔ m.is_chain a pre x ∧ m.is_chain x post b := by
  intro pre
  induction pre with
  | nil => intro a; simp only [List.nil_append, Memory.is_chain]; tauto
  | cons p ps ih =>
    intro a
    have h1 : m.is_chain a (p :: (ps ++ x :: post)) b ↔
        m.next a = p ∧ m.prev p = a ∧ m.is_chain p (ps ++ x :: post) b := Iff.rfl
    have h2 : m.is_chain a (p :: ps) x ↔
        m.next a = p ∧ m.prev p = a ∧ m.is_chain p ps x := Iff.rfl
    rw [List.cons_append, h1, h2, ih p]
    tauto

/-- `list_add` on a well-formed list puts the new node first. -/
theorem Memory.list_add_front (m : Memory) (head : Nat) (s : List Nat) (x : Nat)
    (hwf : m.represents head s) (hfresh : x ∉ head :: s) :
    (m.list_add x head).represents head (x :: s) := by
  obtain ⟨hnd, hch⟩ := hwf
  have hxh : x ≠ head := fun e => hfresh (by simp [e])
  have hxs : x ∉ s := fun e => hfresh (by simp [e])
  have hhs : head ∉ s := (List.nodup_cons.1 hnd).1
  refine ⟨List.nodup_cons.2 ⟨?_, List.nodup_cons.2 ⟨hxs, (List.nodup_cons.1 hnd).2⟩⟩, ?_⟩
  · intro h
    rcases List.mem_cons.1 h with h1 | h1
    · exact hxh h1.symm
    · exact hhs h1
  · cases s with
    | nil =>
      simp only [Memory.is_chain] at hch
      simp only [Memory.is_chain, Memory.list_add_next, Memory.list_add_prev, hch.1]
      simp [hxh, hxh.symm]
    | cons y ys =>
      simp only [Memory.is_chain] at hch
      obtain ⟨h1, h2, h3⟩ := hch
      have hyh : y ≠ head := fun e => hhs (by simp [e])
      have hyx : y ≠ x := fun e => hxs (by simp [e])
      have hnd2 : (y :: ys).Nodup := (List.nodup_cons.1 hnd).2
      have hys : y ∉ ys := (List.nodup_cons.1 hnd2).1
      simp only [Memory.is_chain, Memory.list_add_next, Memory.list_add_prev, h1]
      refine ⟨by simp, by simp, by simp [hxh], by simp [hyx], ?_⟩
      refine Memory.is_chain_frame m _ ys y head h3 (fun u hu => ?_) (fun v hv => ?_)
      · have huh : u ≠ head := fun e => hhs (e ▸ hu)
        have hux : u ≠ x := fun e => hxs (e ▸ hu)
        simp [Memory.list_add_next, huh, hux]
      · have hvx : v ≠ x := by
          rintro rfl
          rcases List.mem_append.1 hv with h | h
          · exact hxs (List.mem_cons_of_mem _ h)
          · exact hxh (List.mem_singleton.1 h)
        have hvy : v ≠ y := by
          rintro rfl
          rcases List.mem_append.1 hv with h | h
          · exact hys h
          · exact hyh (List.mem_singleton.1 h)
        simp [Memory.list_add_prev, h1, hvx, hvy]

/-- `list_add_tail` before the node `b` that ends a path: the new node joins
the end of the path. -/
theorem Memory.list_add_tail_chain (m : Memory) (b x : Nat) (hxb : x ≠ b) :
    ∀ (xs : List Nat) (a : Nat), m.is_chain a xs b → (a :: xs).Nodup → b ∉ xs →
      x ∉ a :: xs → (m.list_add_tail x b).is_chain a (xs ++ [x]) b := by
  intro xs
  induction xs with
  | nil =>
    intro a h _ _ hx
    have hxa : x ≠ a := fun e => hx (by simp [e])
    simp only [Memory.is_chain] at h
    simp only [List.nil_append, Memory.is_chain, Memory.list_add_tail_next,
      Memory.list_add_tail_prev, h.2]
    simp [hxa, hxa.symm, hxb]
  | cons y ys ih =>
    intro a h hnd hb hx
    simp only [Memory.is_chain] at h
    obtain ⟨h1, h2, h3⟩ := h
    have hnd2 : (y :: ys).Nodup := (List.nodup_cons.1 hnd).2
    have hay : a ∉ y :: ys := (List.nodup_cons.1 hnd).1
    have hax : a ≠ x := fun e => hx (by simp [e])
    have hyb : y ≠ b := fun e => hb (by simp [e])
    have hyx : y ≠ x := fun e => hx (by simp [e])
    have hprev : a ≠ m.prev b := fun e => hay (e ▸ Memory.is_chain_prev_mem m ys y b h3)
    have hrec := ih y h3 hnd2 (fun e => hb (by simp [e]))
      (fun e => hx (List.mem_cons_of_mem _ e))
    show (m.list_add_tail x b).next a = y ∧ (m.list_add_tail x b).prev y = a ∧
      (m.list_add_tail x b).is_chain y (ys ++ [x]) b
    refine ⟨?_, ?_, hrec⟩
    · simp [Memory.list_add_tail_next, hax, hprev, h1]
    · simp [Memory.list_add_tail_prev, hyb, hyx, h2]

/-- `list_add_tail` on a well-formed list puts the new node last. -/
theorem Memory.list_add_tail_back (m : Memory) (head : Nat) (s : List Nat) (x : Nat)
    (hwf : m.represents head s) (hfresh : x ∉ head :: s) :
    (m.list_add_tail x head).represents head (s ++ [x]) := by
  obtain ⟨hnd, hch⟩ := hwf
  have hxh : x ≠ head := fun e => hfresh (by simp [e])
  have hxs : x ∉ s := fun e => hfresh (by simp [e])
  have hhs : head ∉ s := (List.nodup_cons.1 hnd).1
  refine ⟨?_, Memory.list_add_tail_chain m head x hxh s head hch hnd hhs hfresh⟩
  rw [List.nodup_cons] at hnd ⊢
  refine ⟨?_, List.Nodup.append hnd.2 (List.nodup_singleton x) ?_⟩
  · intro h
    rcases List.mem_append.1 h with h1 | h1
    · exact hhs h1
    · exact hxh (List.mem_singleton.1 h1).symm
  · intro u hu hu2
    rw [List.mem_singleton] at hu2
    exact hxs (hu2 ▸ hu)

/-- `list_del` of a node of a path: the path closes over the gap. -/
theorem Memory.list_del_chain (m : Memory) (x : Nat) (post : List Nat) (b : Nat) :
    ∀ (pre : List Nat) (a : Nat), m.is_chain a (pre ++ x :: post) b →
      (a :: (pre ++ x :: post)).Nodup → b ∉ pre ++ x :: post →
      (m.list_del x).is_chain a (pre ++ post) b := by
  intro pre
  induction pre with
  | nil =>
    intro a h hnd hb
    simp only [List.nil_append] at h hnd hb ⊢
    simp only [Memory.is_chain] at h
    obtain ⟨h1, h2, h3⟩ := h
    have hax : a ≠ x := fun e => (List.nodup_cons.1 hnd).1 (by simp [e])
    have hbx : b ≠ x := fun e => hb (by simp [e])
    have hnd2 : (x :: post).Nodup := (List.nodup_cons.1 hnd).2
    cases post with
    | nil =>
      simp only [Memory.is_chain] at h3 ⊢
      simp [Memory.list_del_next, Memory.list_del_prev, h2, h3.1, hax, hbx]
    | cons z zs =>
      simp only [Memory.is_chain] at h3
      obtain ⟨h4, h5, h6⟩ := h3
      have hzx : z ≠ x := fun e => (List.nodup_cons.1 hnd2).1 (by simp [e])
      have hnd3 : (z :: zs).Nodup := (List.nodup_cons.1 hnd2).2
      show (m.list_del x).next a = z ∧ (m.list_del x).prev z = a ∧
        (m.list_del x).is_chain z zs b
      refine ⟨by simp [Memory.list_del_next, hax, h2, h4],
        by simp [Memory.list_del_prev, hzx, h4, h2], ?_⟩
      refine Memory.is_chain_frame m _ zs z b h6 (fun u hu => ?_) (fun v hv => ?_)
      · have hux : u ≠ x := fun e => (List.nodup_cons.1 hnd2).1 (e ▸ hu)
        have hua : u ≠ a := fun e => (List.nodup_cons.1 hnd).1
          (List.mem_cons_of_mem _ (e ▸ hu))
        simp [Memory.list_del_next, hux, h2, hua]
      · have hvx : v ≠ x := by
          rintro rfl
          rcases List.mem_append.1 hv with h | h
          · exact (List.nodup_cons.1 hnd2).1 (List.mem_cons_of_mem _ h)
          · exact hbx (List.mem_singleton.1 h).symm
        have hvz : v ≠ z := by
          rintro rfl
          rcases List.mem_append.1 hv with h | h
          · exact (List.nodup_cons.1 hnd3).1 h
          · exact hb (by simp [(List.mem_singleton.1 h).symm])
        simp [Memory.list_del_prev, hvx, h4, hvz]
  | cons p ps ih =>
    intro a h hnd hb
    have h0 : m.next a = p ∧ m.prev p = a ∧ m.is_chain p (ps ++ x :: post) b := h
    obtain ⟨h1, h2, h3⟩ := h0
    have hnd2 : (p :: (ps ++ x :: post)).Nodup := (List.nodup_cons.1 hnd).2
    have hrec := ih p h3 hnd2 (fun e => hb (List.mem_cons_of_mem _ e))
    have hsplit := (Memory.is_chain_append m x post b ps p).1 h3
    have hax : a ≠ x := fun e => (List.nodup_cons.1 hnd).1 (by simp [e])
    have hpx : p ≠ x := fun e => (List.nodup_cons.1 hnd2).1 (by simp [e])
    have hpre : a ≠ m.prev x := by
      intro e
      have := Memory.is_chain_prev_mem m ps p x hsplit.1
      rw [← e] at this
      exact (List.nodup_cons.1 hnd).1 (by
        rcases List.mem_cons.1 this with h | h
        · simp [h]
        · simp [h])
    have hnext : p ≠ m.next x := by
      intro e
      have := Memory.is_chain_next_mem m post x b hsplit.2
      rw [← e] at this
      rcases List.mem_append.1 this with h | h
      · exact (List.nodup_cons.1 hnd2).1 (by simp [h])
      · exact hb (by simp [(List.mem_singleton.1 h).symm])
    show (m.list_del x).next a = p ∧ (m.list_del x).prev p = a ∧
      (m.list_del x).is_chain p (ps ++ post) b
    exact ⟨by simp [Memory.list_del_next, hax, hpre, h1],
      by simp [Memory.list_del_prev, hpx, hnext, h2], hrec⟩

/-- `list_del` of a node of a well-formed list leaves the well-formed list of
the other nodes, and the node linked to itself. -/
theorem Memory.list_del_represents (m : Memory) (head : Nat) (pre post : List Nat) (x : Nat)
    (hwf : m.represents head (pre ++ x :: post)) :
    (m.list_del x).represents head (pre ++ post) ∧
      (m.list_del x).next x = x ∧ (m.list_del x).prev x = x := by
  obtain ⟨hnd, hch⟩ := hwf
  refine ⟨⟨?_, Memory.list_del_chain m x post head pre head hch hnd
    (List.nodup_cons.1 hnd).1⟩, by simp [Memory.list_del_next], by simp [Memory.list_del_prev]⟩
  refine hnd.sublist ?_
  exact List.Sublist.cons₂ head
    (List.Sublist.append (List.Sublist.refl pre) (List.sublist_cons_self x post))

/-- The loop of `getListLength` along a path to `list` counts the nodes of
the path. -/
theorem Memory.getListLength_loop_chain (m : Memory) (list : Nat) :
    ∀ (xs : List Nat) (a count fuel : Nat), m.is_chain a xs list → list ∉ xs →
      xs.length < fuel →
      m.getListLength_loop list fuel (m.next a) count = some (count + xs.length) := by
  intro xs
  induction xs with
  | nil =>
    intro a count fuel h _ hf
    obtain ⟨f, rfl⟩ : ∃ f, fuel = f + 1 := ⟨fuel - 1, by simp at hf; omega⟩
    simp only [Memory.is_chain] at h
    simp [Memory.getListLength_loop, h.1]
  | cons x xs ih =>
    intro a count fuel h hl hf
    obtain ⟨f, rfl⟩ : ∃ f, fuel = f + 1 := ⟨fuel - 1, by simp at hf; omega⟩
    simp only [Memory.is_chain] at h
    have hx : x ≠ list := fun e => hl (by simp [e])
    rw [h.1, Memory.getListLength_loop, if_neg hx,
      ih x (count + 1) f h.2.2 (fun e => hl (List.mem_cons_of_mem _ e))
        (by simp at hf; omega)]
    simp only [List.length_cons]
    congr 1
    omega

/-- `getListLength` of a well-formed list returns the number of its nodes. -/
theorem Memory.getListLength_represents (m : Memory) (head : Nat) (s : List Nat) (fuel : Nat)
    (hwf : m.represents head s) (hf : s.length < fuel) :
    m.getListLength head fuel = some s.length := by
  have := Memory.getListLength_loop_chain m head s head 0 fuel hwf.2
    (List.nodup_cons.1 hwf.1).1 hf
  simpa [Memory.getListLength] using this

/-- On a path to `e`, `next` leads from every node of the path to a node of
the path or to `e`, and to `e` from the node before `e` only. -/
theorem Memory.is_chain_next_inside (m : Memory) (e : Nat) :
    ∀ (xs : List Nat) (a : Nat), m.is_chain a xs e → e ∉ xs →
      ∀ u ∈ xs, m.next u ∈ xs ++ [e] ∧ (m.next u = e → u = m.prev e) := by
  intro xs
  induction xs with
  | nil => intro a _ _ u hu; simp at hu
  | cons x xs ih =>
    intro a h he u hu
    simp only [Memory.is_chain] at h
    obtain ⟨_, _, h3⟩ := h
    have he2 : e ∉ xs := fun h => he (List.mem_cons_of_mem _ h)
    rcases List.mem_cons.1 hu with rfl | hu1
    · have hmem := Memory.is_chain_next_mem m xs u e h3
      refine ⟨by simp only [List.cons_append]; exact List.mem_cons_of_mem _ hmem, fun hn => ?_⟩
      cases xs with
      | nil => simp only [Memory.is_chain] at h3; exact h3.2.symm
      | cons y ys =>
        simp only [Memory.is_chain] at h3
        rw [h3.1] at hn
        exact absurd hn (fun e1 => he2 (by simp [e1]))
    · obtain ⟨h4, h5⟩ := ih x h3 he2 u hu1
      exact ⟨by simp only [List.cons_append]; exact List.mem_cons_of_mem _ h4, h5⟩

/-- The first and the last node of a non-empty well-formed list are nodes of
its sequence. -/
theorem Memory.represents_ends (m : Memory) (head : Nat) (s : List Nat)
    (hwf : m.represents head s) (hs : s ≠ []) : m.next head ∈ s ∧ m.prev head ∈ s := by
  cases s with
  | nil => exact absurd rfl hs
  | cons x xs =>
    have h : m.next head = x ∧ m.prev x = head ∧ m.is_chain x xs head := hwf.2
    exact ⟨by simp [h.1], Memory.is_chain_prev_mem m xs x head h.2.2⟩

theorem Memory.list_splice_next (m : Memory) (list head u : Nat) :
    (m.list_splice list head).next u =
      if u = m.prev list then m.next head
      else if u = m.prev head then m.next list else m.next u := by
  simp only [Memory.list_splice, Memory.set_next, Memory.set_prev, Function.update_apply]

theorem Memory.list_splice_prev (m : Memory) (list head v : Nat) :
    (m.list_splice list head).prev v =
      if v = m.next head then m.prev list
      else if v = m.next list then m.prev head else m.prev v := by
  simp only [Memory.list_splice, Memory.set_next, Memory.set_prev, Function.update_apply]

/-- A walk that cannot leave a set of nodes other than `list` never ends. -/
theorem Memory.getListLength_loop_inside (m : Memory) (list : Nat) (nodes : List Nat)
    (hlist : list ∉ nodes) (hclosed : ∀ u ∈ nodes, m.next u ∈ nodes) :
    ∀ (fuel curr count : Nat), curr ∈ nodes →
      m.getListLength_loop list fuel curr count = none := by
  intro fuel
  induction fuel with
  | zero => intro curr count _; rfl
  | succ f ih =>
    intro curr count hc
    have hne : curr ≠ list := fun e => hlist (e ▸ hc)
    rw [Memory.getListLength_loop, if_neg hne]
    exact ih _ _ (hclosed curr hc)

/-- `list_splice` of two well-formed non-empty lists on distinct nodes: the
walk along `next` from `head` goes to a node of the two sequences and stays on
these nodes, which do not include `head`; it never returns to `head`, and
`getListLength(head)` does not terminate. -/
theorem Memory.list_splice_never_returns (m : Memory) (list head : Nat) (a b : List Nat)
    (hlist : m.represents list a) (hhead : m.represents head b)
    (ha : a ≠ []) (hb : b ≠ []) (hdisj : (list :: a ++ head :: b).Nodup) :
    (m.list_splice list head).next head ∈ a ++ b ∧
    (∀ u ∈ a ++ b, (m.list_splice list head).next u ∈ a ++ b) ∧
    head ∉ a ++ b ∧
    ∀ fuel, (m.list_splice list head).getListLength head fuel = none := by
  have hla : list ∉ a := (List.nodup_cons.1 hlist.1).1
  have hhb : head ∉ b := (List.nodup_cons.1 hhead.1).1
  have hnd2 : (a ++ head :: b).Nodup := (List.nodup_cons.1 hdisj).2
  have hha : head ∉ a := fun h =>
    (List.nodup_append.1 hnd2).2.2 h (List.mem_cons_self _ _)
  obtain ⟨hA, hB⟩ := Memory.represents_ends m list a hlist ha
  obtain ⟨hC, hD⟩ := Memory.represents_ends m head b hhead hb
  have hhab : head ∉ a ++ b := fun h => by
    rcases List.mem_append.1 h with h1 | h1
    · exact hha h1
    · exact hhb h1
  have hstart : (m.list_splice list head).next head ∈ a ++ b := by
    have h1 : head ≠ m.prev list := fun e => hha (e ▸ hB)
    have h2 : head ≠ m.prev head := fun e => hhb (e ▸ hD)
    rw [Memory.list_splice_next, if_neg h1, if_neg h2]
    exact List.mem_append_right _ hC
  have hclosed : ∀ u ∈ a ++ b, (m.list_splice list head).next u ∈ a ++ b := by
    intro u hu
    rw [Memory.list_splice_next]
    by_cases h1 : u = m.prev list
    · rw [if_pos h1]; exact List.mem_append_right _ hC
    · rw [if_neg h1]
      by_cases h2 : u = m.prev head
      · rw [if_pos h2]; exact List.mem_append_left _ hA
      · rw [if_neg h2]
        rcases List.mem_append.1 hu with h | h
        · obtain ⟨h3, h4⟩ := Memory.is_chain_next_inside m list a list hlist.2 hla u h
          rcases List.mem_append.1 h3 with h5 | h5
          · exact List.mem_append_left _ h5
          · exact absurd (h4 (List.mem_singleton.1 h5)) h1
        · obtain ⟨h3, h4⟩ := Memory.is_chain_next_inside m head b head hhead.2 hhb u h
          rcases List.mem_append.1 h3 with h5 | h5
          · exact List.mem_append_right _ h5
          · exact absurd (h4 (List.mem_singleton.1 h5)) h2
  exact ⟨hstart, hclosed, hhab, fun fuel =>
    Memory.getListLength_loop_inside _ head (a ++ b) hhab hclosed fuel _ 0 hstart⟩

/-! ## C36 and C37 -/

/-- C36: for a well-formed circular list at `head` that represents the
sequence `s` and a node `x` that is not on it, `list_add_tail(x, head)` gives a
well-formed list representing `s` followed by `x`, and `list_add(x, head)` one
representing `x` followed by `s`; `getListLength`, which returns the length of
`s` before, returns one more after either call; and `list_del(x)` after either
call gives back a well-formed list representing `s` and leaves `x` linked to
itself. -/
theorem list_add_list_del_represents (m : Memory) (head : Nat) (s : List Nat) (x : Nat)
    (hwf : m.represents head s) (hfresh : x ∉ head :: s) :
    (m.list_add_tail x head).represents head (list_add_tail x s) ∧
    (m.list_add x head).represents head (list_add x s) ∧
    (∀ fuel, s.length + 1 < fuel →
      m.getListLength head fuel = some s.length ∧
      (m.list_add_tail x head).getListLength head fuel = some (s.length + 1) ∧
      (m.list_add x head).getListLength head fuel = some (s.length + 1)) ∧
    (((m.list_add_tail x head).list_del x).represents head s ∧
      ((m.list_add_tail x head).list_del x).next x = x ∧
      ((m.list_add_tail x head).list_del x).prev x = x) ∧
    (((m.list_add x head).list_del x).represents head s ∧
      ((m.list_add x head).list_del x).next x = x ∧
      ((m.list_add x head).list_del x).prev x = x) := by
  have htail := Memory.list_add_tail_back m head s x hwf hfresh
  have hfront := Memory.list_add_front m head s x hwf hfresh
  refine ⟨htail, hfront, fun fuel hf => ⟨?_, ?_, ?_⟩, ?_, ?_⟩
  · exact Memory.getListLength_represents m head s fuel hwf (by omega)
  · have := Memory.getListLength_represents _ head (s ++ [x]) fuel htail (by simp; omega)
    simpa using this
  · have := Memory.getListLength_represents _ head (x :: s) fuel hfront (by simp; omega)
    simpa using this
  · have := Memory.list_del_represents _ head s [] x htail
    simpa using this
  · have := Memory.list_del_represents _ head [] s x hfront
    simpa using this

theorem list_add_list_del_represents_witness :
    ((⟨fun u => if u = 0 then 1 else 0, fun u => if u = 0 then 1 else 0⟩ :
        Memory).list_add_tail 5 0).represents 0 (list_add_tail 5 [1]) ∧
    ((⟨fun u => if u = 0 then 1 else 0, fun u => if u = 0 then 1 else 0⟩ :
        Memory).list_add 5 0).represents 0 (list_add 5 [1]) ∧
    (∀ fuel, ([1] : List Nat).length + 1 < fuel →
      (⟨fun u => if u = 0 then 1 else 0, fun u => if u = 0 then 1 else 0⟩ :
          Memory).getListLength 0 fuel = some ([1] : List Nat).length ∧
      ((⟨fun u => if u = 0 then 1 else 0, fun u => if u = 0 then 1 else 0⟩ :
          Memory).list_add_tail 5 0).getListLength 0 fuel =
        some (([1] : List Nat).length + 1) ∧
      ((⟨fun u => if u = 0 then 1 else 0, fun u => if u = 0 then 1 else 0⟩ :
          Memory).list_add 5 0).getListLength 0 fuel =
        some (([1] : List Nat).length + 1)) ∧
    ((((⟨fun u => if u = 0 then 1 else 0, fun u => if u = 0 then 1 else 0⟩ :
          Memory).list_add_tail 5 0).list_del 5).represents 0 [1] ∧
      (((⟨fun u => if u = 0 then 1 else 0, fun u => if u = 0 then 1 else 0⟩ :
          Memory).list_add_tail 5 0).list_del 5).next 5 = 5 ∧
      (((⟨fun u => if u = 0 then 1 else 0, fun u => if u = 0 then 1 else 0⟩ :
          Memory).list_add_tail 5 0).list_del 5).prev 5 = 5) ∧
    ((((⟨fun u => if u = 0 then 1 else 0, fun u => if u = 0 then 1 else 0⟩ :
          Memory).list_add 5 0).list_del 5).represents 0 [1] ∧
      (((⟨fun u => if u = 0 then 1 else 0, fun u => if u = 0 then 1 else 0⟩ :
          Memory).list_add 5 0).list_del 5).next 5 = 5 ∧
      (((⟨fun u => if u = 0 then 1 else 0, fun u => if u = 0 then 1 else 0⟩ :
          Memory).list_add 5 0).list_del 5).prev 5 = 5) :=
  list_add_list_del_represents
    ⟨fun u => if u = 0 then 1 else 0, fun u => if u = 0 then 1 else 0⟩ 0 [1] 5
    (by decide) (by decide)

/-- C37: take the list at node 0 with the one entry 1 and the list at node 2
with the one entry 3, both well-formed. After `list_splice(0, 2)` the field
`next` leads from the head 2 to 3, from 3 to 1 and from 1 back to 3: the walk
from the head never returns to the head, the node after the head does not
point back to it (`head->next->prev` is 1), and `getListLength(2)` does not
terminate, whatever the number of loop tests allowed. -/
theorem list_splice_loses_head :
    (⟨fun u => if u = 0 then 1 else if u = 1 then 0 else if u = 2 then 3 else 2,
      fun u => if u = 0 then 1 else if u = 1 then 0 else if u = 2 then 3 else 2⟩ :
        Memory).represents 0 [1] ∧
    (⟨fun u => if u = 0 then 1 else if u = 1 then 0 else if u = 2 then 3 else 2,
      fun u => if u = 0 then 1 else if u = 1 then 0 else if u = 2 then 3 else 2⟩ :
        Memory).represents 2 [3] ∧
    [0, 1, 2, 3].map
        ((⟨fun u => if u = 0 then 1 else if u = 1 then 0 else if u = 2 then 3 else 2,
          fun u => if u = 0 then 1 else if u = 1 then 0 else if u = 2 then 3 else 2⟩ :
            Memory).list_splice 0 2).next = [1, 3, 3, 1] ∧
    [0, 1, 2, 3].map
        ((⟨fun u => if u = 0 then 1 else if u = 1 then 0 else if u = 2 then 3 else 2,
          fun u => if u = 0 then 1 else if u = 1 then 0 else if u = 2 then 3 else 2⟩ :
            Memory).list_splice 0 2).prev = [1, 3, 3, 1] ∧
    ∀ fuel,
      ((⟨fun u => if u = 0 then 1 else if u = 1 then 0 else if u = 2 then 3 else 2,
        fun u => if u = 0 then 1 else if u = 1 then 0 else if u = 2 then 3 else 2⟩ :
          Memory).list_splice 0 2).getListLength 2 fuel = none := by
  refine ⟨by decide, by decide, by decide, by decide, ?_⟩
  exact (Memory.list_splice_never_returns _ 0 2 [1] [3] (by decide) (by decide)
    (by decide) (by decide) (by decide)).2.2.2

end SuShell
